import Mathlib

/-!
# 1-Wire driver (`one_wire.c`): shallow embedding and verification

The C driver is embedded by explicit state passing.  `uint8_t` values are
natural numbers, reduced modulo `256` wherever the C code can wrap.  The three
hardware callbacks stored in `one_wire_t` become pure functions over the
opaque `user_data`, each returning the new `user_data`.  Loops are structural
recursions on a fuel argument and return `none` when the fuel runs out.

The struct carries one ghost field, `trace`, that records every callback
invocation in order; it is never read by the driver.
-/

namespace OneWire

/-- An `unsigned char[8]` buffer (a ROM code, or the caller's `new_addr`). -/
abbrev Rom := Fin 8 → Nat

/-- Array read `buf[n]` of an 8-byte buffer. -/
def rd (buf : Rom) (n : Nat) : Nat :=
  if h : n < 8 then buf ⟨n, h⟩ else 0

/-- Array write `buf[n] = v` of an 8-byte buffer. -/
def wr (buf : Rom) (n : Nat) (v : Nat) : Rom :=
  fun i => if i.val = n then v else buf i

/-- One invocation of a hardware callback, with the value exchanged. -/
inductive BusOp where
  | reset (presence : Nat)
  | read_bit (value : Nat)
  | write_bit (data : Nat)
  deriving DecidableEq, Repr

/-- The driver structure `one_wire_t`; `trace` is a ghost field. -/
structure one_wire_t (β : Type) where
  user_data : β
  reset : β → Nat × β
  read_bit : β → Nat × β
  write_bit : β → Nat → β
  _rom_no : Rom
  _last_discrepancy : Nat
  _last_family_discrepancy : Nat
  _last_device_flag : Bool
  trace : List BusOp

variable {β : Type}

/-- The call `one_wire->reset(one_wire->user_data)`. -/
def one_wire_reset (one_wire : one_wire_t β) : Nat × one_wire_t β :=
  let r := one_wire.reset one_wire.user_data
  (r.1, { one_wire with user_data := r.2, trace := one_wire.trace ++ [BusOp.reset r.1] })

/-- The call `one_wire->write_bit(one_wire->user_data, data)`. -/
def one_wire_write_bit (one_wire : one_wire_t β) (data : Nat) : one_wire_t β :=
  { one_wire with
    user_data := one_wire.write_bit one_wire.user_data data,
    trace := one_wire.trace ++ [BusOp.write_bit data] }

/-- The call `one_wire->read_bit(one_wire->user_data)`. -/
def one_wire_read_bit (one_wire : one_wire_t β) : Nat × one_wire_t β :=
  let r := one_wire.read_bit one_wire.user_data
  (r.1, { one_wire with user_data := r.2, trace := one_wire.trace ++ [BusOp.read_bit r.1] })

/-- The `for (bit_mask = 0x01; bit_mask; bit_mask <<= 1)` loop of `one_wire_write`. -/
def write_loop : Nat → one_wire_t β → Nat → Nat → Option (one_wire_t β)
  | fuel, one_wire, data, bit_mask =>
    if bit_mask = 0 then some one_wire
    else
      match fuel with
      | 0 => none
      | fuel + 1 =>
        write_loop fuel
          (one_wire_write_bit one_wire (if bit_mask &&& data ≠ 0 then 1 else 0))
          data ((bit_mask <<< 1) % 256)

/-- Write one byte, least significant bit first. -/
def one_wire_write (one_wire : one_wire_t β) (data : Nat) : Option (one_wire_t β) :=
  write_loop 8 one_wire data 0x01

/-- The `for (i = 0; i < count; i++)` loop of `one_wire_write_bytes`. -/
def write_bytes_loop : Nat → one_wire_t β → List Nat → Nat → Nat → Option (one_wire_t β)
  | fuel, one_wire, buf, count, i =>
    if i < count then
      match fuel with
      | 0 => none
      | fuel + 1 =>
        match one_wire_write one_wire (buf.getD i 0) with
        | none => none
        | some ow => write_bytes_loop fuel ow buf count ((i + 1) % 65536)
    else some one_wire

/-- Write `count` bytes of `buf`. -/
def one_wire_write_bytes (one_wire : one_wire_t β) (buf : List Nat) (count : Nat) :
    Option (one_wire_t β) :=
  write_bytes_loop count one_wire buf count 0

/-- Issue the ROM select command for `rom`. -/
def one_wire_select (one_wire : one_wire_t β) (rom : Rom) : Option (one_wire_t β) :=
  match one_wire_write one_wire 0x55 with
  | none => none
  | some ow => one_wire_write_bytes ow (List.ofFn rom) 8

/-- Issue the ROM skip command. -/
def one_wire_skip (one_wire : one_wire_t β) : Option (one_wire_t β) :=
  one_wire_write one_wire 0xCC

/-- The `for (bit_mask = 0x01; bit_mask; bit_mask <<= 1)` loop of `one_wire_read`. -/
def read_loop : Nat → one_wire_t β → Nat → Nat → Option (Nat × one_wire_t β)
  | fuel, one_wire, res, bit_mask =>
    if bit_mask = 0 then some (res, one_wire)
    else
      match fuel with
      | 0 => none
      | fuel + 1 =>
        let r := one_wire_read_bit one_wire
        read_loop fuel r.2 (if r.1 ≠ 0 then res ||| bit_mask else res) ((bit_mask <<< 1) % 256)

/-- Read one byte, least significant bit first. -/
def one_wire_read (one_wire : one_wire_t β) : Option (Nat × one_wire_t β) :=
  read_loop 8 one_wire 0 0x01

/-- The `for (i = 0; i < count; i++)` loop of `one_wire_read_bytes`. -/
def read_bytes_loop : Nat → one_wire_t β → List Nat → Nat → Nat → Option (List Nat × one_wire_t β)
  | fuel, one_wire, buf, count, i =>
    if i < count then
      match fuel with
      | 0 => none
      | fuel + 1 =>
        match one_wire_read one_wire with
        | none => none
        | some r => read_bytes_loop fuel r.2 (buf.set i r.1) count ((i + 1) % 65536)
    else some (buf, one_wire)

/-- Read `count` bytes into `buf`. -/
def one_wire_read_bytes (one_wire : one_wire_t β) (buf : List Nat) (count : Nat) :
    Option (List Nat × one_wire_t β) :=
  read_bytes_loop count one_wire buf count 0

/-- Clear the search state. -/
def one_wire_search_reset (one_wire : one_wire_t β) : one_wire_t β :=
  { one_wire with
    _last_discrepancy := 0,
    _last_device_flag := false,
    _last_family_discrepancy := 0,
    _rom_no := fun _ => 0 }

/-- Prime the search state for the family `family_code`. -/
def one_wire_search_target (one_wire : one_wire_t β) (family_code : Nat) : one_wire_t β :=
  { one_wire with
    _last_discrepancy := 64,
    _last_device_flag := false,
    _last_family_discrepancy := 0,
    _rom_no := fun i => if i.val = 0 then family_code else 0 }

/-- Initialise the structure: store the callbacks and clear the search state. -/
def one_wire_init (one_wire : one_wire_t β) (user_data : β) (reset : β → Nat × β)
    (read_bit : β → Nat × β) (write_bit : β → Nat → β) : one_wire_t β :=
  one_wire_search_reset
    { one_wire with
      user_data := user_data, reset := reset, read_bit := read_bit, write_bit := write_bit }

/-- The driver structure together with the locals of `one_wire_search` that
live across iterations of its `do ... while` loop. -/
structure search_vars (β : Type) where
  one_wire : one_wire_t β
  id_bit_number : Nat
  last_zero : Nat
  rom_byte_number : Nat
  rom_byte_mask : Nat

/-- One execution of the body of the `do ... while` loop of `one_wire_search`.
The Boolean is `true` when the body left the loop through `break`. -/
def search_body (v : search_vars β) : Bool × search_vars β :=
  let r1 := one_wire_read_bit v.one_wire
  let id_bit := r1.1
  let r2 := one_wire_read_bit r1.2
  let cmp_id_bit := r2.1
  let ow := r2.2
  if id_bit = 1 ∧ cmp_id_bit = 1 then
    (true, { v with one_wire := ow })
  else
    let search_direction : Nat :=
      if id_bit ≠ cmp_id_bit then id_bit
      else if v.id_bit_number < ow._last_discrepancy then
        (if rd ow._rom_no v.rom_byte_number &&& v.rom_byte_mask > 0 then 1 else 0)
      else
        (if v.id_bit_number = ow._last_discrepancy then 1 else 0)
    let zero_picked : Prop := id_bit = cmp_id_bit ∧ search_direction = 0
    let last_zero := if zero_picked then v.id_bit_number else v.last_zero
    let last_family_discrepancy :=
      if zero_picked ∧ last_zero < 9 then last_zero else ow._last_family_discrepancy
    let rom_byte :=
      if search_direction = 1 then rd ow._rom_no v.rom_byte_number ||| v.rom_byte_mask
      else rd ow._rom_no v.rom_byte_number &&& (255 ^^^ v.rom_byte_mask)
    let ow := one_wire_write_bit
      { ow with
        _last_family_discrepancy := last_family_discrepancy,
        _rom_no := wr ow._rom_no v.rom_byte_number rom_byte }
      search_direction
    let id_bit_number := (v.id_bit_number + 1) % 256
    let rom_byte_mask := (v.rom_byte_mask <<< 1) % 256
    (false,
      { one_wire := ow, id_bit_number := id_bit_number, last_zero := last_zero,
        rom_byte_number :=
          if rom_byte_mask = 0 then (v.rom_byte_number + 1) % 256 else v.rom_byte_number,
        rom_byte_mask := if rom_byte_mask = 0 then 1 else rom_byte_mask })

/-- The `do ... while (rom_byte_number < 8)` loop of `one_wire_search`. -/
def search_loop : Nat → search_vars β → Option (search_vars β)
  | 0, _ => none
  | fuel + 1, v =>
    let r := search_body v
    if r.1 then some r.2
    else if r.2.rom_byte_number < 8 then search_loop fuel r.2
    else some r.2

/-- What a call of `one_wire_search` leaves behind: the return value, the
driver structure and the caller's `new_addr` buffer. -/
structure search_ret (β : Type) where
  found : Bool
  one_wire : one_wire_t β
  new_addr : Rom

/-- The code of `one_wire_search` after the search loop. -/
def search_finish (one_wire : one_wire_t β) (search_result : Bool) (new_addr : Rom) :
    search_ret β :=
  if !search_result || rd one_wire._rom_no 0 = 0 then
    { found := false, one_wire := one_wire_search_reset one_wire, new_addr := new_addr }
  else
    { found := search_result, one_wire := one_wire,
      new_addr := fun i => rd one_wire._rom_no i.val }

/-- The reset, the search command and the search loop of `one_wire_search`:
everything inside `if (!_last_device_flag)` up to the end of the loop.
The result is `none` when a loop runs out of fuel, `some none` on the early
`return false` after a reset without presence, and otherwise the loop
variables. -/
def search_walk (one_wire : one_wire_t β) : Option (Option (search_vars β)) :=
  let r := one_wire_reset one_wire
  if r.1 = 0 then some none
  else
    match one_wire_write r.2 0xF0 with
    | none => none
    | some ow =>
      match search_loop 64
          { one_wire := ow, id_bit_number := 1, last_zero := 0,
            rom_byte_number := 0, rom_byte_mask := 1 } with
      | none => none
      | some v => some (some v)

/-- Look for the next device. -/
def one_wire_search (one_wire : one_wire_t β) (new_addr : Rom) : Option (search_ret β) :=
  if !one_wire._last_device_flag then
    match search_walk one_wire with
    | none => none
    | some none =>
      some { found := false,
             one_wire := one_wire_search_reset (one_wire_reset one_wire).2,
             new_addr := new_addr }
    | some (some v) =>
      if !(v.id_bit_number < 65) then
        let ow := { v.one_wire with _last_discrepancy := v.last_zero }
        let ow := if ow._last_discrepancy = 0 then { ow with _last_device_flag := true } else ow
        some (search_finish ow true new_addr)
      else
        some (search_finish v.one_wire false new_addr)
  else
    some (search_finish one_wire false new_addr)

/-! ## Sequences of search calls -/

/-- The outcome of `n` successive calls of `one_wire_search` on the same
driver structure and the same caller buffer: the return value and the buffer
content after each call, and the structure and buffer left by the last. -/
def search_calls : Nat → one_wire_t β → Rom → Option (List (Bool × Rom) × one_wire_t β × Rom)
  | 0, one_wire, new_addr => some ([], one_wire, new_addr)
  | n + 1, one_wire, new_addr =>
    match one_wire_search one_wire new_addr with
    | none => none
    | some r =>
      match search_calls n r.one_wire r.new_addr with
      | none => none
      | some (rs, ow, addr) => some ((r.found, r.new_addr) :: rs, ow, addr)

/-- The identifiers returned by the successful calls of a caller that keeps
calling `one_wire_search`, at most `n` times, until it returns `false`. -/
def search_until_false : Nat → one_wire_t β → Rom → Option (List Rom)
  | 0, _, _ => some []
  | n + 1, one_wire, new_addr =>
    match one_wire_search one_wire new_addr with
    | none => none
    | some r =>
      if r.found then
        match search_until_false n r.one_wire r.new_addr with
        | none => none
        | some ids => some (r.new_addr :: ids)
      else some []

/-! ## The simulated wired-AND bus

A test double for the three callbacks.  Every attached device holds a fixed
ROM code.  A reset makes all attached devices participate again and reports
presence when there is at least one.  The first eight bits written after a
reset are the command byte; the devices answer only to the search command
`0xF0`.  In a search, bit position by bit position, the first read returns the
AND of the participating devices' bit, the second read the AND of its
complement, and the written bit drops the devices whose bit differs. -/

/-- Bit `i` (`0 ≤ i < 64`) of a ROM code: bit `i % 8` of byte `i / 8`.  This is
bit position `i + 1` in the numbering of the search algorithm. -/
def idBit (id : Rom) (i : Nat) : Bool :=
  (rd id (i / 8)).testBit (i % 8)

/-- State of the simulated bus. -/
structure SimBus where
  /-- ROM codes of the attached devices. -/
  devices : List Rom
  /-- ROM codes of the devices still participating. -/
  active : List Rom
  /-- Bits written since the last reset while the command byte is incomplete. -/
  cmd : List Nat
  /-- Index of the ROM bit the search is at. -/
  pos : Nat
  /-- The value `0` before the read of the bit, `1` before the read of the complement, `2` before the write. -/
  phase : Nat

/-- The bits of the search command `0xF0`, least significant first. -/
def searchCmdBits : List Nat := [0, 0, 0, 0, 1, 1, 1, 1]

/-- The devices are in a search: they received the command `0xF0` and there are bits left. -/
def SimBus.searching (b : SimBus) : Bool :=
  decide (b.cmd = searchCmdBits) && decide (b.pos < 64)

/-- Reset callback of the simulated bus. -/
def sim_reset (b : SimBus) : Nat × SimBus :=
  (if b.devices.isEmpty then 0 else 1,
   { b with active := b.devices, cmd := [], pos := 0, phase := 0 })

/-- Read callback of the simulated bus. -/
def sim_read_bit (b : SimBus) : Nat × SimBus :=
  if b.searching then
    if b.phase = 0 then
      (if b.active.all (fun id => idBit id b.pos) then 1 else 0, { b with phase := 1 })
    else if b.phase = 1 then
      (if b.active.all (fun id => !idBit id b.pos) then 1 else 0, { b with phase := 2 })
    else (1, b)
  else (1, b)

/-- Write callback of the simulated bus. -/
def sim_write_bit (b : SimBus) (data : Nat) : SimBus :=
  if b.cmd.length < 8 then { b with cmd := b.cmd ++ [data] }
  else if b.searching && decide (b.phase = 2) then
    { b with
      active := b.active.filter (fun id => idBit id b.pos == decide (data ≠ 0)),
      pos := b.pos + 1, phase := 0 }
  else b

/-- A driver structure attached to the simulated bus holding the devices `devs`. -/
def sim_one_wire (devs : List Rom) : one_wire_t SimBus :=
  one_wire_init
    { user_data := { devices := [], active := [], cmd := [], pos := 0, phase := 0 },
      reset := sim_reset, read_bit := sim_read_bit, write_bit := sim_write_bit,
      _rom_no := fun _ => 0, _last_discrepancy := 0, _last_family_discrepancy := 0,
      _last_device_flag := false, trace := [] }
    { devices := devs, active := [], cmd := [], pos := 0, phase := 0 }
    sim_reset sim_read_bit sim_write_bit

/-- The driver structure uses the callbacks of the simulated bus, and the bus holds `devs`. -/
def OnSim (one_wire : one_wire_t SimBus) (devs : List Rom) : Prop :=
  one_wire.reset = sim_reset ∧ one_wire.read_bit = sim_read_bit ∧
  one_wire.write_bit = sim_write_bit ∧ one_wire.user_data.devices = devs

/-- Every byte of the buffer is a `uint8_t` value. -/
def ValidRom (id : Rom) : Prop := ∀ i, id i < 256

/-- The first `n` bits of a ROM code read as a binary number, bit `0` first. -/
def bitsValue (id : Rom) : Nat → Nat
  | 0 => 0
  | n + 1 => 2 * bitsValue id n + (idBit id n).toNat

/-- A ROM code as a 64-bit number whose most significant bit is bit position 1
(the least significant bit of byte 0) and whose least significant bit is bit
position 64 (the most significant bit of byte 7). -/
def idValue (id : Rom) : Nat := bitsValue id 64

/-! ## Vocabulary of the search on the simulated bus -/

/-- The two ROM codes have the same bits at the indices below `i`. -/
def agree (x y : Rom) (i : Nat) : Prop := ∀ j < i, idBit x j = idBit y j

instance (x y : Rom) (i : Nat) : Decidable (agree x y i) := by
  unfold agree; infer_instance

/-- The direction the resolution rule takes at a discrepancy at bit index `i`
(bit position `i + 1`), given `_last_discrepancy` and `_rom_no` at entry. -/
def choice (LD : Nat) (rom0 : Rom) (i : Nat) : Bool :=
  if i + 1 < LD then idBit rom0 i else decide (i + 1 = LD)

/-- Both bit values occur at index `i` among the participating devices. -/
def mixed (act : List Rom) (i : Nat) : Bool :=
  !act.all (fun id => idBit id i) && !act.all (fun id => !idBit id i)

/-- The direction of the walk at bit index `i` on the simulated bus. -/
def simDir (act : List Rom) (LD : Nat) (rom : Rom) (i : Nat) : Bool :=
  if act.all (fun id => idBit id i) then true
  else if act.all (fun id => !idBit id i) then false
  else choice LD rom i

/-- The ROM buffer with bit index `i` set to `d`, through the byte operations of the driver. -/
def setBit (rom : Rom) (i : Nat) (d : Bool) : Rom :=
  wr rom (i / 8)
    (if d then rd rom (i / 8) ||| 2 ^ (i % 8) else rd rom (i / 8) &&& (255 ^^^ 2 ^ (i % 8)))

/-- Some attached device shares the bits of `x` below index `j` and differs from `x` at `j`:
the walk that resolves to `x` meets a discrepancy at bit position `j + 1`. -/
def Fork (devs : List Rom) (x : Rom) (j : Nat) : Prop :=
  ∃ z ∈ devs, agree z x j ∧ idBit z j ≠ idBit x j

/-- The value `lz` is the position of the last discrepancy below index `i` at which the walk
to `x` went to `0`, or `0` when there is none. -/
def ZeroInv (devs : List Rom) (x : Rom) (i : Nat) (lz : Nat) : Prop :=
  (lz = 0 ∨ (1 ≤ lz ∧ lz ≤ i ∧ Fork devs x (lz - 1) ∧ idBit x (lz - 1) = false)) ∧
  ∀ j, lz ≤ j → j < i → ¬ (Fork devs x j ∧ idBit x j = false)

/-- Loop invariant of the search loop on the simulated bus holding `devs`, before the pass
for bit index `i`, for a call entered with `_rom_no = rom0` and `_last_discrepancy = LD`. -/
structure WalkInv (devs : List Rom) (rom0 : Rom) (LD : Nat) (i : Nat)
    (v : search_vars SimBus) : Prop where
  hid : v.id_bit_number = i + 1
  hbyte : v.rom_byte_number = i / 8
  hmask : v.rom_byte_mask = 2 ^ (i % 8)
  hreset : v.one_wire.reset = sim_reset
  hread : v.one_wire.read_bit = sim_read_bit
  hwrite : v.one_wire.write_bit = sim_write_bit
  hld : v.one_wire._last_discrepancy = LD
  hflag : v.one_wire._last_device_flag = false
  hdev : v.one_wire.user_data.devices = devs
  hact : v.one_wire.user_data.active =
    devs.filter (fun z => decide (agree z v.one_wire._rom_no i))
  hcmd : v.one_wire.user_data.cmd = searchCmdBits
  hpos : v.one_wire.user_data.pos = i
  hphase : v.one_wire.user_data.phase = 0
  hvalid : ValidRom v.one_wire._rom_no
  hrest : ∀ j, i ≤ j → idBit v.one_wire._rom_no j = idBit rom0 j
  hne : ∃ x ∈ devs, agree x v.one_wire._rom_no i
  hchoice : ∀ j < i, Fork devs v.one_wire._rom_no j →
    idBit v.one_wire._rom_no j = choice LD rom0 j
  hzero : ZeroInv devs v.one_wire._rom_no i v.last_zero

/-- The ROM code `x` is the one a walk entered with `_rom_no = rom0` and
`_last_discrepancy = LD` resolves to: an attached device that follows the resolution rule
at each of its discrepancies. -/
def Resolves (devs : List Rom) (rom0 : Rom) (LD : Nat) (x : Rom) : Prop :=
  x ∈ devs ∧ ∀ j < 64, Fork devs x j → idBit x j = choice LD rom0 j

/-- The search state left by a successful search that returned the attached device `x`:
`_rom_no` holds `x`, `_last_discrepancy` is the last zero fork of `x`, and
`_last_device_flag` is set exactly when there is no such fork. -/
def EnumState (devs : List Rom) (one_wire : one_wire_t SimBus) (x : Rom) : Prop :=
  OnSim one_wire devs ∧ x ∈ devs ∧ one_wire._rom_no = x ∧
  ZeroInv devs x 64 one_wire._last_discrepancy ∧
  one_wire._last_device_flag = decide (one_wire._last_discrepancy = 0)

/-! ## Vocabulary of one search call on an arbitrary bus -/

/-- The loop variables of `one_wire_search` at entry to the search loop. -/
def search_start (one_wire : one_wire_t β) : search_vars β :=
  { one_wire := one_wire, id_bit_number := 1, last_zero := 0, rom_byte_number := 0,
    rom_byte_mask := 1 }

/-- The two bits (`id_bit`, `cmp_id_bit`) a pass of the search loop reads. -/
def pass_reads (v : search_vars β) : Nat × Nat :=
  ((one_wire_read_bit v.one_wire).1, (one_wire_read_bit (one_wire_read_bit v.one_wire).2).1)

/-- The loop variables after `n` passes of the loop body. -/
def search_passes : Nat → search_vars β → search_vars β
  | 0, v => v
  | n + 1, v => search_passes n (search_body v).2

/-- The loop counters before the pass for bit index `k` (bit position `k + 1`). -/
def Counters (k : Nat) (v : search_vars β) : Prop :=
  v.id_bit_number = k + 1 ∧ v.rom_byte_number = k / 8 ∧ v.rom_byte_mask = 2 ^ (k % 8)

/-- A driver structure on a shorted bus: the reset reports presence and every read
returns `1`.  The search state is an arbitrary one left by earlier calls. -/
def shorted_one_wire : one_wire_t Unit :=
  { user_data := (), reset := fun _ => (1, ()), read_bit := fun _ => (1, ()),
    write_bit := fun _ _ => (), _rom_no := fun _ => 9, _last_discrepancy := 5,
    _last_family_discrepancy := 2, _last_device_flag := false, trace := [] }

/-! ## Properties the claims are about -/

/-- Repeated `one_wire_search` calls from the cleared search state on the simulated bus
holding `devs` return exactly `devs.length` successful results followed by one
`found = false`, and the returned identifiers are the device identifiers, none repeated
and none omitted. -/
def EnumeratesExactly (devs : List Rom) (one_wire : one_wire_t SimBus) (new_addr : Rom) : Prop :=
  ∃ (ids : List Rom) (ow : one_wire_t SimBus) (addr : Rom) (r : search_ret SimBus),
    search_calls devs.length (one_wire_search_reset one_wire) new_addr =
      some (ids.map (fun id => (true, id)), ow, addr) ∧
    ids.Perm devs ∧ one_wire_search ow addr = some r ∧ r.found = false

/-- After `one_wire_search_target(fc)`, the next `one_wire_search` returns `found = true`
with the identifier `x`. -/
def TargetFinds (fc : Nat) (x : Rom) (one_wire : one_wire_t SimBus) (new_addr : Rom) : Prop :=
  ∃ r, one_wire_search (one_wire_search_target one_wire fc) new_addr = some r ∧
    r.found = true ∧ r.new_addr = x

/-- The two-device scenario: from the cleared search state, the first `one_wire_search`
returns `a` and leaves `_last_discrepancy = 3`, the second returns `b` and leaves
`_last_device_flag = true`, and the third returns `found = false`. -/
def TwoDeviceScenario (a b : Rom) (one_wire : one_wire_t SimBus) (new_addr : Rom) : Prop :=
  ∃ r1 r2 r3,
    one_wire_search (one_wire_search_reset one_wire) new_addr = some r1 ∧
    r1.found = true ∧ r1.new_addr = a ∧ r1.one_wire._last_discrepancy = 3 ∧
    one_wire_search r1.one_wire r1.new_addr = some r2 ∧
    r2.found = true ∧ r2.new_addr = b ∧ r2.one_wire._last_device_flag = true ∧
    one_wire_search r2.one_wire r2.new_addr = some r3 ∧ r3.found = false

/-! ## Vocabulary of the byte codec -/

/-- The bits of a byte, least significant first: `(data >> i) & 1` for `i = 0, ..., 7`. -/
def byte_bits (data : Nat) : List Nat :=
  (List.range 8).map (fun i => (data >>> i) &&& 1)

/-- The value of the `uint8_t` loop variable `bit_mask` after `n` executions of
`bit_mask <<= 1`, starting from `0x01`. -/
def mask_after : Nat → Nat
  | 0 => 0x01
  | n + 1 => (mask_after n <<< 1) % 256

/-- The driver structure after `write_bit` calls with the arguments `bits`, in order. -/
def write_bits (one_wire : one_wire_t β) (bits : List Nat) : one_wire_t β :=
  bits.foldl one_wire_write_bit one_wire

/-- The results of `n` successive `read_bit` calls, and the driver structure after them. -/
def read_bits : Nat → one_wire_t β → List Nat × one_wire_t β
  | 0, one_wire => ([], one_wire)
  | n + 1, one_wire =>
    let r := one_wire_read_bit one_wire
    let rest := read_bits n r.2
    (r.1 :: rest.1, rest.2)

/-- The arguments of the `write_bit` calls recorded in a trace, in order. -/
def written_bits : List BusOp → List Nat
  | [] => []
  | BusOp.write_bit data :: ops => data :: written_bits ops
  | _ :: ops => written_bits ops

/-- The number of `read_bit` calls recorded in a trace. -/
def read_count : List BusOp → Nat
  | [] => 0
  | BusOp.read_bit _ :: ops => read_count ops + 1
  | _ :: ops => read_count ops

/-- A bus that replays a recorded bit stream: each `read_bit` returns the next bit of the
stream held in `user_data` (and `1`, the idle level, when the stream is exhausted); writes
and resets leave the stream alone. -/
def stream_one_wire (bits : List Nat) : one_wire_t (List Nat) :=
  { user_data := bits, reset := fun s => (0, s),
    read_bit := fun s => (s.headD 1, s.tail), write_bit := fun s _ => s,
    _rom_no := fun _ => 0, _last_discrepancy := 0, _last_family_discrepancy := 0,
    _last_device_flag := false, trace := [] }

/-- The byte assembled from read results, least significant bit first: bit `i` is set
exactly when the `i`-th result is non-zero. -/
def byte_of_bits : List Nat → Nat
  | [] => 0
  | r :: rs => (if r ≠ 0 then 1 else 0) + 2 * byte_of_bits rs

/-! ## Vocabulary of the later claims -/

/-- The driver structure after the code that follows a successful walk (`search successful
so set LastDiscrepancy, LastDeviceFlag`), before the final guard of `one_wire_search`. -/
def search_success (v : search_vars β) : one_wire_t β :=
  let ow := { v.one_wire with _last_discrepancy := v.last_zero }
  if ow._last_discrepancy = 0 then { ow with _last_device_flag := true } else ow

/-- At bit position `p` the identifier `x` has bit `0` while some other attached device
agrees with `x` on the positions `1, ..., p - 1` and has bit `1` at `p`. -/
def ZeroForkAt (devs : List Rom) (x : Rom) (p : Nat) : Prop :=
  1 ≤ p ∧ p ≤ 64 ∧ idBit x (p - 1) = false ∧
  ∃ z ∈ devs, z ≠ x ∧ agree z x (p - 1) ∧ idBit z (p - 1) = true

/-- The number `L` is the highest position that is a zero fork of `x`, and `0` when `x` has
no zero fork. -/
def HighestZeroFork (devs : List Rom) (x : Rom) (L : Nat) : Prop :=
  (L = 0 ∧ ∀ p, ¬ ZeroForkAt devs x p) ∨
  (ZeroForkAt devs x L ∧ ∀ p, ZeroForkAt devs x p → p ≤ L)

/-- The invariant of the search cursors. -/
def SearchInv (one_wire : one_wire_t β) : Prop :=
  one_wire._last_discrepancy ≤ 64 ∧ one_wire._last_family_discrepancy ≤ 8 ∧
  (one_wire._last_device_flag = true → one_wire._last_discrepancy = 0)

/-- The search state of a driver structure: `_rom_no` and the three cursors. -/
def search_state (one_wire : one_wire_t β) : Rom × Nat × Nat × Bool :=
  (one_wire._rom_no, one_wire._last_discrepancy, one_wire._last_family_discrepancy,
    one_wire._last_device_flag)

/-- The driver structure without its ghost trace. -/
def erase_trace (one_wire : one_wire_t β) : one_wire_t β :=
  { one_wire with trace := [] }

/-- The loop variables without the ghost trace. -/
def erase_trace_vars (v : search_vars β) : search_vars β :=
  { v with one_wire := erase_trace v.one_wire }

/-- The outcome of a search call without the ghost trace. -/
def erase_trace_ret (r : search_ret β) : search_ret β :=
  { r with one_wire := erase_trace r.one_wire }

/-- The direction of the per-bit resolution rule at bit position `p`: the bit read when the
bit and its complement differ, and otherwise the bit stored at position `p` of `_rom_no`
when `p < LD`, `1` when `p = LD` and `0` when `p > LD`. -/
def resolved_direction (b c p LD : Nat) (stored : Bool) : Nat :=
  if b ≠ c then b
  else if p < LD then (if stored then 1 else 0)
  else if p = LD then 1 else 0

/-- The bus operations of one round of the search loop that reads `b` and `c` and writes `d`. -/
def round_ops (r : Nat × Nat × Nat) : List BusOp :=
  [BusOp.read_bit r.1, BusOp.read_bit r.2.1, BusOp.write_bit r.2.2]

/-- Invariant of the search loop on an arbitrary bus, before the pass for bit index `k`, for
a walk entered with the driver structure `ow0`. -/
structure PassInv (ow0 : one_wire_t β) (k : Nat) (v : search_vars β) : Prop where
  hcount : Counters k v
  hld : v.one_wire._last_discrepancy = ow0._last_discrepancy
  hflag : v.one_wire._last_device_flag = ow0._last_device_flag
  hreset : v.one_wire.reset = ow0.reset
  hread : v.one_wire.read_bit = ow0.read_bit
  hwrite : v.one_wire.write_bit = ow0.write_bit
  hrest : ∀ j, k ≤ j → idBit v.one_wire._rom_no j = idBit ow0._rom_no j
  hzero : v.last_zero ≤ k
  hfam : ow0._last_family_discrepancy ≤ 8 → v.one_wire._last_family_discrepancy ≤ 8

/-- The loop variables at entry to the search loop of a call of `one_wire_search` on
`one_wire`: the driver structure has gone through the reset and the search command. -/
def walk_start (one_wire : one_wire_t β) : search_vars β :=
  search_start (write_bits (one_wire_reset one_wire).2 (byte_bits 0xF0))

/-! ## Bit-level facts -/

theorem rd_wr (buf : Rom) (n v m : Nat) :
    rd (wr buf n v) m = if m = n ∧ n < 8 then v else rd buf m := by
  unfold rd wr
  by_cases hm : m < 8
  · by_cases hmn : m = n
    · subst hmn; simp [hm]
    · simp [hm, hmn]
  · have : ¬ (m = n ∧ n < 8) := by omega
    simp [hm, this]

theorem and_two_pow_pos (x k : Nat) : (x &&& 2 ^ k > 0) ↔ x.testBit k = true := by
  constructor
  · intro h
    obtain ⟨i, hi⟩ := Nat.ne_zero_implies_bit_true (Nat.pos_iff_ne_zero.mp h)
    rw [Nat.testBit_and, Nat.testBit_two_pow] at hi
    simp only [Bool.and_eq_true, decide_eq_true_eq] at hi
    rw [hi.2]; exact hi.1
  · intro h
    apply Nat.pos_of_ne_zero
    intro h0
    have := congrArg (fun y => Nat.testBit y k) h0
    simp [Nat.testBit_two_pow, h] at this

theorem testBit_set (x k j : Nat) :
    (x ||| 2 ^ k).testBit j = if j = k then true else x.testBit j := by
  rw [Nat.testBit_or, Nat.testBit_two_pow]
  by_cases h : j = k
  · simp [h]
  · have : ¬ k = j := fun e => h e.symm
    simp [h, this]

theorem testBit_clear (x k j : Nat) (hx : x < 256) (hk : k < 8) :
    (x &&& (255 ^^^ 2 ^ k)).testBit j = if j = k then false else x.testBit j := by
  rw [Nat.testBit_and, Nat.testBit_xor, Nat.testBit_two_pow]
  have h255 : Nat.testBit 255 j = decide (j < 8) := Nat.testBit_two_pow_sub_one 8 j
  rw [h255]
  by_cases h : j = k
  · subst h; simp [hk]
  · have h2 : ¬ k = j := fun e => h e.symm
    by_cases h8 : j < 8
    · simp [h, h2, h8]
    · have : x.testBit j = false := by
        apply Nat.testBit_lt_two_pow
        calc x < 256 := hx
          _ = 2 ^ 8 := by norm_num
          _ ≤ 2 ^ j := Nat.pow_le_pow_right (by norm_num) (by omega)
      simp [h, this]

theorem idBit_setBit (rom : Rom) (i j : Nat) (d : Bool) (hi : i < 64) (hv : ValidRom rom) :
    idBit (setBit rom i d) j = if j = i then d else idBit rom j := by
  unfold idBit setBit
  rw [rd_wr]
  have h8 : i / 8 < 8 := by omega
  have hb : rd rom (i / 8) < 256 := by
    unfold rd; simp only [h8, dite_true]; exact hv _
  by_cases hji : j = i
  · subst hji
    cases d
    · simp [h8, testBit_clear _ _ _ hb (Nat.mod_lt _ (by norm_num))]
    · simp [h8, testBit_set]
  · by_cases hq : j / 8 = i / 8
    · have hm : j % 8 ≠ i % 8 := by omega
      cases d
      · simp [hq, h8, hji, testBit_clear _ _ _ hb (Nat.mod_lt _ (by norm_num)), hm]
      · simp [hq, h8, hji, Nat.testBit_two_pow, Ne.symm hm]
    · simp [hq, hji]

theorem validRom_setBit (rom : Rom) (i : Nat) (d : Bool) (hv : ValidRom rom) :
    ValidRom (setBit rom i d) := by
  intro k
  unfold setBit wr
  have hb : rd rom (i / 8) < 2 ^ 8 := by
    unfold rd; split
    · exact hv _
    · norm_num
  by_cases hk : k.val = i / 8
  · simp only [hk, if_true]
    cases d
    · simp only [Bool.false_eq_true, if_false]
      exact lt_of_le_of_lt Nat.and_le_left hb
    · simp only [if_true]
      have : 2 ^ (i % 8) < 2 ^ 8 := Nat.pow_lt_pow_right (by norm_num) (Nat.mod_lt _ (by norm_num))
      exact Nat.or_lt_two_pow hb this
  · simp only [hk, if_false]; exact hv k

theorem shift_mask (i : Nat) : (2 ^ (i % 8) <<< 1) % 256 = if i % 8 = 7 then 0 else 2 ^ ((i + 1) % 8) := by
  have h : i % 8 < 8 := Nat.mod_lt _ (by norm_num)
  have h1 : (i + 1) % 8 = if i % 8 = 7 then 0 else i % 8 + 1 := by split <;> omega
  rw [h1]
  generalize i % 8 = k at h
  interval_cases k <;> simp

/-! ## One pass of the search loop on the simulated bus -/

theorem sim_read_bit_phase0 (devs act : List Rom) (i : Nat) (hi : i < 64) :
    sim_read_bit { devices := devs, active := act, cmd := searchCmdBits, pos := i, phase := 0 } =
      (if act.all (fun id => idBit id i) then 1 else 0,
       { devices := devs, active := act, cmd := searchCmdBits, pos := i, phase := 1 }) := by
  simp [sim_read_bit, SimBus.searching, hi]

theorem sim_read_bit_phase1 (devs act : List Rom) (i : Nat) (hi : i < 64) :
    sim_read_bit { devices := devs, active := act, cmd := searchCmdBits, pos := i, phase := 1 } =
      (if act.all (fun id => !idBit id i) then 1 else 0,
       { devices := devs, active := act, cmd := searchCmdBits, pos := i, phase := 2 }) := by
  simp [sim_read_bit, SimBus.searching, hi]

theorem sim_write_bit_phase2 (devs act : List Rom) (i : Nat) (hi : i < 64) (d : Nat) :
    sim_write_bit { devices := devs, active := act, cmd := searchCmdBits, pos := i, phase := 2 } d =
      { devices := devs, active := act.filter (fun id => idBit id i == decide (d ≠ 0)),
        cmd := searchCmdBits, pos := i + 1, phase := 0 } := by
  simp [sim_write_bit, SimBus.searching, hi, searchCmdBits]

theorem search_body_sim (v : search_vars SimBus) (i : Nat) (hi : i < 64)
    (hid : v.id_bit_number = i + 1) (hbyte : v.rom_byte_number = i / 8)
    (hmask : v.rom_byte_mask = 2 ^ (i % 8))
    (hread : v.one_wire.read_bit = sim_read_bit) (hwrite : v.one_wire.write_bit = sim_write_bit)
    (hcmd : v.one_wire.user_data.cmd = searchCmdBits) (hpos : v.one_wire.user_data.pos = i)
    (hphase : v.one_wire.user_data.phase = 0)
    (hne : v.one_wire.user_data.active ≠ []) :
    search_body v = (false,
      { one_wire :=
          { v.one_wire with
            user_data :=
              { v.one_wire.user_data with
                active := v.one_wire.user_data.active.filter (fun id => idBit id i ==
                  simDir v.one_wire.user_data.active v.one_wire._last_discrepancy v.one_wire._rom_no i),
                pos := i + 1, phase := 0 },
            _rom_no := setBit v.one_wire._rom_no i
              (simDir v.one_wire.user_data.active v.one_wire._last_discrepancy v.one_wire._rom_no i),
            _last_family_discrepancy :=
              if mixed v.one_wire.user_data.active i ∧
                  simDir v.one_wire.user_data.active v.one_wire._last_discrepancy v.one_wire._rom_no i = false ∧
                  i < 8 then i + 1
              else v.one_wire._last_family_discrepancy,
            trace := v.one_wire.trace ++
              [BusOp.read_bit (if v.one_wire.user_data.active.all (fun id => idBit id i) then 1 else 0),
               BusOp.read_bit (if v.one_wire.user_data.active.all (fun id => !idBit id i) then 1 else 0),
               BusOp.write_bit
                 (simDir v.one_wire.user_data.active v.one_wire._last_discrepancy v.one_wire._rom_no i).toNat] },
        id_bit_number := i + 2,
        last_zero :=
          if mixed v.one_wire.user_data.active i ∧
              simDir v.one_wire.user_data.active v.one_wire._last_discrepancy v.one_wire._rom_no i = false
          then i + 1 else v.last_zero,
        rom_byte_number := (i + 1) / 8,
        rom_byte_mask := 2 ^ ((i + 1) % 8) }) := by
  obtain ⟨ow, idn, lz, bn, bm⟩ := v
  obtain ⟨ud, rs, rb, wb, rom, ld, lfd, flag, tr⟩ := ow
  obtain ⟨devs, act, cmd, pos, ph⟩ := ud
  simp only at hid hbyte hmask hread hwrite hcmd hpos hphase hne
  subst idn bn bm rb wb cmd pos ph
  have hnot : ¬ (act.all (fun id => idBit id i) = true ∧ act.all (fun id => !idBit id i) = true) := by
    rintro ⟨h1, h0⟩
    cases act with
    | nil => exact hne rfl
    | cons x xs =>
      simp only [List.all_cons, Bool.and_eq_true] at h1 h0
      have := h1.1; have := h0.1
      simp_all
  have hbit : (rd rom (i / 8) &&& 2 ^ (i % 8) > 0) ↔ idBit rom i = true := and_two_pow_pos _ _
  have hidn : (i + 1 + 1) % 256 = i + 2 := by omega
  have hbn : (i / 8 + 1) % 256 = i / 8 + 1 := by omega
  have hm := shift_mask i
  have hd : (if i + 1 < ld then (if rd rom (i / 8) &&& 2 ^ (i % 8) > 0 then 1 else 0)
      else (if i + 1 = ld then 1 else 0)) = (choice ld rom i).toNat := by
    unfold choice
    by_cases h1 : i + 1 < ld
    · simp only [h1, if_true]
      by_cases h2 : idBit rom i = true
      · simp [h2, hbit.mpr h2]
      · have h3 : ¬ (rd rom (i / 8) &&& 2 ^ (i % 8) > 0) := fun h => h2 (hbit.mp h)
        simp only [h3, if_false]
        simp at h2; simp [h2]
    · simp only [h1, if_false]
      by_cases h2 : i + 1 = ld <;> simp [h2]
  have hrb : (if 2 ^ (i % 8) <<< 1 % 256 = 0 then (i / 8 + 1) % 256 else i / 8) = (i + 1) / 8 := by
    rw [hm, hbn]
    by_cases h7 : i % 8 = 7
    · simp only [h7, if_true]; omega
    · have : (2 : Nat) ^ ((i + 1) % 8) ≠ 0 := by positivity
      simp only [h7, if_false, this]; omega
  have hrm : (if 2 ^ (i % 8) <<< 1 % 256 = 0 then 1 else 2 ^ (i % 8) <<< 1 % 256) = 2 ^ ((i + 1) % 8) := by
    rw [hm]
    by_cases h7 : i % 8 = 7
    · have : (i + 1) % 8 = 0 := by omega
      simp [h7, this]
    · have : (2 : Nat) ^ ((i + 1) % 8) ≠ 0 := by positivity
      simp only [h7, if_false, this]
  cases hA1 : act.all (fun id => idBit id i) <;> cases hA0 : act.all (fun id => !idBit id i)
  · simp only [search_body, one_wire_read_bit, one_wire_write_bit, sim_read_bit_phase0 _ _ _ hi,
      sim_read_bit_phase1 _ _ _ hi, sim_write_bit_phase2 _ _ _ hi, hA1, hA0, simDir, mixed,
      hrb, hrm, hidn]
    simp only [Bool.false_eq_true, if_false, ne_eq, not_true_eq_false, hd]
    cases hc : choice ld rom i
    · simp [setBit]
      by_cases h8 : i < 8
      · have : i + 1 < 9 := by omega
        simp [h8, this]
      · have : ¬ i + 1 < 9 := by omega
        simp [h8, this]
    · simp [setBit]
  · simp only [search_body, one_wire_read_bit, one_wire_write_bit, sim_read_bit_phase0 _ _ _ hi,
      sim_read_bit_phase1 _ _ _ hi, sim_write_bit_phase2 _ _ _ hi, hA1, hA0, simDir, mixed,
      hrb, hrm, hidn]
    simp [setBit]
  · simp only [search_body, one_wire_read_bit, one_wire_write_bit, sim_read_bit_phase0 _ _ _ hi,
      sim_read_bit_phase1 _ _ _ hi, sim_write_bit_phase2 _ _ _ hi, hA1, hA0, simDir, mixed,
      hrb, hrm, hidn]
    simp [setBit]
  · exact absurd ⟨hA1, hA0⟩ hnot

theorem agree_succ (x y : Rom) (i : Nat) :
    agree x y (i + 1) ↔ agree x y i ∧ idBit x i = idBit y i := by
  unfold agree
  constructor
  · intro h
    exact ⟨fun j hj => h j (by omega), h i (by omega)⟩
  · rintro ⟨h1, h2⟩ j hj
    by_cases hji : j = i
    · subst hji; exact h2
    · exact h1 j (by omega)

theorem agree_congr_right (x y z : Rom) (i : Nat) (h : ∀ j < i, idBit y j = idBit z j) :
    agree x y i ↔ agree x z i := by
  unfold agree
  constructor
  · intro hx j hj; rw [hx j hj, h j hj]
  · intro hx j hj; rw [hx j hj, h j hj]

theorem agree_mono (x y : Rom) (i k : Nat) (hk : k ≤ i) (h : agree x y i) : agree x y k :=
  fun j hj => h j (by omega)

theorem fork_congr (devs : List Rom) (y z : Rom) (k : Nat)
    (h : ∀ j ≤ k, idBit y j = idBit z j) : Fork devs y k ↔ Fork devs z k := by
  unfold Fork
  have hag : ∀ w, agree w y k ↔ agree w z k :=
    fun w => agree_congr_right w y z k (fun j hj => h j (by omega))
  constructor
  · rintro ⟨w, hw, h1, h2⟩
    exact ⟨w, hw, (hag w).mp h1, by rw [← h k (le_refl k)]; exact h2⟩
  · rintro ⟨w, hw, h1, h2⟩
    exact ⟨w, hw, (hag w).mpr h1, by rw [h k (le_refl k)]; exact h2⟩

/-- Facts about the direction on the simulated bus when the participating devices
are those that share the bits of `rom` below `i`. -/
theorem simDir_facts (devs : List Rom) (rom : Rom) (LD i : Nat)
    (hne : ∃ x ∈ devs, agree x rom i) :
    let act := devs.filter (fun z => decide (agree z rom i))
    let d := simDir act LD rom i
    (∃ x ∈ devs, agree x rom i ∧ idBit x i = d) ∧
    (mixed act i = true ↔ ∃ z ∈ devs, agree z rom i ∧ idBit z i ≠ d) ∧
    (mixed act i = true → d = choice LD rom i) := by
  intro act d
  obtain ⟨x, hx, hxa⟩ := hne
  have hmem : ∀ z, z ∈ act ↔ z ∈ devs ∧ agree z rom i := by
    intro z; simp [act, List.mem_filter]
  have hall1 : act.all (fun id => idBit id i) = true ↔ ∀ z ∈ devs, agree z rom i → idBit z i = true := by
    rw [List.all_eq_true]
    constructor
    · intro h z hz hza; exact h z ((hmem z).mpr ⟨hz, hza⟩)
    · intro h z hz; exact h z ((hmem z).mp hz).1 ((hmem z).mp hz).2
  have hall0 : act.all (fun id => !idBit id i) = true ↔ ∀ z ∈ devs, agree z rom i → idBit z i = false := by
    rw [List.all_eq_true]
    constructor
    · intro h z hz hza; simpa using h z ((hmem z).mpr ⟨hz, hza⟩)
    · intro h z hz; simpa using h z ((hmem z).mp hz).1 ((hmem z).mp hz).2
  by_cases h1 : act.all (fun id => idBit id i) = true
  · have hd : d = true := by simp [d, simDir, h1]
    have hm : mixed act i = false := by simp [mixed, h1]
    refine ⟨⟨x, hx, hxa, ?_⟩, ?_, ?_⟩
    · rw [hd]; exact hall1.mp h1 x hx hxa
    · rw [hm, hd]
      constructor
      · intro h; cases h
      · rintro ⟨z, hz, hza, hne⟩
        exact absurd (hall1.mp h1 z hz hza) hne
    · rw [hm]; intro h; cases h
  · by_cases h0 : act.all (fun id => !idBit id i) = true
    · have hd : d = false := by simp [d, simDir, h1, h0]
      have hm : mixed act i = false := by simp [mixed, h0]
      refine ⟨⟨x, hx, hxa, ?_⟩, ?_, ?_⟩
      · rw [hd]; exact hall0.mp h0 x hx hxa
      · rw [hm, hd]
        constructor
        · intro h; cases h
        · rintro ⟨z, hz, hza, hne⟩
          exact absurd (hall0.mp h0 z hz hza) hne
      · rw [hm]; intro h; cases h
    · have hd : d = choice LD rom i := by simp [d, simDir, h1, h0]
      have hm : mixed act i = true := by simp [mixed, h1, h0]
      have e1 : ∃ z ∈ devs, agree z rom i ∧ idBit z i = false := by
        have := mt hall1.mpr h1
        push_neg at this
        obtain ⟨z, hz, hza, hzb⟩ := this
        exact ⟨z, hz, hza, by simpa using hzb⟩
      have e0 : ∃ z ∈ devs, agree z rom i ∧ idBit z i = true := by
        have := mt hall0.mpr h0
        push_neg at this
        obtain ⟨z, hz, hza, hzb⟩ := this
        exact ⟨z, hz, hza, by simpa using hzb⟩
      refine ⟨?_, ?_, fun _ => hd⟩
      · cases hdv : d
        · exact e1
        · exact e0
      · rw [hm]
        refine ⟨fun _ => ?_, fun _ => rfl⟩
        cases hdv : d
        · obtain ⟨z, hz, hza, hzb⟩ := e0
          exact ⟨z, hz, hza, by simp [hzb]⟩
        · obtain ⟨z, hz, hza, hzb⟩ := e1
          exact ⟨z, hz, hza, by simp [hzb]⟩

theorem walkInv_step (devs : List Rom) (rom0 : Rom) (LD i : Nat) (v : search_vars SimBus)
    (hi : i < 64) (inv : WalkInv devs rom0 LD i v) :
    ∃ w, search_body v = (false, w) ∧ WalkInv devs rom0 LD (i + 1) w := by
  have hfacts := simDir_facts devs v.one_wire._rom_no LD i inv.hne
  have hne : v.one_wire.user_data.active ≠ [] := by
    obtain ⟨x, hx, hxa⟩ := inv.hne
    rw [inv.hact]
    intro h
    have : x ∈ devs.filter (fun z => decide (agree z v.one_wire._rom_no i)) := by
      simp [List.mem_filter, hx, hxa]
    rw [h] at this
    cases this
  have hbody := search_body_sim v i hi inv.hid inv.hbyte inv.hmask inv.hread inv.hwrite
    inv.hcmd inv.hpos inv.hphase hne
  rw [inv.hact, inv.hld] at hbody
  simp only at hfacts
  generalize hd : simDir (devs.filter (fun z => decide (agree z v.one_wire._rom_no i))) LD
    v.one_wire._rom_no i = d at hbody hfacts
  generalize hmx : mixed (devs.filter (fun z => decide (agree z v.one_wire._rom_no i))) i = mx
    at hbody hfacts
  obtain ⟨hK1, hK2, hK3⟩ := hfacts
  have hbits : ∀ j, idBit (setBit v.one_wire._rom_no i d) j =
      if j = i then d else idBit v.one_wire._rom_no j :=
    fun j => idBit_setBit _ i j d hi inv.hvalid
  have hlow : ∀ j < i, idBit (setBit v.one_wire._rom_no i d) j = idBit v.one_wire._rom_no j := by
    intro j hj; rw [hbits]; simp [Nat.ne_of_lt hj]
  have hat : idBit (setBit v.one_wire._rom_no i d) i = d := by rw [hbits]; simp
  have hag : ∀ z, agree z (setBit v.one_wire._rom_no i d) (i + 1) ↔
      agree z v.one_wire._rom_no i ∧ idBit z i = d := by
    intro z
    rw [agree_succ, hat, agree_congr_right z _ v.one_wire._rom_no i hlow]
  have hfk : ∀ j < i, Fork devs (setBit v.one_wire._rom_no i d) j ↔ Fork devs v.one_wire._rom_no j :=
    fun j hj => fork_congr devs _ _ j (fun k hk => hlow k (by omega))
  have hfi : Fork devs (setBit v.one_wire._rom_no i d) i ↔ mx = true := by
    rw [hK2]
    unfold Fork
    constructor
    · rintro ⟨z, hz, h1, h2⟩
      exact ⟨z, hz, (agree_congr_right z _ _ i hlow).mp h1, by rw [hat] at h2; exact h2⟩
    · rintro ⟨z, hz, h1, h2⟩
      exact ⟨z, hz, (agree_congr_right z _ _ i hlow).mpr h1, by rw [hat]; exact h2⟩
  refine ⟨_, hbody, ?_⟩
  refine
    { hid := rfl, hbyte := rfl, hmask := rfl, hreset := inv.hreset, hread := inv.hread,
      hwrite := inv.hwrite, hld := inv.hld, hflag := inv.hflag, hdev := inv.hdev,
      hact := ?_, hcmd := inv.hcmd, hpos := rfl, hphase := rfl,
      hvalid := validRom_setBit _ _ _ inv.hvalid, hrest := ?_, hne := ?_, hchoice := ?_,
      hzero := ?_ }
  · simp only [List.filter_filter]
    apply List.filter_congr
    intro z _
    have := hag z
    by_cases h1 : agree z v.one_wire._rom_no i <;> by_cases h2 : idBit z i = d <;>
      simp_all
  · intro j hj
    simp only
    rw [hbits]
    have : j ≠ i := by omega
    simp only [this, if_false]
    exact inv.hrest j (by omega)
  · obtain ⟨x, hx, hxa, hxd⟩ := hK1
    exact ⟨x, hx, (hag x).mpr ⟨hxa, hxd⟩⟩
  · intro j hj hf
    simp only at hf ⊢
    by_cases hji : j = i
    · subst hji
      rw [hat, hK3 (hfi.mp hf)]
      unfold choice
      rw [inv.hrest j (le_refl j)]
    · have hj2 : j < i := by omega
      rw [hlow j hj2]
      exact inv.hchoice j hj2 ((hfk j hj2).mp hf)
  · obtain ⟨hz1, hz2⟩ := inv.hzero
    simp only
    by_cases hc : mx = true ∧ d = false
    · rw [if_pos hc]
      refine ⟨Or.inr ⟨by omega, le_refl _, ?_, ?_⟩, fun j h1 h2 => by omega⟩
      · simp only [Nat.add_sub_cancel]; exact hfi.mpr hc.1
      · simp only [Nat.add_sub_cancel]; rw [hat]; exact hc.2
    · rw [if_neg hc]
      refine ⟨?_, ?_⟩
      · rcases hz1 with h0 | ⟨h1, h2, h3, h4⟩
        · exact Or.inl h0
        · refine Or.inr ⟨h1, by omega, (hfk _ (by omega)).mpr h3, ?_⟩
          rw [hlow _ (by omega)]; exact h4
      · intro j h1 h2 hcon
        by_cases hji : j = i
        · subst hji
          apply hc
          exact ⟨hfi.mp hcon.1, by rw [← hat]; exact hcon.2⟩
        · have hj2 : j < i := by omega
          apply hz2 j h1 hj2
          exact ⟨(hfk j hj2).mp hcon.1, by rw [← hlow j hj2]; exact hcon.2⟩

/-! ## The whole walk on the simulated bus -/

theorem search_loop_sim (devs : List Rom) (rom0 : Rom) (LD : Nat) :
    ∀ (n i : Nat) (v : search_vars SimBus), i + n = 64 → 0 < n → WalkInv devs rom0 LD i v →
      ∀ fuel, n ≤ fuel → ∃ w, search_loop fuel v = some w ∧ WalkInv devs rom0 LD 64 w := by
  intro n
  induction n with
  | zero => intro i v _ h; omega
  | succ n ih =>
    intro i v hin _ inv fuel hfuel
    obtain ⟨w, hw, hinv⟩ := walkInv_step devs rom0 LD i v (by omega) inv
    obtain ⟨f, rfl⟩ : ∃ f, fuel = f + 1 := ⟨fuel - 1, by omega⟩
    have hb : w.rom_byte_number = (i + 1) / 8 := hinv.hbyte
    by_cases hn : n = 0
    · subst hn
      have h64 : i + 1 = 64 := by omega
      refine ⟨w, ?_, h64 ▸ hinv⟩
      simp [search_loop, hw, hb, h64]
    · have hlt : w.rom_byte_number < 8 := by rw [hb]; omega
      obtain ⟨w2, hw2, hinv2⟩ := ih (i + 1) w (by omega) (by omega) hinv f (by omega)
      refine ⟨w2, ?_, hinv2⟩
      simp [search_loop, hw, hlt, hw2]

theorem rom_ext (x y : Rom) (hx : ValidRom x) (hy : ValidRom y) (h : agree x y 64) : x = y := by
  funext k
  apply Nat.eq_of_testBit_eq
  intro b
  by_cases hb : b < 8
  · have := h (8 * k.val + b) (by have := k.isLt; omega)
    unfold idBit rd at this
    have hk : (8 * k.val + b) / 8 = k.val := by omega
    have hm : (8 * k.val + b) % 8 = b := by omega
    simp only [hk, hm, k.isLt, dite_true] at this
    exact this
  · have h256 : (256 : Nat) ≤ 2 ^ b :=
      calc 256 = 2 ^ 8 := by norm_num
        _ ≤ 2 ^ b := Nat.pow_le_pow_right (by norm_num) (by omega)
    rw [Nat.testBit_lt_two_pow (lt_of_lt_of_le (hx k) h256),
      Nat.testBit_lt_two_pow (lt_of_lt_of_le (hy k) h256)]

theorem one_wire_write_search_cmd_sim (ow : one_wire_t SimBus) (hwrite : ow.write_bit = sim_write_bit)
    (hcmd : ow.user_data.cmd = []) :
    one_wire_write ow 0xF0 = some
      { ow with
        user_data := { ow.user_data with cmd := searchCmdBits },
        trace := ow.trace ++ [BusOp.write_bit 0, BusOp.write_bit 0, BusOp.write_bit 0,
          BusOp.write_bit 0, BusOp.write_bit 1, BusOp.write_bit 1, BusOp.write_bit 1,
          BusOp.write_bit 1] } := by
  obtain ⟨ud, rs, rb, wb, rom, ld, lfd, flag, tr⟩ := ow
  obtain ⟨devs, act, cmd, pos, ph⟩ := ud
  simp only at hwrite hcmd
  subst hwrite hcmd
  simp [one_wire_write, write_loop, one_wire_write_bit, sim_write_bit, searchCmdBits]
  decide

theorem search_walk_eq {β : Type} (ow ow2 : one_wire_t β) (w : search_vars β)
    (h : (one_wire_reset ow).1 ≠ 0)
    (hw : one_wire_write (one_wire_reset ow).2 0xF0 = some ow2)
    (hl : search_loop 64
      { one_wire := ow2, id_bit_number := 1, last_zero := 0, rom_byte_number := 0,
        rom_byte_mask := 1 } = some w) :
    search_walk ow = some (some w) := by
  unfold search_walk
  simp only [h, if_false, hw, hl]

theorem search_walk_sim (devs : List Rom) (ow : one_wire_t SimBus) (hsim : OnSim ow devs)
    (hdevs : devs ≠ []) (hvalid : ValidRom ow._rom_no) (hflag : ow._last_device_flag = false) :
    ∃ w, search_walk ow = some (some w) ∧
      WalkInv devs ow._rom_no ow._last_discrepancy 64 w := by
  obtain ⟨hrs, hrb, hwb, hdv⟩ := hsim
  have hemp : devs.isEmpty = false := by
    cases devs with
    | nil => exact absurd rfl hdevs
    | cons a l => rfl
  have hpres : (one_wire_reset ow).1 ≠ 0 := by
    simp [one_wire_reset, hrs, sim_reset, hdv, hemp]
  have hud : (one_wire_reset ow).2.user_data =
      { devices := devs, active := devs, cmd := [], pos := 0, phase := 0 } := by
    simp [one_wire_reset, hrs, sim_reset, hdv]
  have hwr := one_wire_write_search_cmd_sim (one_wire_reset ow).2 hwb (by rw [hud])
  have hinv0 : WalkInv devs ow._rom_no ow._last_discrepancy 0
      { one_wire :=
          { (one_wire_reset ow).2 with
            user_data := { (one_wire_reset ow).2.user_data with cmd := searchCmdBits },
            trace := (one_wire_reset ow).2.trace ++ [BusOp.write_bit 0, BusOp.write_bit 0,
              BusOp.write_bit 0, BusOp.write_bit 0, BusOp.write_bit 1, BusOp.write_bit 1,
              BusOp.write_bit 1, BusOp.write_bit 1] },
        id_bit_number := 1, last_zero := 0, rom_byte_number := 0, rom_byte_mask := 1 } := by
    refine
      { hid := rfl, hbyte := rfl, hmask := rfl, hreset := hrs, hread := hrb, hwrite := hwb,
        hld := rfl, hflag := hflag, hdev := by simp only [hud], hact := ?_, hcmd := rfl,
        hpos := by simp only [hud], hphase := by simp only [hud], hvalid := hvalid,
        hrest := fun _ _ => rfl, hne := ?_,
        hchoice := fun j hj => by omega, hzero := ⟨Or.inl rfl, fun j _ hj => by omega⟩ }
    · have : ∀ z r, agree z r 0 := fun z r j hj => by omega
      simp [hud, this]
    · cases devs with
      | nil => exact absurd rfl hdevs
      | cons a l => exact ⟨a, List.mem_cons_self _ _, fun j hj => by omega⟩
  obtain ⟨w, hw, hinv⟩ := search_loop_sim devs _ _ 64 0 _ (by norm_num) (by norm_num) hinv0 64
    (le_refl _)
  exact ⟨w, search_walk_eq ow _ w hpres hwr hw, hinv⟩

theorem walkInv_final (devs : List Rom) (rom0 : Rom) (LD : Nat) (w : search_vars SimBus)
    (hvd : ∀ d ∈ devs, ValidRom d) (inv : WalkInv devs rom0 LD 64 w) :
    Resolves devs rom0 LD w.one_wire._rom_no ∧ ZeroInv devs w.one_wire._rom_no 64 w.last_zero := by
  obtain ⟨x, hx, hxa⟩ := inv.hne
  have hxe : x = w.one_wire._rom_no := rom_ext x _ (hvd x hx) inv.hvalid hxa
  exact ⟨⟨hxe ▸ hx, inv.hchoice⟩, inv.hzero⟩

theorem rd_zero (x : Rom) : rd x 0 = x 0 := by
  simp [rd]

theorem rd_fin (x : Rom) : (fun i : Fin 8 => rd x i.val) = x := by
  funext i
  simp [rd, i.isLt]

theorem one_wire_search_sim (devs : List Rom) (ow : one_wire_t SimBus) (addr : Rom)
    (hsim : OnSim ow devs) (hdevs : devs ≠ []) (hvd : ∀ d ∈ devs, ValidRom d)
    (hvalid : ValidRom ow._rom_no) (hflag : ow._last_device_flag = false) :
    ∃ r x L, one_wire_search ow addr = some r ∧
      Resolves devs ow._rom_no ow._last_discrepancy x ∧ ZeroInv devs x 64 L ∧
      OnSim r.one_wire devs ∧
      (x 0 ≠ 0 → r.found = true ∧ r.new_addr = x ∧ r.one_wire._rom_no = x ∧
        r.one_wire._last_discrepancy = L ∧ r.one_wire._last_device_flag = decide (L = 0)) ∧
      (x 0 = 0 → r.found = false ∧ r.new_addr = addr ∧ r.one_wire._rom_no = (fun _ => 0) ∧
        r.one_wire._last_discrepancy = 0 ∧ r.one_wire._last_family_discrepancy = 0 ∧
        r.one_wire._last_device_flag = false) := by
  obtain ⟨w, hw, inv⟩ := search_walk_sim devs ow hsim hdevs hvalid hflag
  obtain ⟨hres, hz⟩ := walkInv_final devs _ _ w hvd inv
  have hid : w.id_bit_number = 65 := inv.hid
  have hsim2 : OnSim w.one_wire devs := ⟨inv.hreset, inv.hread, inv.hwrite, inv.hdev⟩
  obtain ⟨owf, howf⟩ : ∃ owf : one_wire_t SimBus, owf =
      (if w.last_zero = 0 then
        { w.one_wire with _last_discrepancy := w.last_zero, _last_device_flag := true }
      else { w.one_wire with _last_discrepancy := w.last_zero }) := ⟨_, rfl⟩
  have hsim3 : OnSim owf devs := by
    rw [howf]
    by_cases hL : w.last_zero = 0 <;> simpa [hL, OnSim] using hsim2
  have hrom : owf._rom_no = w.one_wire._rom_no := by
    rw [howf]; by_cases hL : w.last_zero = 0 <;> simp [hL]
  have hld : owf._last_discrepancy = w.last_zero := by
    rw [howf]; by_cases hL : w.last_zero = 0 <;> simp [hL]
  have hfl : owf._last_device_flag = decide (w.last_zero = 0) := by
    rw [howf]; by_cases hL : w.last_zero = 0 <;> simp [hL, inv.hflag]
  have hcall : one_wire_search ow addr = some (search_finish owf true addr) := by
    simp only [one_wire_search, hflag, hw, hid, howf]
    by_cases hL : w.last_zero = 0 <;> simp [hL]
  refine ⟨search_finish owf true addr, w.one_wire._rom_no, w.last_zero, hcall, hres, hz, ?_, ?_, ?_⟩
  · unfold search_finish
    split
    · simpa [OnSim, one_wire_search_reset] using hsim3
    · exact hsim3
  · intro h0
    have : ¬ (rd w.one_wire._rom_no 0 = 0) := by rw [rd_zero]; exact h0
    simp [search_finish, this, hrom, hld, hfl, rd_fin]
  · intro h0
    have : rd w.one_wire._rom_no 0 = 0 := by rw [rd_zero]; exact h0
    simp [search_finish, hrom, this, one_wire_search_reset]

/-! ## The order of enumeration -/

theorem bitsValue_congr (x y : Rom) (n : Nat) (h : agree x y n) : bitsValue x n = bitsValue y n := by
  induction n with
  | zero => rfl
  | succ n ih =>
    rw [agree_succ] at h
    simp only [bitsValue, ih h.1, h.2]

theorem bitsValue_lt_succ (x y : Rom) (n : Nat) (h : bitsValue x n < bitsValue y n) :
    bitsValue x (n + 1) < bitsValue y (n + 1) := by
  simp only [bitsValue]
  have h1 : (idBit x n).toNat ≤ 1 := Bool.toNat_le _
  omega

theorem bitsValue_lt_of_le (x y : Rom) (n m : Nat) (hnm : n ≤ m)
    (h : bitsValue x n < bitsValue y n) : bitsValue x m < bitsValue y m := by
  induction m with
  | zero =>
    have : n = 0 := by omega
    subst this; exact h
  | succ m ih =>
    by_cases hn : n = m + 1
    · subst hn; exact h
    · exact bitsValue_lt_succ x y m (ih (by omega))

theorem idValue_lt_of_first_diff (x y : Rom) (j : Nat) (hj : j < 64) (ha : agree x y j)
    (hx : idBit x j = false) (hy : idBit y j = true) : idValue x < idValue y := by
  apply bitsValue_lt_of_le x y (j + 1) 64 (by omega)
  simp only [bitsValue, bitsValue_congr x y j ha, hx, hy]
  simp

theorem agree_symm (x y : Rom) (i : Nat) (h : agree x y i) : agree y x i :=
  fun j hj => (h j hj).symm

theorem agree_trans (x y z : Rom) (i : Nat) (h1 : agree x y i) (h2 : agree y z i) : agree x z i :=
  fun j hj => (h1 j hj).trans (h2 j hj)

theorem first_diff (x y : Rom) (hx : ValidRom x) (hy : ValidRom y) (hne : x ≠ y) :
    ∃ j, j < 64 ∧ agree x y j ∧ idBit x j ≠ idBit y j := by
  have hex : ∃ j, j < 64 ∧ idBit x j ≠ idBit y j := by
    by_contra hcon
    push_neg at hcon
    exact hne (rom_ext x y hx hy hcon)
  refine ⟨Nat.find hex, (Nat.find_spec hex).1, ?_, (Nat.find_spec hex).2⟩
  intro k hk
  by_contra hk2
  exact Nat.find_min hex hk ⟨lt_trans hk (Nat.find_spec hex).1, hk2⟩

theorem choice_zero (rom0 : Rom) (j : Nat) : choice 0 rom0 j = false := by
  simp [choice]

/-- A walk entered with `_last_discrepancy = 0` resolves to the smallest attached ROM code. -/
theorem resolves_first (devs : List Rom) (rom0 x : Rom) (hvd : ∀ d ∈ devs, ValidRom d)
    (hres : Resolves devs rom0 0 x) : ∀ z ∈ devs, z = x ∨ idValue x < idValue z := by
  intro z hz
  by_cases hzx : z = x
  · exact Or.inl hzx
  · right
    obtain ⟨j, hj, ha, hd⟩ := first_diff z x (hvd z hz) (hvd x hres.1) hzx
    have hxj : idBit x j = false := by
      rw [hres.2 j hj ⟨z, hz, ha, hd⟩, choice_zero]
    have hzj : idBit z j = true := by
      cases h : idBit z j
      · rw [h, hxj] at hd; exact absurd rfl hd
      · rfl
    exact idValue_lt_of_first_diff x z j hj (agree_symm _ _ _ ha) hxj hzj

theorem bool_eq_true_of_ne {a b : Bool} (h : a ≠ b) (hb : b = false) : a = true := by
  cases a <;> cases b <;> simp_all

/-- A walk entered with the previous result `x0` in `_rom_no` and its last zero fork `L > 0`
in `_last_discrepancy` resolves to the successor of `x0` among the attached ROM codes. -/
theorem resolves_next (devs : List Rom) (x0 x : Rom) (L : Nat) (hvd : ∀ d ∈ devs, ValidRom d)
    (hx0 : x0 ∈ devs) (hz : ZeroInv devs x0 64 L) (hL : 0 < L) (hres : Resolves devs x0 L x) :
    idValue x0 < idValue x ∧
      ∀ z ∈ devs, idValue x0 < idValue z → z = x ∨ idValue x < idValue z := by
  obtain ⟨hz1, hz2⟩ := hz
  rcases hz1 with h0 | ⟨hL1, hL64, ⟨w, hw, hwa, hwd⟩, hx0q⟩
  · omega
  obtain ⟨q, rfl⟩ : ∃ q, L = q + 1 := ⟨L - 1, by omega⟩
  simp only [Nat.add_sub_cancel] at hwa hwd hx0q
  have hq : q < 64 := by omega
  have hwq : idBit w q = true := bool_eq_true_of_ne hwd hx0q
  have hpre : ∀ k, k ≤ q → agree x x0 k := by
    intro k
    induction k with
    | zero => intro _ j hj; omega
    | succ k ih =>
      intro hk
      have hak := ih (by omega)
      rw [agree_succ]
      refine ⟨hak, ?_⟩
      by_contra hne
      have hf : Fork devs x k := ⟨x0, hx0, agree_symm _ _ _ hak, fun h => hne h.symm⟩
      have := hres.2 k (by omega) hf
      rw [this] at hne
      apply hne
      unfold choice
      have : k + 1 < q + 1 := by omega
      simp [this]
  have hxa : agree x x0 q := hpre q (le_refl q)
  have hxq : idBit x q = true := by
    by_contra hne
    have hxf : idBit x q = false := by simpa using hne
    have hf : Fork devs x q :=
      ⟨w, hw, agree_trans _ _ _ _ hwa (agree_symm _ _ _ hxa), by rw [hwq, hxf]; simp⟩
    have := hres.2 q hq hf
    rw [this] at hne
    apply hne
    simp [choice]
  have hlt : idValue x0 < idValue x :=
    idValue_lt_of_first_diff x0 x q hq (agree_symm _ _ _ hxa) hx0q hxq
  refine ⟨hlt, ?_⟩
  intro z hzd hzlt
  by_cases hzx : z = x
  · exact Or.inl hzx
  right
  have hzx0 : z ≠ x0 := by
    intro h; rw [h] at hzlt; exact absurd hzlt (lt_irrefl _)
  obtain ⟨j, hj, hja, hjd⟩ := first_diff z x0 (hvd z hzd) (hvd x0 hx0) hzx0
  have hx0j : idBit x0 j = false := by
    by_contra hne
    have h1 : idBit x0 j = true := by simpa using hne
    have h2 : idBit z j = false := by
      cases h : idBit z j
      · rfl
      · rw [h, h1] at hjd; exact absurd rfl hjd
    have := idValue_lt_of_first_diff z x0 j hj hja h2 h1
    omega
  have hzj : idBit z j = true := bool_eq_true_of_ne hjd hx0j
  have hjq : j ≤ q := by
    by_contra hcon
    exact hz2 j (by omega) hj ⟨⟨z, hzd, hja, hjd⟩, hx0j⟩
  by_cases hjq2 : j < q
  · have hzxa : agree z x j :=
      agree_trans _ _ _ _ hja (agree_symm _ _ _ (agree_mono _ _ _ _ (by omega) hxa))
    have hxj : idBit x j = false := by rw [hxa j hjq2]; exact hx0j
    exact idValue_lt_of_first_diff x z j hj (agree_symm _ _ _ hzxa) hxj hzj
  · have hjeq : j = q := by omega
    subst hjeq
    have hzxa : agree z x (j + 1) := by
      rw [agree_succ]
      exact ⟨agree_trans _ _ _ _ hja (agree_symm _ _ _ hxa), by rw [hzj, hxq]⟩
    obtain ⟨p, hp, hpa, hpd⟩ := first_diff z x (hvd z hzd) (hvd x hres.1) hzx
    have hpj : j + 1 ≤ p := by
      by_contra hcon
      exact hpd (hzxa p (by omega))
    have hxp : idBit x p = false := by
      rw [hres.2 p hp ⟨z, hzd, hpa, hpd⟩]
      unfold choice
      have h1 : ¬ (p + 1 < j + 1) := by omega
      have h2 : ¬ (p + 1 = j + 1) := by omega
      simp [h1, h2]
    have hzp : idBit z p = true := bool_eq_true_of_ne hpd hxp
    exact idValue_lt_of_first_diff x z p hp (agree_symm _ _ _ hpa) hxp hzp

/-- The last zero fork of `x` is `0` exactly when `x` is the greatest attached ROM code. -/
theorem lastFork_zero_iff (devs : List Rom) (x : Rom) (L : Nat) (hvd : ∀ d ∈ devs, ValidRom d)
    (hx : x ∈ devs) (hz : ZeroInv devs x 64 L) :
    L = 0 ↔ ∀ z ∈ devs, idValue z ≤ idValue x := by
  obtain ⟨hz1, hz2⟩ := hz
  constructor
  · intro hL z hzd
    by_cases hzx : z = x
    · rw [hzx]
    obtain ⟨j, hj, hja, hjd⟩ := first_diff z x (hvd z hzd) (hvd x hx) hzx
    have hxj : idBit x j = true := by
      by_contra hne
      have h1 : idBit x j = false := by simpa using hne
      exact hz2 j (by omega) hj ⟨⟨z, hzd, hja, hjd⟩, h1⟩
    have hzj : idBit z j = false := by
      cases h : idBit z j
      · rfl
      · rw [h, hxj] at hjd; exact absurd rfl hjd
    exact le_of_lt (idValue_lt_of_first_diff z x j hj hja hzj hxj)
  · intro hmax
    rcases hz1 with h0 | ⟨hL1, hL64, ⟨w, hw, hwa, hwd⟩, hxq⟩
    · exact h0
    · have hwq : idBit w (L - 1) = true := bool_eq_true_of_ne hwd hxq
      have := idValue_lt_of_first_diff x w (L - 1) (by omega) (agree_symm _ _ _ hwa) hxq hwq
      have := hmax w hw
      omega

/-! ## Enumeration by repeated search calls -/

theorem one_wire_search_terminal {β : Type} (ow : one_wire_t β) (addr : Rom)
    (hflag : ow._last_device_flag = true) :
    one_wire_search ow addr =
      some { found := false, one_wire := one_wire_search_reset ow, new_addr := addr } := by
  simp [one_wire_search, hflag, search_finish]

theorem idValue_injective (x y : Rom) (hx : ValidRom x) (hy : ValidRom y)
    (h : idValue x = idValue y) : x = y := by
  by_contra hne
  obtain ⟨j, hj, ha, hd⟩ := first_diff x y hx hy hne
  cases hxj : idBit x j
  · have hyj : idBit y j = true := by
      cases hyj : idBit y j
      · rw [hxj, hyj] at hd; exact absurd rfl hd
      · rfl
    have := idValue_lt_of_first_diff x y j hj ha hxj hyj
    omega
  · have hyj : idBit y j = false := by
      cases hyj : idBit y j
      · rfl
      · rw [hxj, hyj] at hd; exact absurd rfl hd
    have := idValue_lt_of_first_diff y x j hj (agree_symm _ _ _ ha) hyj hxj
    omega

/-- One successful-or-degenerate search call from the state left by the search that found `x0`. -/
theorem enum_step (devs : List Rom) (ow : one_wire_t SimBus) (x0 addr : Rom)
    (hvd : ∀ d ∈ devs, ValidRom d) (hst : EnumState devs ow x0)
    (hL : ow._last_discrepancy ≠ 0) :
    ∃ r x, one_wire_search ow addr = some r ∧ x ∈ devs ∧ idValue x0 < idValue x ∧
      (∀ z ∈ devs, idValue x0 < idValue z → z = x ∨ idValue x < idValue z) ∧
      (x 0 ≠ 0 → r.found = true ∧ r.new_addr = x ∧ EnumState devs r.one_wire x) ∧
      (x 0 = 0 → r.found = false) := by
  obtain ⟨hsim, hx0, hrom, hz, hfl⟩ := hst
  have hflag : ow._last_device_flag = false := by rw [hfl]; simp [hL]
  have hdevs : devs ≠ [] := List.ne_nil_of_mem hx0
  have hvalid : ValidRom ow._rom_no := by rw [hrom]; exact hvd x0 hx0
  obtain ⟨r, x, L, hcall, hres, hzL, hsim2, hfound, hnot⟩ :=
    one_wire_search_sim devs ow addr hsim hdevs hvd hvalid hflag
  rw [hrom] at hres
  obtain ⟨hlt, hmin⟩ := resolves_next devs x0 x _ hvd hx0 hz (Nat.pos_of_ne_zero hL) hres
  refine ⟨r, x, hcall, hres.1, hlt, hmin, ?_, fun h => (hnot h).1⟩
  intro h0
  obtain ⟨h1, h2, h3, h4, h5⟩ := hfound h0
  exact ⟨h1, h2, hsim2, hres.1, h3, by rw [h4]; exact hzL, by rw [h5, h4]⟩

/-- The first search call from a cleared search state. -/
theorem enum_first (devs : List Rom) (ow : one_wire_t SimBus) (addr : Rom)
    (hvd : ∀ d ∈ devs, ValidRom d) (hdevs : devs ≠ []) (hsim : OnSim ow devs)
    (hvalid : ValidRom ow._rom_no)
    (hld : ow._last_discrepancy = 0) (hflag : ow._last_device_flag = false) :
    ∃ r x, one_wire_search ow addr = some r ∧ x ∈ devs ∧
      (∀ z ∈ devs, z = x ∨ idValue x < idValue z) ∧
      (x 0 ≠ 0 → r.found = true ∧ r.new_addr = x ∧ EnumState devs r.one_wire x) ∧
      (x 0 = 0 → r.found = false) := by
  obtain ⟨r, x, L, hcall, hres, hzL, hsim2, hfound, hnot⟩ :=
    one_wire_search_sim devs ow addr hsim hdevs hvd hvalid hflag
  rw [hld] at hres
  refine ⟨r, x, hcall, hres.1, resolves_first devs _ x hvd hres, ?_, fun h => (hnot h).1⟩
  intro h0
  obtain ⟨h1, h2, h3, h4, h5⟩ := hfound h0
  exact ⟨h1, h2, hsim2, hres.1, h3, by rw [h4]; exact hzL, by rw [h5, h4]⟩

theorem exists_sorted (devs : List Rom) (hnd : devs.Nodup) (hvd : ∀ d ∈ devs, ValidRom d) :
    ∃ S : List Rom, S.Perm devs ∧ S.Pairwise (fun a b => idValue a < idValue b) := by
  haveI : IsTotal Rom (fun a b => idValue a ≤ idValue b) := ⟨fun a b => le_total _ _⟩
  haveI : IsTrans Rom (fun a b => idValue a ≤ idValue b) := ⟨fun a b c h1 h2 => le_trans h1 h2⟩
  refine ⟨devs.insertionSort (fun a b => idValue a ≤ idValue b), List.perm_insertionSort _ _, ?_⟩
  have hs : (devs.insertionSort (fun a b => idValue a ≤ idValue b)).Pairwise
      (fun a b => idValue a ≤ idValue b) := by
    have := List.sorted_insertionSort (fun a b : Rom => idValue a ≤ idValue b) devs
    exact this
  have hp := List.perm_insertionSort (fun a b : Rom => idValue a ≤ idValue b) devs
  have hnd2 : (devs.insertionSort (fun a b => idValue a ≤ idValue b)).Pairwise (fun a b => a ≠ b) :=
    hp.nodup_iff.mpr hnd
  refine (hs.and hnd2).imp_of_mem ?_
  intro a b ha hb hab
  have hva := hvd a (hp.mem_iff.mp ha)
  have hvb := hvd b (hp.mem_iff.mp hb)
  rcases Nat.lt_or_ge (idValue a) (idValue b) with h | h
  · exact h
  · exact absurd (idValue_injective a b hva hvb (le_antisymm hab.1 h)) hab.2

theorem enum_from (devs : List Rom) (hvd : ∀ d ∈ devs, ValidRom d)
    (hfam : ∀ d ∈ devs, d 0 ≠ 0) :
    ∀ (rest pre : List Rom) (x0 : Rom) (ow : one_wire_t SimBus) (addr : Rom),
      (pre ++ x0 :: rest).Perm devs →
      (pre ++ x0 :: rest).Pairwise (fun a b => idValue a < idValue b) →
      EnumState devs ow x0 →
      ∃ ow2 addr2, search_calls rest.length ow addr =
          some (rest.map (fun y => (true, y)), ow2, addr2) ∧
        OnSim ow2 devs ∧ ow2._last_device_flag = true := by
  intro rest
  induction rest with
  | nil =>
    intro pre x0 ow addr hperm hpw hst
    refine ⟨ow, addr, rfl, hst.1, ?_⟩
    obtain ⟨hsim, hx0, hrom, hz, hfl⟩ := hst
    rw [hfl]
    simp only [decide_eq_true_eq]
    rw [lastFork_zero_iff devs x0 _ hvd hx0 hz]
    intro z hz
    have hzm : z ∈ pre ++ [x0] := hperm.mem_iff.mpr hz
    rw [List.pairwise_append] at hpw
    rcases List.mem_append.mp hzm with h | h
    · exact le_of_lt (hpw.2.2 z h x0 (List.mem_singleton_self _))
    · rw [List.mem_singleton.mp h]
  | cons y rest ih =>
    intro pre x0 ow addr hperm hpw hst
    have hpw2 := List.pairwise_append.mp hpw
    have hx0y : idValue x0 < idValue y := (List.pairwise_cons.mp hpw2.2.1).1 y (List.mem_cons_self _ _)
    have hyd : y ∈ devs := hperm.mem_iff.mp (by simp)
    have hL : ow._last_discrepancy ≠ 0 := by
      intro h0
      have := (lastFork_zero_iff devs x0 _ hvd hst.2.1 hst.2.2.2.1).mp h0 y hyd
      omega
    obtain ⟨r, x, hcall, hxd, hlt, hmin, hfound, _⟩ := enum_step devs ow x0 addr hvd hst hL
    have hxy : x = y := by
      rcases hmin y hyd hx0y with h | h
      · exact h.symm
      · exfalso
        have hxm : x ∈ pre ++ x0 :: y :: rest := hperm.mem_iff.mpr hxd
        rcases List.mem_append.mp hxm with h1 | h1
        · have := hpw2.2.2 x h1 x0 (List.mem_cons_self _ _)
          omega
        · rcases List.mem_cons.mp h1 with h2 | h2
          · rw [h2] at hlt; exact lt_irrefl _ hlt
          · rcases List.mem_cons.mp h2 with h3 | h3
            · rw [h3] at h; exact lt_irrefl _ h
            · have hyr := (List.pairwise_cons.mp (List.pairwise_cons.mp hpw2.2.1).2).1 x h3
              omega
    subst hxy
    obtain ⟨hf1, hf2, hst2⟩ := hfound (hfam x hxd)
    have hperm2 : ((pre ++ [x0]) ++ x :: rest).Perm devs := by
      simpa [List.append_assoc] using hperm
    have hpw3 : ((pre ++ [x0]) ++ x :: rest).Pairwise (fun a b => idValue a < idValue b) := by
      simpa [List.append_assoc] using hpw
    obtain ⟨ow2, addr2, hcalls, hsim2, hflag2⟩ := ih (pre ++ [x0]) x r.one_wire r.new_addr hperm2 hpw3 hst2
    refine ⟨ow2, addr2, ?_, hsim2, hflag2⟩
    rw [hf2] at hcalls
    simp only [List.length_cons, search_calls, hcall, hcalls, hf1, hf2, List.map_cons]

theorem enumeration_sim (devs : List Rom) (hdevs : devs ≠ []) (hnd : devs.Nodup)
    (hvd : ∀ d ∈ devs, ValidRom d) (hfam : ∀ d ∈ devs, d 0 ≠ 0)
    (ow : one_wire_t SimBus) (addr : Rom) (hsim : OnSim ow devs) (hvalid : ValidRom ow._rom_no)
    (hld : ow._last_discrepancy = 0) (hflag : ow._last_device_flag = false) :
    ∃ (ids : List Rom) (ow2 : one_wire_t SimBus) (addr2 : Rom), search_calls devs.length ow addr =
        some (ids.map (fun y => (true, y)), ow2, addr2) ∧
      ids.Perm devs ∧ ids.Pairwise (fun a b => idValue a < idValue b) ∧
      OnSim ow2 devs ∧ ow2._last_device_flag = true := by
  obtain ⟨S, hperm, hpw⟩ := exists_sorted devs hnd hvd
  cases S with
  | nil => exact absurd (hperm.symm.eq_nil) hdevs
  | cons y rest =>
    have hyd : y ∈ devs := hperm.mem_iff.mp (List.mem_cons_self _ _)
    obtain ⟨r, x, hcall, hxd, hmin, hfound, _⟩ := enum_first devs ow addr hvd hdevs hsim hvalid hld hflag
    have hxy : x = y := by
      rcases hmin y hyd with h | h
      · exact h.symm
      · exfalso
        rcases List.mem_cons.mp (hperm.mem_iff.mpr hxd) with h2 | h2
        · rw [h2] at h; exact lt_irrefl _ h
        · have := (List.pairwise_cons.mp hpw).1 x h2
          omega
    subst hxy
    obtain ⟨hf1, hf2, hst2⟩ := hfound (hfam x hxd)
    obtain ⟨ow2, addr2, hcalls, hsim2, hflag2⟩ :=
      enum_from devs hvd hfam rest [] x r.one_wire r.new_addr hperm hpw hst2
    refine ⟨x :: rest, ow2, addr2, ?_, hperm, hpw, hsim2, hflag2⟩
    rw [← hperm.length_eq]
    rw [hf2] at hcalls
    simp only [List.length_cons, search_calls, hcall, hcalls, hf1, hf2, List.map_cons]

theorem onSim_search_reset (devs : List Rom) (ow : one_wire_t SimBus) (h : OnSim ow devs) :
    OnSim (one_wire_search_reset ow) devs := h

theorem validRom_zero : ValidRom (fun _ => 0) := fun _ => by norm_num

theorem one_wire_search_no_presence {β : Type} (ow : one_wire_t β) (addr : Rom)
    (hflag : ow._last_device_flag = false) (hp : (ow.reset ow.user_data).1 = 0) :
    one_wire_search ow addr =
      some { found := false, one_wire := one_wire_search_reset (one_wire_reset ow).2,
             new_addr := addr } := by
  have h1 : (one_wire_reset ow).1 = 0 := hp
  simp [one_wire_search, hflag, search_walk, h1]

theorem onSim_sim_one_wire (devs : List Rom) : OnSim (sim_one_wire devs) devs :=
  ⟨rfl, rfl, rfl, rfl⟩

theorem sim_no_presence (ow : one_wire_t SimBus) (hsim : OnSim ow []) :
    (ow.reset ow.user_data).1 = 0 := by
  obtain ⟨h1, _, _, h4⟩ := hsim
  simp [h1, sim_reset, h4]

theorem until_from (devs : List Rom) (hvd : ∀ d ∈ devs, ValidRom d) :
    ∀ (n : Nat) (ow : one_wire_t SimBus) (x0 addr : Rom), EnumState devs ow x0 →
      ∃ l, search_until_false n ow addr = some l ∧
        l.Pairwise (fun a b => idValue a < idValue b) ∧ ∀ y ∈ l, idValue x0 < idValue y := by
  intro n
  induction n with
  | zero =>
    intro ow x0 addr _
    exact ⟨[], rfl, List.Pairwise.nil, fun y hy => by cases hy⟩
  | succ n ih =>
    intro ow x0 addr hst
    by_cases hL : ow._last_discrepancy = 0
    · have hflag : ow._last_device_flag = true := by rw [hst.2.2.2.2]; simp [hL]
      refine ⟨[], ?_, List.Pairwise.nil, fun y hy => by cases hy⟩
      simp [search_until_false, one_wire_search_terminal ow addr hflag]
    · obtain ⟨r, x, hcall, hxd, hlt, _, hfound, hnot⟩ := enum_step devs ow x0 addr hvd hst hL
      by_cases h0 : x 0 = 0
      · refine ⟨[], ?_, List.Pairwise.nil, fun y hy => by cases hy⟩
        simp [search_until_false, hcall, hnot h0]
      · obtain ⟨hf1, hf2, hst2⟩ := hfound h0
        obtain ⟨l, hl, hpw, hgt⟩ := ih r.one_wire x r.new_addr hst2
        refine ⟨x :: l, ?_, List.pairwise_cons.mpr ⟨hgt, hpw⟩, ?_⟩
        · rw [hf2] at hl
          simp [search_until_false, hcall, hf1, hl, hf2]
        · intro y hy
          rcases List.mem_cons.mp hy with h | h
          · rw [h]; exact hlt
          · exact lt_trans hlt (hgt y h)

theorem idBit_first_byte (x : Rom) (k : Nat) (hk : k < 8) : idBit x k = (x 0).testBit k := by
  unfold idBit
  have h1 : k / 8 = 0 := by omega
  have h2 : k % 8 = k := by omega
  rw [h1, h2, rd_zero]

theorem first_byte_of_agree (x y : Rom) (hx : ValidRom x) (hy : ValidRom y)
    (h : agree x y 8) : x 0 = y 0 := by
  apply Nat.eq_of_testBit_eq
  intro b
  by_cases hb : b < 8
  · rw [← idBit_first_byte x b hb, ← idBit_first_byte y b hb]
    exact h b hb
  · have h256 : (256 : Nat) ≤ 2 ^ b :=
      calc 256 = 2 ^ 8 := by norm_num
        _ ≤ 2 ^ b := Nat.pow_le_pow_right (by norm_num) (by omega)
    rw [Nat.testBit_lt_two_pow (lt_of_lt_of_le (hx 0) h256),
      Nat.testBit_lt_two_pow (lt_of_lt_of_le (hy 0) h256)]

/-- The first search after `one_wire_search_target` on the simulated bus returns a device
of the targeted family when one is attached and the family code is not zero. -/
theorem target_search_sim (devs : List Rom) (fc : Nat) (ow : one_wire_t SimBus) (addr : Rom)
    (hvd : ∀ d ∈ devs, ValidRom d) (hsim : OnSim ow devs) (x : Rom) (hxd : x ∈ devs)
    (hx : x 0 = fc) (hfc : fc ≠ 0) :
    ∃ r y, one_wire_search (one_wire_search_target ow fc) addr = some r ∧ y ∈ devs ∧
      y 0 = fc ∧ r.found = true ∧ r.new_addr = y := by
  have hfc256 : fc < 256 := by rw [← hx]; exact hvd x hxd 0
  have hvalid : ValidRom (one_wire_search_target ow fc)._rom_no := by
    intro i
    simp only [one_wire_search_target]
    split
    · exact hfc256
    · norm_num
  obtain ⟨r, y, L, hcall, hres, _, _, hfound, _⟩ :=
    one_wire_search_sim devs (one_wire_search_target ow fc) addr hsim (List.ne_nil_of_mem hxd)
      hvd hvalid rfl
  have hrom0 : (one_wire_search_target ow fc)._rom_no 0 = x 0 := by
    simp [one_wire_search_target, hx]
  have hpre : ∀ k, k ≤ 8 → agree y x k := by
    intro k
    induction k with
    | zero => intro _ j hj; omega
    | succ k ih =>
      intro hk
      have hak := ih (by omega)
      rw [agree_succ]
      refine ⟨hak, ?_⟩
      by_contra hne
      have hf : Fork devs y k := ⟨x, hxd, agree_symm _ _ _ hak, fun h => hne h.symm⟩
      have hc := hres.2 k (by omega) hf
      apply hne
      rw [hc]
      unfold choice
      have h64 : k + 1 < (one_wire_search_target ow fc)._last_discrepancy := by
        simp only [one_wire_search_target]; omega
      simp only [h64, if_true]
      rw [idBit_first_byte _ k (by omega), idBit_first_byte x k (by omega), hrom0]
  have hy0 : y 0 = fc := by
    rw [← hx]
    exact first_byte_of_agree y x (hvd y hres.1) (hvd x hxd) (hpre 8 (le_refl 8))
  obtain ⟨h1, h2, _⟩ := hfound (by rw [hy0]; exact hfc)
  exact ⟨r, y, hcall, hres.1, hy0, h1, h2⟩

/-! ## One search call on an arbitrary bus -/

theorem search_body_break_iff (v : search_vars β) :
    (search_body v).1 = true ↔ pass_reads v = (1, 1) := by
  unfold search_body pass_reads
  simp only
  split
  · rename_i h
    simp [h.1, h.2]
  · rename_i h
    simp only [Bool.false_eq_true, false_iff]
    intro hc
    apply h
    simpa [Prod.ext_iff] using hc

theorem search_body_break (v : search_vars β) (h : (search_body v).1 = true) :
    (search_body v).2.id_bit_number = v.id_bit_number ∧
    (search_body v).2.one_wire._rom_no = v.one_wire._rom_no := by
  unfold search_body at h ⊢
  simp only at h ⊢
  split
  · simp [one_wire_read_bit]
  · rename_i hn
    simp [hn] at h

theorem search_body_counters (k : Nat) (v : search_vars β) (hk : k < 64) (hc : Counters k v)
    (h : (search_body v).1 = false) : Counters (k + 1) (search_body v).2 := by
  obtain ⟨h1, h2, h3⟩ := hc
  have hm := shift_mask k
  unfold search_body at h ⊢
  simp only at h ⊢
  split
  · rename_i hn
    simp [hn] at h
  · simp only [Counters, h1, h2, h3, hm]
    refine ⟨by omega, ?_, ?_⟩
    · by_cases h7 : k % 8 = 7
      · simp only [h7, if_true]; omega
      · have : (2 : Nat) ^ ((k + 1) % 8) ≠ 0 := by positivity
        simp only [h7, if_false, this]; omega
    · by_cases h7 : k % 8 = 7
      · have : (k + 1) % 8 = 0 := by omega
        simp [h7, this]
      · have : (2 : Nat) ^ ((k + 1) % 8) ≠ 0 := by positivity
        simp only [h7, if_false, this]

theorem search_loop_generic :
    ∀ (n k : Nat) (v : search_vars β), k + n = 64 → 0 < n → Counters k v →
      ∃ w, search_loop n v = some w ∧
        ((∀ j < n, pass_reads (search_passes j v) ≠ (1, 1)) →
          w = search_passes n v ∧ w.id_bit_number = 65) ∧
        ((∃ j < n, pass_reads (search_passes j v) = (1, 1)) → w.id_bit_number < 65) := by
  intro n
  induction n with
  | zero => intro k v _ h; omega
  | succ n ih =>
    intro k v hkn _ hc
    by_cases hb : (search_body v).1 = true
    · refine ⟨(search_body v).2, by simp [search_loop, hb], ?_, ?_⟩
      · intro hall
        exact absurd ((search_body_break_iff v).mp hb) (hall 0 (by omega))
      · intro _
        rw [(search_body_break v hb).1, hc.1]; omega
    · have hb2 : (search_body v).1 = false := by simpa using hb
      have hc2 := search_body_counters k v (by omega) hc hb2
      have h0 : pass_reads (search_passes 0 v) ≠ (1, 1) :=
        fun h => hb ((search_body_break_iff v).mpr h)
      by_cases hn : n = 0
      · subst hn
        have hk : k = 63 := by omega
        subst hk
        have hbyte : ¬ ((search_body v).2.rom_byte_number < 8) := by rw [hc2.2.1]; norm_num
        refine ⟨(search_body v).2, by simp [search_loop, hb2, hbyte], ?_, ?_⟩
        · intro _
          exact ⟨rfl, hc2.1⟩
        · rintro ⟨j, hj, hj2⟩
          have : j = 0 := by omega
          subst this
          exact absurd hj2 h0
      · have hbyte : (search_body v).2.rom_byte_number < 8 := by rw [hc2.2.1]; omega
        obtain ⟨w, hw, hw1, hw2⟩ := ih (k + 1) (search_body v).2 (by omega) (by omega) hc2
        refine ⟨w, by simp [search_loop, hb2, hbyte, hw], ?_, ?_⟩
        · intro hall
          exact hw1 (fun j hj => hall (j + 1) (by omega))
        · rintro ⟨j, hj, hj2⟩
          cases j with
          | zero => exact absurd hj2 h0
          | succ j => exact hw2 ⟨j, by omega, hj2⟩

theorem one_wire_write_total (ow : one_wire_t β) (data : Nat) :
    ∃ ud tr, one_wire_write ow data = some { ow with user_data := ud, trace := tr } := by
  simp [one_wire_write, write_loop, one_wire_write_bit]

theorem search_finish_false (ow : one_wire_t β) (addr : Rom) :
    search_finish ow false addr =
      { found := false, one_wire := one_wire_search_reset ow, new_addr := addr } := by
  simp [search_finish]

theorem search_finish_true (ow : one_wire_t β) (addr : Rom) :
    search_finish ow true addr =
      if ow._rom_no 0 = 0 then
        { found := false, one_wire := one_wire_search_reset ow, new_addr := addr }
      else { found := true, one_wire := ow, new_addr := ow._rom_no } := by
  simp [search_finish, rd_zero, rd_fin]

/-- What one call of `one_wire_search` does on an arbitrary bus. -/
theorem one_wire_search_spec (ow : one_wire_t β) (addr : Rom) :
    ∃ r ow2, one_wire_search ow addr = some r ∧
      one_wire_write (one_wire_reset ow).2 0xF0 = some ow2 ∧
      ow2.read_bit = ow.read_bit ∧
      (r.found = true ↔
        ow._last_device_flag = false ∧ (ow.reset ow.user_data).1 ≠ 0 ∧
        (∀ k < 64, pass_reads (search_passes k (search_start ow2)) ≠ (1, 1)) ∧
        (search_passes 64 (search_start ow2)).one_wire._rom_no 0 ≠ 0) ∧
      (r.found = true → r.new_addr = r.one_wire._rom_no) ∧
      (r.found = false →
        r.one_wire._last_discrepancy = 0 ∧ r.one_wire._last_family_discrepancy = 0 ∧
        r.one_wire._last_device_flag = false ∧ r.one_wire._rom_no = (fun _ => 0) ∧
        r.new_addr = addr) := by
  obtain ⟨ow2, hw, hrb⟩ : ∃ ow2, one_wire_write (one_wire_reset ow).2 0xF0 = some ow2 ∧
      ow2.read_bit = ow.read_bit := by
    obtain ⟨ud, tr, hw⟩ := one_wire_write_total (one_wire_reset ow).2 0xF0
    exact ⟨_, hw, rfl⟩
  by_cases hflag : ow._last_device_flag = true
  · refine ⟨_, _, one_wire_search_terminal ow addr hflag, hw, hrb, ?_, ?_, ?_⟩
    · simp [hflag]
    · intro h; cases h
    · intro _; simp [one_wire_search_reset]
  have hflag2 : ow._last_device_flag = false := by simpa using hflag
  by_cases hp : (ow.reset ow.user_data).1 = 0
  · refine ⟨_, _, one_wire_search_no_presence ow addr hflag2 hp, hw, hrb, ?_, ?_, ?_⟩
    · simp [hp]
    · intro h; cases h
    · intro _; simp [one_wire_search_reset]
  obtain ⟨w, hloop, hA, hB⟩ := search_loop_generic 64 0
    (search_start ow2) rfl
    (by norm_num) ⟨rfl, rfl, rfl⟩
  have hwalk : search_walk ow = some (some w) := search_walk_eq ow _ w hp hw hloop
  by_cases hno : ∀ k < 64, pass_reads (search_passes k (search_start ow2)) ≠ (1, 1)
  · obtain ⟨hweq, hid⟩ := hA hno
    obtain ⟨owf, howf⟩ : ∃ owf : one_wire_t β, owf =
        (if w.last_zero = 0 then
          { w.one_wire with _last_discrepancy := w.last_zero, _last_device_flag := true }
        else { w.one_wire with _last_discrepancy := w.last_zero }) := ⟨_, rfl⟩
    have hrom : owf._rom_no = w.one_wire._rom_no := by
      rw [howf]; by_cases hL : w.last_zero = 0 <;> simp [hL]
    have hcall : one_wire_search ow addr = some (search_finish owf true addr) := by
      simp only [one_wire_search, hflag2, hwalk, hid, howf]
      by_cases hL : w.last_zero = 0 <;> simp [hL]
    refine ⟨_, _, hcall, hw, hrb, ?_, ?_, ?_⟩
    · rw [search_finish_true, hrom, ← hweq]
      by_cases h0 : w.one_wire._rom_no 0 = 0
      · simp [h0]
      · simp only [h0, if_false, true_iff]
        exact ⟨hflag2, hp, hno, fun h => h0 h⟩
    · rw [search_finish_true]
      split
      · intro h; cases h
      · intro _; rfl
    · rw [search_finish_true]
      split
      · intro _; simp [one_wire_search_reset]
      · intro h; cases h
  · have hex : ∃ j < 64, pass_reads (search_passes j
        (search_start ow2)) = (1, 1) := by
      push_neg at hno; exact hno
    have hid := hB hex
    have hcall : one_wire_search ow addr = some (search_finish w.one_wire false addr) := by
      simp only [one_wire_search, hflag2, hwalk]
      simp [hid]
    refine ⟨_, _, hcall, hw, hrb, ?_, ?_, ?_⟩
    · rw [search_finish_false]
      simp only [Bool.false_eq_true, false_iff]
      intro h
      exact hno h.2.2.1
    · rw [search_finish_false]; intro h; cases h
    · rw [search_finish_false]; intro _; simp [one_wire_search_reset]

theorem filter_eq_singleton (l : List Rom) (x : Rom) (p : Rom → Bool) (hnd : l.Nodup)
    (hx : x ∈ l) (hp : ∀ z ∈ l, p z = true ↔ z = x) : l.filter p = [x] := by
  induction l with
  | nil => cases hx
  | cons a l ih =>
    rw [List.nodup_cons] at hnd
    by_cases hax : a = x
    · subst hax
      have hpa : p a = true := (hp a (List.mem_cons_self _ _)).mpr rfl
      have hrest : l.filter p = [] := by
        rw [List.filter_eq_nil_iff]
        intro z hz hpz
        have := (hp z (List.mem_cons_of_mem _ hz)).mp hpz
        rw [this] at hz
        exact hnd.1 hz
      rw [List.filter_cons_of_pos hpa, hrest]
    · have hpa : ¬ p a = true := fun h => hax ((hp a (List.mem_cons_self _ _)).mp h)
      have hxl : x ∈ l := by
        rcases List.mem_cons.mp hx with h | h
        · exact absurd h.symm hax
        · exact h
      rw [List.filter_cons_of_neg hpa]
      exact ih hnd.2 hxl (fun z hz => hp z (List.mem_cons_of_mem _ hz))

/-! ## The byte codec -/

variable {β : Type}

theorem mask_bit (data i : Nat) :
    (if 2 ^ i &&& data ≠ 0 then 1 else 0) = (data >>> i) &&& 1 := by
  have h1 : (data >>> i) &&& 1 = (data.testBit i).toNat := by
    rw [Nat.and_one_is_mod, Nat.testBit_to_div_mod, Nat.shiftRight_eq_div_pow]
    have : data / 2 ^ i % 2 < 2 := Nat.mod_lt _ (by norm_num)
    by_cases h : data / 2 ^ i % 2 = 1
    · simp [h]
    · have h0 : data / 2 ^ i % 2 = 0 := by omega
      simp [h0]
  rw [h1, Nat.and_comm]
  by_cases h : data.testBit i = true
  · have := (and_two_pow_pos data i).mpr h
    have hne : data &&& 2 ^ i ≠ 0 := by omega
    simp [h, hne]
  · have hz : ¬ (data &&& 2 ^ i > 0) := fun hp => h ((and_two_pow_pos data i).mp hp)
    have h0 : data &&& 2 ^ i = 0 := by omega
    simp at h
    simp [h, h0]

/-- The loop variable `bit_mask` before the pass for bit `i`. -/
theorem mask_after_eq (i : Nat) : mask_after i = if i < 8 then 2 ^ i else 0 := by
  induction i with
  | zero => rfl
  | succ i ih =>
    simp only [mask_after, ih]
    by_cases h : i < 8
    · simp only [h, if_true]
      interval_cases i <;> simp
    · have h2 : ¬ (i + 1 < 8) := by omega
      simp [h, h2]

theorem write_loop_spec (data : Nat) :
    ∀ (n i : Nat) (ow : one_wire_t β), i + n = 8 →
      write_loop n ow data (mask_after i) =
        some (write_bits ow ((List.range' i n).map (fun k => (data >>> k) &&& 1))) := by
  intro n
  induction n with
  | zero =>
    intro i ow h
    have : i = 8 := by omega
    subst this
    rw [write_loop]
    simp [mask_after_eq, write_bits]
  | succ n ih =>
    intro i ow h
    have hi : i < 8 := by omega
    have hm : mask_after i ≠ 0 := by
      rw [mask_after_eq]; simp only [hi, if_true]; positivity
    rw [write_loop]
    simp only [hm, if_false]
    have hnext : (mask_after i <<< 1) % 256 = mask_after (i + 1) := rfl
    rw [hnext, ih (i + 1) _ (by omega)]
    have hb : (if mask_after i &&& data ≠ 0 then 1 else 0) = (data >>> i) &&& 1 := by
      rw [mask_after_eq]; simp only [hi, if_true]; exact mask_bit data i
    rw [hb]
    simp [write_bits, List.range'_succ]

theorem one_wire_write_eq (ow : one_wire_t β) (data : Nat) :
    one_wire_write ow data = some (write_bits ow (byte_bits data)) := by
  have := write_loop_spec data 8 0 ow rfl
  simp only [one_wire_write, byte_bits, List.range_eq_range']
  exact this

theorem write_bits_fields (bits : List Nat) :
    ∀ (ow : one_wire_t β),
      (write_bits ow bits).trace = ow.trace ++ bits.map BusOp.write_bit ∧
      (write_bits ow bits).user_data = bits.foldl ow.write_bit ow.user_data ∧
      (write_bits ow bits).reset = ow.reset ∧ (write_bits ow bits).read_bit = ow.read_bit ∧
      (write_bits ow bits).write_bit = ow.write_bit ∧
      (write_bits ow bits)._rom_no = ow._rom_no ∧
      (write_bits ow bits)._last_discrepancy = ow._last_discrepancy ∧
      (write_bits ow bits)._last_family_discrepancy = ow._last_family_discrepancy ∧
      (write_bits ow bits)._last_device_flag = ow._last_device_flag := by
  induction bits with
  | nil => intro ow; simp [write_bits]
  | cons b t ih =>
    intro ow
    have := ih (one_wire_write_bit ow b)
    simp only [write_bits, List.foldl_cons] at this ⊢
    simpa [one_wire_write_bit] using this

theorem write_bits_append (ow : one_wire_t β) (l1 l2 : List Nat) :
    write_bits ow (l1 ++ l2) = write_bits (write_bits ow l1) l2 := by
  simp [write_bits, List.foldl_append]

variable {β : Type}

theorem write_bytes_loop_spec (buf : List Nat) (count : Nat) (hc : count < 65536) :
    ∀ (n i : Nat) (ow : one_wire_t β), i + n = count →
      write_bytes_loop n ow buf count i =
        some (write_bits ow (((List.range' i n).map (fun k => buf.getD k 0)).flatMap byte_bits)) := by
  intro n
  induction n with
  | zero =>
    intro i ow h
    have : ¬ (i < count) := by omega
    rw [write_bytes_loop]
    simp [this, write_bits]
  | succ n ih =>
    intro i ow h
    have hi : i < count := by omega
    have hw : (i + 1) % 65536 = i + 1 := by omega
    rw [write_bytes_loop]
    simp only [hi, if_true, one_wire_write_eq, hw]
    rw [ih (i + 1) _ (by omega)]
    simp [List.range'_succ, write_bits_append]

theorem one_wire_write_bytes_eq (ow : one_wire_t β) (buf : List Nat) (count : Nat)
    (hc : count < 65536) :
    one_wire_write_bytes ow buf count =
      some (write_bits ow (((List.range count).map (fun k => buf.getD k 0)).flatMap byte_bits)) := by
  have := write_bytes_loop_spec buf count hc count 0 ow (by omega)
  simp only [one_wire_write_bytes, List.range_eq_range']
  exact this

theorem range_map_getD_ofFn (rom : Rom) :
    (List.range 8).map (fun k => (List.ofFn rom).getD k 0) = List.ofFn rom := by
  simp [List.ofFn, List.range, List.range.loop, Fin.foldr, Fin.foldr.loop]

theorem one_wire_select_eq (ow : one_wire_t β) (rom : Rom) :
    one_wire_select ow rom =
      some (write_bits ow (byte_bits 0x55 ++ (List.ofFn rom).flatMap byte_bits)) := by
  have h := one_wire_write_bytes_eq (write_bits ow (byte_bits 0x55)) (List.ofFn rom) 8
    (by norm_num)
  rw [range_map_getD_ofFn] at h
  simp only [one_wire_select, one_wire_write_eq, h, write_bits_append]

theorem byte_bits_length (b : Nat) : (byte_bits b).length = 8 := by
  simp [byte_bits]

variable {β : Type}

set_option maxRecDepth 100000 in
theorem byte_of_bits_byte_bits : ∀ b < 256, byte_of_bits (byte_bits b) = b := by decide

theorem read_loop_spec :
    ∀ (n i : Nat) (ow : one_wire_t β) (res : Nat), i + n = 8 → res < 2 ^ i →
      read_loop n ow res (mask_after i) =
        some (res + 2 ^ i * byte_of_bits (read_bits n ow).1, (read_bits n ow).2) := by
  intro n
  induction n with
  | zero =>
    intro i ow res h _
    have : i = 8 := by omega
    subst this
    rw [read_loop]
    simp [mask_after_eq, read_bits, byte_of_bits]
  | succ n ih =>
    intro i ow res h hres
    have hi : i < 8 := by omega
    have hmv : mask_after i = 2 ^ i := by rw [mask_after_eq]; simp [hi]
    have hm : mask_after i ≠ 0 := by rw [hmv]; positivity
    rw [read_loop]
    simp only [hm, if_false]
    have hnext : (mask_after i <<< 1) % 256 = mask_after (i + 1) := rfl
    rw [hnext]
    have hor : res ||| 2 ^ i = res + 2 ^ i := by
      have := Nat.mul_add_lt_is_or hres 1
      rw [Nat.mul_one] at this
      rw [Nat.or_comm, ← this, Nat.add_comm]
    have hpow : 2 ^ (i + 1) = 2 * 2 ^ i := by rw [pow_succ]; ring
    by_cases hr : (one_wire_read_bit ow).1 ≠ 0
    · rw [if_pos hr, hmv, hor, ih (i + 1) _ _ (by omega) (by omega)]
      simp only [read_bits, byte_of_bits]
      rw [if_pos hr]
      congr 2
      rw [hpow]; ring
    · rw [if_neg hr, ih (i + 1) _ _ (by omega) (by omega)]
      simp only [read_bits, byte_of_bits]
      rw [if_neg hr]
      congr 2
      rw [hpow]; ring

theorem one_wire_read_eq (ow : one_wire_t β) :
    one_wire_read ow = some (byte_of_bits (read_bits 8 ow).1, (read_bits 8 ow).2) := by
  have := read_loop_spec 8 0 ow 0 rfl (by norm_num)
  simpa [one_wire_read, mask_after] using this

theorem read_bits_fields :
    ∀ (n : Nat) (ow : one_wire_t β),
      (read_bits n ow).1.length = n ∧
      (read_bits n ow).2.trace = ow.trace ++ (read_bits n ow).1.map BusOp.read_bit ∧
      (read_bits n ow).2.reset = ow.reset ∧ (read_bits n ow).2.read_bit = ow.read_bit ∧
      (read_bits n ow).2.write_bit = ow.write_bit ∧
      (read_bits n ow).2._rom_no = ow._rom_no ∧
      (read_bits n ow).2._last_discrepancy = ow._last_discrepancy ∧
      (read_bits n ow).2._last_family_discrepancy = ow._last_family_discrepancy ∧
      (read_bits n ow).2._last_device_flag = ow._last_device_flag := by
  intro n
  induction n with
  | zero => intro ow; simp [read_bits]
  | succ n ih =>
    intro ow
    have := ih (one_wire_read_bit ow).2
    simp only [read_bits]
    simpa [one_wire_read_bit] using this

theorem byte_of_bits_testBit :
    ∀ (l : List Nat) (i : Nat), i < l.length →
      (byte_of_bits l).testBit i = decide (l.getD i 0 ≠ 0) := by
  intro l
  induction l with
  | nil => intro i h; simp at h
  | cons r rs ih =>
    intro i h
    cases i with
    | zero =>
      simp only [byte_of_bits, List.getD_cons_zero]
      rw [Nat.testBit_zero]
      by_cases hr : r ≠ 0
      · rw [if_pos hr]
        have : (1 + 2 * byte_of_bits rs) % 2 = 1 := by omega
        simp [this, hr]
      · rw [if_neg hr]
        have : (0 + 2 * byte_of_bits rs) % 2 = 0 := by omega
        simp [this, hr]
    | succ i =>
      simp only [byte_of_bits, List.getD_cons_succ]
      rw [Nat.testBit_succ]
      have hdiv : ((if r ≠ 0 then 1 else 0) + 2 * byte_of_bits rs) / 2 = byte_of_bits rs := by
        split <;> omega
      rw [hdiv]
      exact ih i (by simpa using h)

theorem byte_of_bits_lt : ∀ (l : List Nat), byte_of_bits l < 2 ^ l.length := by
  intro l
  induction l with
  | nil => simp [byte_of_bits]
  | cons r rs ih =>
    simp only [byte_of_bits, List.length_cons, pow_succ]
    split <;> omega

variable {β : Type}

theorem stream_read_bits :
    ∀ (n : Nat) (ow : one_wire_t (List Nat)) (bits rest : List Nat),
      ow.read_bit = (fun s => (s.headD 1, s.tail)) → bits.length = n →
      ow.user_data = bits ++ rest →
      (read_bits n ow).1 = bits ∧ (read_bits n ow).2.user_data = rest := by
  intro n
  induction n with
  | zero =>
    intro ow bits rest _ hl hu
    have : bits = [] := List.length_eq_zero.mp hl
    subst this
    simpa [read_bits] using hu
  | succ n ih =>
    intro ow bits rest hr hl hu
    cases bits with
    | nil => simp at hl
    | cons b bs =>
      have h1 : (one_wire_read_bit ow).1 = b := by simp [one_wire_read_bit, hr, hu]
      have h2 : (one_wire_read_bit ow).2.user_data = bs ++ rest := by
        simp [one_wire_read_bit, hr, hu]
      have h3 : (one_wire_read_bit ow).2.read_bit = (fun s => (s.headD 1, s.tail)) := by
        simp [one_wire_read_bit, hr]
      obtain ⟨ha, hb⟩ := ih (one_wire_read_bit ow).2 bs rest h3 (by simpa using hl) h2
      simp only [read_bits, h1, ha, hb, and_self]

theorem read_bytes_loop_stream (buf : List Nat) (count : Nat) (rest : List Nat)
    (hc : count < 65536) (hbytes : ∀ k, buf.getD k 0 < 256) :
    ∀ (n i : Nat) (ow : one_wire_t (List Nat)) (out : List Nat), i + n = count →
      ow.read_bit = (fun s => (s.headD 1, s.tail)) →
      ow.user_data = ((List.range' i n).map (fun k => buf.getD k 0)).flatMap byte_bits ++ rest →
      ∃ out2 ow2, read_bytes_loop n ow out count i = some (out2, ow2) ∧
        out2.length = out.length ∧
        (∀ k, out2[k]? = if i ≤ k ∧ k < count ∧ k < out.length then some (buf.getD k 0)
          else out[k]?) ∧
        ow2.user_data = rest ∧
        ow2.trace = ow.trace ++
          (((List.range' i n).map (fun k => buf.getD k 0)).flatMap byte_bits).map
            BusOp.read_bit := by
  intro n
  induction n with
  | zero =>
    intro i ow out h _ hu
    have hi : ¬ (i < count) := by omega
    refine ⟨out, ow, ?_, rfl, ?_, ?_, ?_⟩
    · rw [read_bytes_loop]; simp [hi]
    · intro k
      have : ¬ (i ≤ k ∧ k < count ∧ k < out.length) := by omega
      simp [this]
    · simpa using hu
    · simp
  | succ n ih =>
    intro i ow out h hr hu
    have hi : i < count := by omega
    have hw : (i + 1) % 65536 = i + 1 := by omega
    rw [List.range'_succ, List.map_cons, List.flatMap_cons, List.append_assoc] at hu
    obtain ⟨hbits, hud⟩ := stream_read_bits 8 ow (byte_bits (buf.getD i 0)) _ hr
      (byte_bits_length _) hu
    have hf := read_bits_fields 8 ow
    obtain ⟨out2, ow2, hcall, hlen, hget, hrest, htr⟩ :=
      ih (i + 1) (read_bits 8 ow).2 (out.set i (buf.getD i 0)) (by omega)
        (by rw [hf.2.2.2.1]; exact hr) hud
    refine ⟨out2, ow2, ?_, ?_, ?_, hrest, ?_⟩
    · rw [read_bytes_loop]
      simp only [hi, if_true, one_wire_read_eq, hw, hbits,
        byte_of_bits_byte_bits _ (hbytes i)]
      exact hcall
    · rw [hlen, List.length_set]
    · intro k
      rw [hget k, List.length_set, List.getElem?_set]
      by_cases hki : i = k
      · subst hki
        by_cases hl : i < out.length
        · have h1 : ¬ (i + 1 ≤ i ∧ i < count ∧ i < out.length) := by omega
          have h2 : i ≤ i ∧ i < count ∧ i < out.length := ⟨le_refl _, hi, hl⟩
          simp [h1, h2, hl]
        · have h1 : ¬ (i + 1 ≤ i ∧ i < count ∧ i < out.length) := by omega
          have h2 : ¬ (i ≤ i ∧ i < count ∧ i < out.length) := by omega
          have h3 : out[i]? = none := List.getElem?_eq_none (by omega)
          simp [h1, h2, hl, h3]
      · by_cases hc2 : i + 1 ≤ k ∧ k < count ∧ k < out.length
        · have h2 : i ≤ k ∧ k < count ∧ k < out.length := by omega
          simp [hc2, h2]
        · have h2 : ¬ (i ≤ k ∧ k < count ∧ k < out.length) := by omega
          simp [hc2, h2, hki]
    · rw [htr, hf.2.1, hbits]
      simp [List.range'_succ]

variable {β : Type}

theorem written_bits_map (l : List Nat) : written_bits (l.map BusOp.write_bit) = l := by
  induction l with
  | nil => rfl
  | cons a t ih => simp [written_bits, ih]

theorem read_count_map (l : List Nat) : read_count (l.map BusOp.read_bit) = l.length := by
  induction l with
  | nil => rfl
  | cons a t ih => simp [read_count, ih]

theorem flatMap_byte_bits_length (l : List Nat) : (l.flatMap byte_bits).length = 8 * l.length := by
  induction l with
  | nil => rfl
  | cons a t ih =>
    rw [List.flatMap_cons, List.length_append, byte_bits_length, ih, List.length_cons]
    ring

/-! ## Helpers for the later claims -/

variable {β : Type}

theorem one_wire_search_success (ow : one_wire_t β) (addr : Rom) (w : search_vars β)
    (hflag : ow._last_device_flag = false) (hw : search_walk ow = some (some w))
    (hid : ¬ w.id_bit_number < 65) :
    one_wire_search ow addr = some (search_finish (search_success w) true addr) := by
  simp only [one_wire_search, hflag, hw, search_success]
  simp [hid]

theorem one_wire_search_abort (ow : one_wire_t β) (addr : Rom) (w : search_vars β)
    (hflag : ow._last_device_flag = false) (hw : search_walk ow = some (some w))
    (hid : w.id_bit_number < 65) :
    one_wire_search ow addr = some (search_finish w.one_wire false addr) := by
  simp only [one_wire_search, hflag, hw]
  simp [hid]

theorem search_success_fields (w : search_vars β) :
    (search_success w)._last_discrepancy = w.last_zero ∧
    (search_success w)._rom_no = w.one_wire._rom_no ∧
    (search_success w)._last_family_discrepancy = w.one_wire._last_family_discrepancy ∧
    (search_success w)._last_device_flag =
      (decide (w.last_zero = 0) || w.one_wire._last_device_flag) ∧
    (search_success w).trace = w.one_wire.trace ∧
    (search_success w).user_data = w.one_wire.user_data ∧
    (search_success w).reset = w.one_wire.reset ∧
    (search_success w).read_bit = w.one_wire.read_bit ∧
    (search_success w).write_bit = w.one_wire.write_bit := by
  unfold search_success
  by_cases h : w.last_zero = 0 <;> simp [h]

theorem highestZeroFork_of_zeroInv (devs : List Rom) (x : Rom) (L : Nat)
    (h : ZeroInv devs x 64 L) : HighestZeroFork devs x L := by
  obtain ⟨h1, h2⟩ := h
  have hfork : ∀ p, ZeroForkAt devs x p → Fork devs x (p - 1) ∧ idBit x (p - 1) = false := by
    rintro p ⟨_, _, hb, z, hz, _, ha, hzb⟩
    exact ⟨⟨z, hz, ha, by rw [hzb, hb]; simp⟩, hb⟩
  have hmax : ∀ p, ZeroForkAt devs x p → p ≤ L := by
    intro p hp
    by_contra hcon
    exact h2 (p - 1) (by omega) (by have := hp.2.1; have := hp.1; omega) (hfork p hp)
  rcases h1 with h0 | ⟨hL1, hL64, ⟨z, hz, ha, hd⟩, hb⟩
  · left
    refine ⟨h0, fun p hp => ?_⟩
    have := hmax p hp
    have := hp.1
    omega
  · right
    refine ⟨⟨hL1, hL64, hb, z, hz, ?_, ha, bool_eq_true_of_ne hd hb⟩, hmax⟩
    intro hzx
    rw [hzx] at hd
    exact hd rfl

/-! ## Independence of the ghost trace -/

variable {β : Type}

theorem erase_trace_read_bit (a b : one_wire_t β) (h : erase_trace a = erase_trace b) :
    (one_wire_read_bit a).1 = (one_wire_read_bit b).1 ∧
    erase_trace (one_wire_read_bit a).2 = erase_trace (one_wire_read_bit b).2 := by
  obtain ⟨ud, rs, rb, wb, rom, ld, lfd, flag, tr⟩ := a
  obtain ⟨ud2, rs2, rb2, wb2, rom2, ld2, lfd2, flag2, tr2⟩ := b
  simp only [erase_trace, one_wire_t.mk.injEq] at h
  obtain ⟨rfl, rfl, rfl, rfl, rfl, rfl, rfl, rfl, _⟩ := h
  simp [one_wire_read_bit, erase_trace]

theorem erase_trace_write_bit (a b : one_wire_t β) (d : Nat) (h : erase_trace a = erase_trace b) :
    erase_trace (one_wire_write_bit a d) = erase_trace (one_wire_write_bit b d) := by
  obtain ⟨ud, rs, rb, wb, rom, ld, lfd, flag, tr⟩ := a
  obtain ⟨ud2, rs2, rb2, wb2, rom2, ld2, lfd2, flag2, tr2⟩ := b
  simp only [erase_trace, one_wire_t.mk.injEq] at h
  obtain ⟨rfl, rfl, rfl, rfl, rfl, rfl, rfl, rfl, _⟩ := h
  simp [one_wire_write_bit, erase_trace]

theorem erase_trace_reset (a b : one_wire_t β) (h : erase_trace a = erase_trace b) :
    (one_wire_reset a).1 = (one_wire_reset b).1 ∧
    erase_trace (one_wire_reset a).2 = erase_trace (one_wire_reset b).2 := by
  obtain ⟨ud, rs, rb, wb, rom, ld, lfd, flag, tr⟩ := a
  obtain ⟨ud2, rs2, rb2, wb2, rom2, ld2, lfd2, flag2, tr2⟩ := b
  simp only [erase_trace, one_wire_t.mk.injEq] at h
  obtain ⟨rfl, rfl, rfl, rfl, rfl, rfl, rfl, rfl, _⟩ := h
  simp [one_wire_reset, erase_trace]

theorem erase_trace_write_bits (bits : List Nat) :
    ∀ (a b : one_wire_t β), erase_trace a = erase_trace b →
      erase_trace (write_bits a bits) = erase_trace (write_bits b bits) := by
  induction bits with
  | nil => intro a b h; simpa [write_bits] using h
  | cons d t ih =>
    intro a b h
    simp only [write_bits, List.foldl_cons]
    exact ih _ _ (erase_trace_write_bit a b d h)

theorem erase_trace_search_body (v w : search_vars β)
    (h : erase_trace_vars v = erase_trace_vars w) :
    (search_body v).1 = (search_body w).1 ∧
    erase_trace_vars (search_body v).2 = erase_trace_vars (search_body w).2 := by
  obtain ⟨a, idn, lz, bn, bm⟩ := v
  obtain ⟨b, idn2, lz2, bn2, bm2⟩ := w
  obtain ⟨ud, rs, rb, wb, rom, ld, lfd, flag, tr⟩ := a
  obtain ⟨ud2, rs2, rb2, wb2, rom2, ld2, lfd2, flag2, tr2⟩ := b
  simp only [erase_trace_vars, erase_trace, search_vars.mk.injEq, one_wire_t.mk.injEq] at h
  obtain ⟨⟨rfl, rfl, rfl, rfl, rfl, rfl, rfl, rfl, _⟩, rfl, rfl, rfl, rfl⟩ := h
  simp only [search_body, one_wire_read_bit, one_wire_write_bit]
  split <;> simp [erase_trace_vars, erase_trace]

variable {β : Type}

theorem erase_trace_search_loop :
    ∀ (n : Nat) (v w : search_vars β), erase_trace_vars v = erase_trace_vars w →
      (search_loop n v).map erase_trace_vars = (search_loop n w).map erase_trace_vars := by
  intro n
  induction n with
  | zero => intro v w _; rfl
  | succ n ih =>
    intro v w h
    obtain ⟨h1, h2⟩ := erase_trace_search_body v w h
    have hb : (search_body v).2.rom_byte_number = (search_body w).2.rom_byte_number := by
      have h3 := congrArg search_vars.rom_byte_number h2
      exact h3
    simp only [search_loop]
    rw [h1, hb]
    by_cases hbr : (search_body w).1 = true
    · simp [hbr, h2]
    · by_cases hlt : (search_body w).2.rom_byte_number < 8
      · simp only [hbr, hlt, if_true]
        exact ih _ _ h2
      · simp [hbr, hlt, h2]

theorem erase_trace_search_reset (a b : one_wire_t β) (h : erase_trace a = erase_trace b) :
    erase_trace (one_wire_search_reset a) = erase_trace (one_wire_search_reset b) := by
  obtain ⟨ud, rs, rb, wb, rom, ld, lfd, flag, tr⟩ := a
  obtain ⟨ud2, rs2, rb2, wb2, rom2, ld2, lfd2, flag2, tr2⟩ := b
  simp only [erase_trace, one_wire_t.mk.injEq] at h
  obtain ⟨rfl, rfl, rfl, rfl, rfl, rfl, rfl, rfl, _⟩ := h
  simp [one_wire_search_reset, erase_trace]

theorem erase_trace_search_finish (a b : one_wire_t β) (res : Bool) (addr : Rom)
    (h : erase_trace a = erase_trace b) :
    erase_trace_ret (search_finish a res addr) = erase_trace_ret (search_finish b res addr) := by
  obtain ⟨ud, rs, rb, wb, rom, ld, lfd, flag, tr⟩ := a
  obtain ⟨ud2, rs2, rb2, wb2, rom2, ld2, lfd2, flag2, tr2⟩ := b
  simp only [erase_trace, one_wire_t.mk.injEq] at h
  obtain ⟨rfl, rfl, rfl, rfl, rfl, rfl, rfl, rfl, _⟩ := h
  simp only [search_finish]
  split <;> simp [erase_trace_ret, erase_trace, one_wire_search_reset]

theorem erase_trace_search_success (v w : search_vars β)
    (h : erase_trace_vars v = erase_trace_vars w) :
    erase_trace (search_success v) = erase_trace (search_success w) := by
  obtain ⟨a, idn, lz, bn, bm⟩ := v
  obtain ⟨b, idn2, lz2, bn2, bm2⟩ := w
  obtain ⟨ud, rs, rb, wb, rom, ld, lfd, flag, tr⟩ := a
  obtain ⟨ud2, rs2, rb2, wb2, rom2, ld2, lfd2, flag2, tr2⟩ := b
  simp only [erase_trace_vars, erase_trace, search_vars.mk.injEq, one_wire_t.mk.injEq] at h
  obtain ⟨⟨rfl, rfl, rfl, rfl, rfl, rfl, rfl, rfl, _⟩, rfl, rfl, rfl, rfl⟩ := h
  simp only [search_success]
  split <;> simp [erase_trace]

/-- The result of `one_wire_search` from a non-terminal state is determined, up to the
ghost trace, by the search state and by what the reset callback returns. -/
theorem erase_trace_search_of_reset (a b : one_wire_t β) (addr : Rom)
    (hfa : a._last_device_flag = false) (hfb : b._last_device_flag = false)
    (hp : (one_wire_reset a).1 = (one_wire_reset b).1)
    (h : erase_trace (one_wire_reset a).2 = erase_trace (one_wire_reset b).2) :
    (one_wire_search a addr).map erase_trace_ret =
      (one_wire_search b addr).map erase_trace_ret := by
  by_cases hz : (one_wire_reset b).1 = 0
  · have hwa : search_walk a = some none := by simp [search_walk, hp, hz]
    have hwb : search_walk b = some none := by simp [search_walk, hz]
    simp only [one_wire_search, hfa, hfb, hwa, hwb]
    simp [erase_trace_ret, erase_trace_search_reset _ _ h]
  · have hza : ¬ (one_wire_reset a).1 = 0 := by rw [hp]; exact hz
    have hw := erase_trace_write_bits (byte_bits 0xF0) _ _ h
    have hl := erase_trace_search_loop 64
      (search_start (write_bits (one_wire_reset a).2 (byte_bits 0xF0)))
      (search_start (write_bits (one_wire_reset b).2 (byte_bits 0xF0)))
      (by simp [erase_trace_vars, search_start, hw])
    have hwa : search_walk a =
        (search_loop 64 (search_start (write_bits (one_wire_reset a).2 (byte_bits 0xF0)))).map
          some := by
      simp only [search_walk, hza, if_false, one_wire_write_eq, search_start]
      cases search_loop 64 _ <;> rfl
    have hwb : search_walk b =
        (search_loop 64 (search_start (write_bits (one_wire_reset b).2 (byte_bits 0xF0)))).map
          some := by
      simp only [search_walk, hz, if_false, one_wire_write_eq, search_start]
      cases search_loop 64 _ <;> rfl
    cases hla : search_loop 64 (search_start (write_bits (one_wire_reset a).2 (byte_bits 0xF0)))
      with
    | none =>
      rw [hla] at hl hwa
      cases hlb : search_loop 64
          (search_start (write_bits (one_wire_reset b).2 (byte_bits 0xF0))) with
      | none =>
        rw [hlb] at hwb
        simp [one_wire_search, hfa, hfb, hwa, hwb]
      | some w => rw [hlb] at hl; simp at hl
    | some v =>
      rw [hla] at hl hwa
      cases hlb : search_loop 64
          (search_start (write_bits (one_wire_reset b).2 (byte_bits 0xF0))) with
      | none => rw [hlb] at hl; simp at hl
      | some w =>
        rw [hlb] at hl hwb
        have hvw : erase_trace_vars v = erase_trace_vars w := by simpa using hl
        have hid : v.id_bit_number = w.id_bit_number := by
          have h3 := congrArg search_vars.id_bit_number hvw
          exact h3
        have hone : erase_trace v.one_wire = erase_trace w.one_wire := by
          have h3 := congrArg search_vars.one_wire hvw
          exact h3
        by_cases hlt : w.id_bit_number < 65
        · rw [one_wire_search_abort a addr v hfa hwa (by rw [hid]; exact hlt),
            one_wire_search_abort b addr w hfb hwb hlt]
          simp [erase_trace_search_finish _ _ false addr hone]
        · rw [one_wire_search_success a addr v hfa hwa (by rw [hid]; exact hlt),
            one_wire_search_success b addr w hfb hwb hlt]
          simp [erase_trace_search_finish _ _ true addr (erase_trace_search_success v w hvw)]

theorem erase_trace_search (a b : one_wire_t β) (addr : Rom)
    (h : erase_trace a = erase_trace b) :
    (one_wire_search a addr).map erase_trace_ret =
      (one_wire_search b addr).map erase_trace_ret := by
  have hflag : a._last_device_flag = b._last_device_flag := by
    have h3 := congrArg one_wire_t._last_device_flag h
    exact h3
  by_cases hf : b._last_device_flag = true
  · rw [one_wire_search_terminal a addr (by rw [hflag]; exact hf),
      one_wire_search_terminal b addr hf]
    simp [erase_trace_ret, erase_trace_search_reset _ _ h]
  · have hfb : b._last_device_flag = false := by simpa using hf
    obtain ⟨h1, h2⟩ := erase_trace_reset a b h
    exact erase_trace_search_of_reset a b addr (by rw [hflag]; exact hfb) hfb h1 h2

variable {β : Type}

theorem search_calls_total :
    ∀ (n : Nat) (a : one_wire_t β) (addr : Rom), ∃ t, search_calls n a addr = some t := by
  intro n
  induction n with
  | zero => intro a addr; exact ⟨_, rfl⟩
  | succ n ih =>
    intro a addr
    obtain ⟨r, _, hr, _⟩ := one_wire_search_spec a addr
    obtain ⟨t, ht⟩ := ih r.one_wire r.new_addr
    refine ⟨((r.found, r.new_addr) :: t.1, t.2.1, t.2.2), ?_⟩
    simp only [search_calls, hr, ht]

theorem search_state_of_erase (a b : one_wire_t β) (h : erase_trace a = erase_trace b) :
    search_state a = search_state b := by
  have h1 := congrArg one_wire_t._rom_no h
  have h2 := congrArg one_wire_t._last_discrepancy h
  have h3 := congrArg one_wire_t._last_family_discrepancy h
  have h4 := congrArg one_wire_t._last_device_flag h
  simp only [erase_trace] at h1 h2 h3 h4
  simp [search_state, h1, h2, h3, h4]

theorem erase_trace_ret_eq (ra rb : search_ret β) (h : erase_trace_ret ra = erase_trace_ret rb) :
    ra.found = rb.found ∧ ra.new_addr = rb.new_addr ∧
      erase_trace ra.one_wire = erase_trace rb.one_wire := by
  have h1 := congrArg search_ret.found h
  have h2 := congrArg search_ret.new_addr h
  have h3 := congrArg search_ret.one_wire h
  exact ⟨h1, h2, h3⟩

theorem search_calls_congr :
    ∀ (n : Nat) (a b : one_wire_t β) (addr : Rom) (ta tb : List (Bool × Rom) × one_wire_t β × Rom),
      erase_trace a = erase_trace b →
      search_calls n a addr = some ta → search_calls n b addr = some tb →
      ta.1 = tb.1 ∧ erase_trace ta.2.1 = erase_trace tb.2.1 ∧ ta.2.2 = tb.2.2 := by
  intro n
  induction n with
  | zero =>
    intro a b addr ta tb h ha hb
    simp only [search_calls, Option.some.injEq] at ha hb
    subst ha hb
    exact ⟨rfl, h, rfl⟩
  | succ n ih =>
    intro a b addr ta tb h ha hb
    have hs := erase_trace_search a b addr h
    obtain ⟨ra, _, hra, _⟩ := one_wire_search_spec a addr
    obtain ⟨rb, _, hrb, _⟩ := one_wire_search_spec b addr
    rw [hra, hrb] at hs
    simp only [Option.map_some', Option.some.injEq] at hs
    obtain ⟨hf, hn, ho⟩ := erase_trace_ret_eq ra rb hs
    obtain ⟨ua, hua⟩ := search_calls_total n ra.one_wire ra.new_addr
    obtain ⟨ub, hub⟩ := search_calls_total n rb.one_wire rb.new_addr
    have hub2 := hub
    rw [← hn] at hub2
    obtain ⟨i1, i2, i3⟩ := ih ra.one_wire rb.one_wire ra.new_addr ua ub ho hua hub2
    simp only [search_calls, hra, hua, Option.some.injEq] at ha
    simp only [search_calls, hrb, hub, Option.some.injEq] at hb
    subst ha hb
    simp [hf, hn, i1, i2, i3]

theorem sim_reset_erase (devs : List Rom) (s1 s2 : one_wire_t SimBus) (h1 : OnSim s1 devs)
    (h2 : OnSim s2 devs) :
    (one_wire_reset (one_wire_search_reset s1)).1 =
      (one_wire_reset (one_wire_search_reset s2)).1 ∧
    erase_trace (one_wire_reset (one_wire_search_reset s1)).2 =
      erase_trace (one_wire_reset (one_wire_search_reset s2)).2 := by
  obtain ⟨a1, a2, a3, a4⟩ := h1
  obtain ⟨b1, b2, b3, b4⟩ := h2
  obtain ⟨ud, rs, rb, wb, rom, ld, lfd, flag, tr⟩ := s1
  obtain ⟨ud2, rs2, rb2, wb2, rom2, ld2, lfd2, flag2, tr2⟩ := s2
  simp only at a1 a2 a3 a4 b1 b2 b3 b4
  subst a1 a2 a3 b1 b2 b3
  simp [one_wire_reset, one_wire_search_reset, sim_reset, erase_trace, a4, b4]

/-! ## One pass of the search loop on an arbitrary bus -/

variable {β : Type}

theorem testBit_clear_lt (x k j : Nat) (hj : j < 8) :
    (x &&& (255 ^^^ 2 ^ k)).testBit j = if j = k then false else x.testBit j := by
  rw [Nat.testBit_and, Nat.testBit_xor, Nat.testBit_two_pow]
  have h255 : Nat.testBit 255 j = decide (j < 8) := Nat.testBit_two_pow_sub_one 8 j
  rw [h255]
  by_cases h : j = k
  · subst h; simp [hj]
  · have h2 : ¬ k = j := fun e => h e.symm
    simp [h, h2, hj]

theorem idBit_setBit_any (rom : Rom) (i j : Nat) (d : Bool) (hi : i < 64) :
    idBit (setBit rom i d) j = if j = i then d else idBit rom j := by
  unfold idBit setBit
  rw [rd_wr]
  have h8 : i / 8 < 8 := by omega
  have hj8 : j % 8 < 8 := Nat.mod_lt _ (by norm_num)
  by_cases hji : j = i
  · subst hji
    cases d
    · simp [h8, testBit_clear_lt _ _ _ hj8]
    · simp [h8, testBit_set]
  · by_cases hq : j / 8 = i / 8
    · have hm : j % 8 ≠ i % 8 := by omega
      cases d
      · simp [hq, h8, hji, testBit_clear_lt _ _ _ hj8, hm]
      · simp [hq, h8, hji, Nat.testBit_two_pow, Ne.symm hm]
    · simp [hq, hji]

theorem rd_setBit_other (rom : Rom) (i m : Nat) (d : Bool) (hm : m ≠ i / 8) :
    rd (setBit rom i d) m = rd rom m := by
  unfold setBit
  rw [rd_wr]
  simp [hm]

/-- What a pass of the search loop that does not break leaves behind, on any bus. -/
theorem search_body_facts (v : search_vars β) (k : Nat) (hk : k < 64) (hc : Counters k v)
    (hnot : pass_reads v ≠ (1, 1)) :
    (search_body v).1 = false ∧
    (search_body v).2.one_wire.trace = v.one_wire.trace ++
      round_ops ((pass_reads v).1, (pass_reads v).2,
        resolved_direction (pass_reads v).1 (pass_reads v).2 (k + 1)
          v.one_wire._last_discrepancy (idBit v.one_wire._rom_no k)) ∧
    (search_body v).2.one_wire._rom_no = setBit v.one_wire._rom_no k
      (decide (resolved_direction (pass_reads v).1 (pass_reads v).2 (k + 1)
          v.one_wire._last_discrepancy (idBit v.one_wire._rom_no k) = 1)) ∧
    (search_body v).2.last_zero =
      (if (pass_reads v).1 = (pass_reads v).2 ∧
          resolved_direction (pass_reads v).1 (pass_reads v).2 (k + 1)
            v.one_wire._last_discrepancy (idBit v.one_wire._rom_no k) = 0
        then k + 1 else v.last_zero) ∧
    (search_body v).2.one_wire._last_family_discrepancy =
      (if (pass_reads v).1 = (pass_reads v).2 ∧
          resolved_direction (pass_reads v).1 (pass_reads v).2 (k + 1)
            v.one_wire._last_discrepancy (idBit v.one_wire._rom_no k) = 0 ∧ k + 1 ≤ 8
        then k + 1 else v.one_wire._last_family_discrepancy) ∧
    (search_body v).2.one_wire._last_discrepancy = v.one_wire._last_discrepancy ∧
    (search_body v).2.one_wire._last_device_flag = v.one_wire._last_device_flag ∧
    (search_body v).2.one_wire.reset = v.one_wire.reset ∧
    (search_body v).2.one_wire.read_bit = v.one_wire.read_bit ∧
    (search_body v).2.one_wire.write_bit = v.one_wire.write_bit := by
  obtain ⟨⟨ud, rs, rb, wb, rom, ld, lfd, flag, tr⟩, idn, lz, bn, bm⟩ := v
  obtain ⟨h1, h2, h3⟩ := hc
  simp only at h1 h2 h3
  subst h1 h2 h3
  simp only [pass_reads, search_body, one_wire_read_bit, one_wire_write_bit] at hnot ⊢
  have hbit : (rd rom (k / 8) &&& 2 ^ (k % 8) > 0) ↔ idBit rom k = true := and_two_pow_pos _ _
  have hbr : ¬ ((rb ud).1 = 1 ∧ (rb (rb ud).2).1 = 1) := by
    intro h
    apply hnot
    simp [h.1, h.2]
  have hd : (if (rb ud).1 ≠ (rb (rb ud).2).1 then (rb ud).1
      else if k + 1 < ld then (if rd rom (k / 8) &&& 2 ^ (k % 8) > 0 then 1 else 0)
      else (if k + 1 = ld then 1 else 0)) =
      resolved_direction (rb ud).1 (rb (rb ud).2).1 (k + 1) ld (idBit rom k) := by
    unfold resolved_direction
    by_cases hb : idBit rom k = true
    · simp [hb, hbit.mpr hb]
    · have : ¬ (rd rom (k / 8) &&& 2 ^ (k % 8) > 0) := fun h => hb (hbit.mp h)
      simp only [this, if_false]
      simp at hb
      simp [hb]
  rw [if_neg hbr]
  simp only
  rw [hd]
  refine ⟨trivial, ?_, ?_, ?_, ?_, trivial, trivial, trivial, trivial, trivial⟩
  · simp [round_ops]
  · simp only [setBit]
    by_cases hd1 : resolved_direction (rb ud).1 (rb (rb ud).2).1 (k + 1) ld (idBit rom k) = 1 <;> simp [hd1]
  · rfl
  · by_cases hz : (rb ud).1 = (rb (rb ud).2).1 ∧ resolved_direction (rb ud).1 (rb (rb ud).2).1 (k + 1) ld (idBit rom k) = 0
    · simp only [if_pos hz]
      by_cases h8 : k + 1 ≤ 8
      · have h9 : k + 1 < 9 := by omega
        rw [if_pos ⟨hz, h9⟩, if_pos ⟨hz.1, hz.2, h8⟩]
      · have h9 : ¬ k + 1 < 9 := by omega
        rw [if_neg (fun h => h9 h.2), if_neg (fun h => h8 h.2.2)]
    · rw [if_neg (fun h => hz h.1), if_neg (fun h => hz ⟨h.1, h.2.1⟩)]

variable {β : Type}

theorem search_body_break_trace (v : search_vars β) (h : pass_reads v = (1, 1)) :
    (search_body v).2.one_wire.trace =
      v.one_wire.trace ++ [BusOp.read_bit 1, BusOp.read_bit 1] ∧
    (search_body v).2.id_bit_number = v.id_bit_number := by
  have h1 : (one_wire_read_bit v.one_wire).1 = 1 := by
    have := congrArg Prod.fst h; exact this
  have h2 : (one_wire_read_bit (one_wire_read_bit v.one_wire).2).1 = 1 := by
    have := congrArg Prod.snd h; exact this
  unfold search_body
  simp only [h1, h2, and_self, if_true]
  simp only [one_wire_read_bit] at h1 h2 ⊢
  simp [h1, h2]

theorem passInv_step (ow0 : one_wire_t β) (k : Nat) (v : search_vars β) (hk : k < 64)
    (inv : PassInv ow0 k v) (hnot : pass_reads v ≠ (1, 1)) :
    PassInv ow0 (k + 1) (search_body v).2 := by
  obtain ⟨hb, _, hrom, hlz, hlfd, hld, hflag, hrs, hrb, hwb⟩ :=
    search_body_facts v k hk inv.hcount hnot
  refine
    { hcount := search_body_counters k v hk inv.hcount hb
      hld := by rw [hld]; exact inv.hld
      hflag := by rw [hflag]; exact inv.hflag
      hreset := by rw [hrs]; exact inv.hreset
      hread := by rw [hrb]; exact inv.hread
      hwrite := by rw [hwb]; exact inv.hwrite
      hrest := ?_
      hzero := ?_
      hfam := ?_ }
  · intro j hj
    rw [hrom, idBit_setBit_any _ k j _ hk]
    have : j ≠ k := by omega
    simp only [this, if_false]
    exact inv.hrest j (by omega)
  · rw [hlz]
    have := inv.hzero
    split <;> omega
  · intro h8
    rw [hlfd]
    have := inv.hfam h8
    split
    · rename_i hc; omega
    · exact this

theorem passInv_passes (ow0 : one_wire_t β) :
    ∀ (n k : Nat) (v : search_vars β), PassInv ow0 k v → k + n ≤ 64 →
      (∀ j < n, pass_reads (search_passes j v) ≠ (1, 1)) →
      PassInv ow0 (k + n) (search_passes n v) := by
  intro n
  induction n with
  | zero => intro k v inv _ _; exact inv
  | succ n ih =>
    intro k v inv hkn hall
    have h0 := hall 0 (by omega)
    have inv2 := passInv_step ow0 k v (by omega) inv h0
    have := ih (k + 1) (search_body v).2 inv2 (by omega)
      (fun j hj => hall (j + 1) (by omega))
    have he : k + 1 + n = k + (n + 1) := by omega
    rw [he] at this
    exact this

theorem passInv_start (ow : one_wire_t β) : PassInv ow 0 (search_start ow) :=
  { hcount := ⟨rfl, rfl, rfl⟩, hld := rfl, hflag := rfl, hreset := rfl, hread := rfl,
    hwrite := rfl, hrest := fun _ _ => rfl, hzero := le_refl _, hfam := fun h => h }

theorem search_passes_succ (n : Nat) :
    ∀ (v : search_vars β), search_passes (n + 1) v = (search_body (search_passes n v)).2 := by
  induction n with
  | zero => intro v; rfl
  | succ n ih =>
    intro v
    have := ih (search_body v).2
    simp only [search_passes] at this ⊢
    exact this

variable {β : Type}

theorem search_loop_trace :
    ∀ (n k : Nat) (v : search_vars β), k + n = 64 → 0 < n → Counters k v →
      ∃ (w : search_vars β) (rounds : List (Nat × Nat × Nat)),
        search_loop n v = some w ∧ rounds.length ≤ n ∧
        w.id_bit_number = k + rounds.length + 1 ∧
        w.one_wire.trace = v.one_wire.trace ++ rounds.flatMap round_ops ++
          (if rounds.length < n then [BusOp.read_bit 1, BusOp.read_bit 1] else []) := by
  intro n
  induction n with
  | zero => intro k v _ h; omega
  | succ n ih =>
    intro k v hkn _ hc
    by_cases hbr : pass_reads v = (1, 1)
    · have hb : (search_body v).1 = true := (search_body_break_iff v).mpr hbr
      obtain ⟨ht, hid⟩ := search_body_break_trace v hbr
      refine ⟨(search_body v).2, [], by simp [search_loop, hb], by simp, ?_, ?_⟩
      · rw [hid, hc.1]; simp
      · rw [ht]; simp
    · obtain ⟨hb, htr0, _⟩ := search_body_facts v k (by omega) hc hbr
      obtain ⟨r0, htr⟩ : ∃ r0, (search_body v).2.one_wire.trace =
          v.one_wire.trace ++ round_ops r0 := ⟨_, htr0⟩
      have hc2 := search_body_counters k v (by omega) hc hb
      by_cases hn : n = 0
      · subst hn
        have hk : k = 63 := by omega
        subst hk
        have hbyte : ¬ ((search_body v).2.rom_byte_number < 8) := by rw [hc2.2.1]; norm_num
        refine ⟨(search_body v).2, [r0], by simp [search_loop, hb, hbyte], by simp, ?_, ?_⟩
        · rw [hc2.1]; simp
        · rw [htr]; simp
      · have hbyte : (search_body v).2.rom_byte_number < 8 := by rw [hc2.2.1]; omega
        obtain ⟨w, rounds, hw, hlen, hid, hwt⟩ :=
          ih (k + 1) (search_body v).2 (by omega) (by omega) hc2
        refine ⟨w, r0 :: rounds, by simp [search_loop, hb, hbyte, hw], by simp; omega, ?_, ?_⟩
        · rw [hid]; simp; omega
        · rw [hwt, htr]
          by_cases hl : rounds.length < n
          · have : rounds.length + 1 < n + 1 := by omega
            simp [hl, this]
          · have : ¬ rounds.length + 1 < n + 1 := by omega
            simp [hl, this]

theorem search_finish_trace (ow : one_wire_t β) (res : Bool) (addr : Rom) :
    (search_finish ow res addr).one_wire.trace = ow.trace := by
  unfold search_finish
  split <;> rfl

/-- The state a successful search returns, on any bus. -/
theorem one_wire_search_found (ow : one_wire_t β) (addr : Rom) (r : search_ret β)
    (hr : one_wire_search ow addr = some r) (hf : r.found = true) :
    ow._last_device_flag = false ∧
    (∀ k < 64, pass_reads (search_passes k
      (search_start (write_bits (one_wire_reset ow).2 (byte_bits 0xF0)))) ≠ (1, 1)) ∧
    r.one_wire = search_success (search_passes 64
      (search_start (write_bits (one_wire_reset ow).2 (byte_bits 0xF0)))) := by
  obtain ⟨r2, ow2, hr2, hw2, _, hiff, _, _⟩ := one_wire_search_spec ow addr
  rw [hr] at hr2
  injection hr2 with hr2
  subst hr2
  rw [one_wire_write_eq] at hw2
  injection hw2 with hw2
  subst hw2
  obtain ⟨hflag, hp, hno, _⟩ := hiff.mp hf
  obtain ⟨w, hloop, hA, _⟩ := search_loop_generic 64 0
    (search_start (write_bits (one_wire_reset ow).2 (byte_bits 0xF0))) rfl (by norm_num)
    ⟨rfl, rfl, rfl⟩
  obtain ⟨hweq, hid⟩ := hA hno
  have hwalk : search_walk ow = some (some w) :=
    search_walk_eq ow _ w hp (one_wire_write_eq _ _) hloop
  have hcall := one_wire_search_success ow addr w hflag hwalk (by omega)
  rw [hr] at hcall
  injection hcall with hcall
  refine ⟨hflag, hno, ?_⟩
  rw [hcall, search_finish_true] at hf ⊢
  split at hf
  · cases hf
  · rename_i h0
    rw [if_neg h0, hweq]

variable {β : Type}

theorem walk_start_fields (ow : one_wire_t β) :
    (walk_start ow).one_wire.trace = ow.trace ++ [BusOp.reset (ow.reset ow.user_data).1] ++
      [0, 0, 0, 0, 1, 1, 1, 1].map BusOp.write_bit ∧
    (walk_start ow).one_wire._last_discrepancy = ow._last_discrepancy ∧
    (walk_start ow).one_wire._last_family_discrepancy = ow._last_family_discrepancy ∧
    (walk_start ow).one_wire._last_device_flag = ow._last_device_flag ∧
    (walk_start ow).one_wire._rom_no = ow._rom_no := by
  have hF0 : byte_bits 0xF0 = [0, 0, 0, 0, 1, 1, 1, 1] := by decide
  have hf := write_bits_fields (byte_bits 0xF0) (one_wire_reset ow).2
  unfold walk_start search_start
  simp only
  rw [hf.1, hf.2.2.2.2.2.1, hf.2.2.2.2.2.2.1, hf.2.2.2.2.2.2.2.1, hf.2.2.2.2.2.2.2.2, hF0]
  exact ⟨rfl, rfl, rfl, rfl, rfl⟩

theorem search_walk_of_loop (ow : one_wire_t β) (w : search_vars β)
    (hp : (ow.reset ow.user_data).1 ≠ 0) (hl : search_loop 64 (walk_start ow) = some w) :
    search_walk ow = some (some w) :=
  search_walk_eq ow _ w hp (one_wire_write_eq _ _) hl

theorem passInv_walk (ow : one_wire_t β) (k : Nat) (hk : k ≤ 64)
    (hall : ∀ j < k, pass_reads (search_passes j (walk_start ow)) ≠ (1, 1)) :
    PassInv (walk_start ow).one_wire k (search_passes k (walk_start ow)) := by
  have := passInv_passes (walk_start ow).one_wire k 0 (walk_start ow)
    (passInv_start _) (by omega) hall
  simpa using this


/-! ## The claims -/

/-- Claim C1, as amended: on the simulated wired-AND bus holding any number of devices with
pairwise distinct 64-bit identifiers whose first byte (family code) is non-zero, repeated
`one_wire_search` calls from the cleared search state return exactly as many successful
results as there are devices, followed by one `found = false`, and the returned identifiers
are the device identifiers, none repeated and none omitted. -/
theorem search_enumerates_nonzero_families (devs : List Rom) (one_wire : one_wire_t SimBus)
    (new_addr : Rom) (hnd : devs.Nodup) (hvd : ∀ d ∈ devs, ValidRom d)
    (hfam : ∀ d ∈ devs, d 0 ≠ 0) (hsim : OnSim one_wire devs) :
    EnumeratesExactly devs one_wire new_addr := by
  by_cases hne : devs = []
  · subst hne
    exact ⟨[], one_wire_search_reset one_wire, new_addr, _, rfl, List.Perm.refl _,
      one_wire_search_no_presence _ _ rfl (sim_no_presence _ hsim), rfl⟩
  · obtain ⟨ids, ow, addr, hcalls, hperm, _, _, hflag⟩ :=
      enumeration_sim devs hne hnd hvd hfam (one_wire_search_reset one_wire) new_addr
        (onSim_search_reset devs _ hsim) validRom_zero rfl rfl
    exact ⟨ids, ow, addr, _, hcalls, hperm, one_wire_search_terminal ow addr hflag, rfl⟩

/-- Witness for claim C1 as amended: two devices with family codes `0x01` and `0x05`. -/
theorem search_enumerates_nonzero_families_witness :
    ([![1, 0, 0, 0, 0, 0, 0, 0], ![5, 0, 0, 0, 0, 0, 0, 0]] : List Rom).Nodup ∧
    EnumeratesExactly [![1, 0, 0, 0, 0, 0, 0, 0], ![5, 0, 0, 0, 0, 0, 0, 0]]
      (sim_one_wire [![1, 0, 0, 0, 0, 0, 0, 0], ![5, 0, 0, 0, 0, 0, 0, 0]]) (fun _ => 0) :=
  ⟨by decide,
   search_enumerates_nonzero_families _ _ _ (by decide) (by unfold ValidRom; decide)
     (by decide) (onSim_sim_one_wire _)⟩

set_option maxRecDepth 1000000 in
/-- Counterexample to claim C1 as stated: with a single attached device whose family code is
zero, the calls from the cleared search state do not return one successful result. -/
theorem search_misses_zero_family_device :
    ¬ EnumeratesExactly [![0, 0, 0, 0, 0, 0, 0, 1]] (sim_one_wire [![0, 0, 0, 0, 0, 0, 0, 1]])
        (fun _ => 0) := by
  rintro ⟨ids, ow, addr, r, h1, -, -, -⟩
  have hc : (search_calls 1 (one_wire_search_reset (sim_one_wire [![0, 0, 0, 0, 0, 0, 0, 1]]))
      (fun _ => 0)).map (fun t => t.1.map Prod.fst) = some [false] := by decide
  simp only [List.length_singleton] at h1
  rw [h1] at hc
  cases ids with
  | nil => simp at hc
  | cons a l => simp at hc

/-- Claim C3: for every non-empty set of devices with pairwise distinct identifiers whose
family code is non-zero, on the simulated wired-AND bus and from the cleared search state,
the first `N = |devices|` calls of `one_wire_search` each return `found = true`, the `N`
returned identifiers are the device identifiers each once, the `N`-th call leaves
`_last_device_flag = true`, and call `N + 1` returns `found = false` without any bus
operation. -/
theorem search_enumerates_in_exactly_n_calls (devs : List Rom) (one_wire : one_wire_t SimBus)
    (new_addr : Rom) (hne : devs ≠ []) (hnd : devs.Nodup) (hvd : ∀ d ∈ devs, ValidRom d)
    (hfam : ∀ d ∈ devs, d 0 ≠ 0) (hsim : OnSim one_wire devs) :
    ∃ (ids : List Rom) (ow : one_wire_t SimBus) (addr : Rom) (r : search_ret SimBus),
      search_calls devs.length (one_wire_search_reset one_wire) new_addr =
        some (ids.map (fun id => (true, id)), ow, addr) ∧
      ids.Perm devs ∧ ow._last_device_flag = true ∧
      one_wire_search ow addr = some r ∧ r.found = false ∧
      r.one_wire.trace = ow.trace ∧ r.one_wire.user_data = ow.user_data := by
  obtain ⟨ids, ow, addr, hcalls, hperm, _, _, hflag⟩ :=
    enumeration_sim devs hne hnd hvd hfam (one_wire_search_reset one_wire) new_addr
      (onSim_search_reset devs _ hsim) validRom_zero rfl rfl
  exact ⟨ids, ow, addr, _, hcalls, hperm, hflag, one_wire_search_terminal ow addr hflag,
    rfl, rfl, rfl⟩

set_option maxRecDepth 100000 in
/-- Witness for claim C3: three devices of families `0x28`, `0x28` and `0x10`. -/
theorem search_enumerates_in_exactly_n_calls_witness :
    ([![0x28, 0xff, 1, 2, 3, 4, 5, 0x80], ![0x28, 0xff, 1, 2, 3, 4, 5, 0],
       ![0x10, 7, 0, 0, 0, 0, 0, 9]] : List Rom).Nodup ∧
    ∃ (ids : List Rom) (ow : one_wire_t SimBus) (addr : Rom) (r : search_ret SimBus),
      search_calls 3 (one_wire_search_reset (sim_one_wire
          [![0x28, 0xff, 1, 2, 3, 4, 5, 0x80], ![0x28, 0xff, 1, 2, 3, 4, 5, 0],
            ![0x10, 7, 0, 0, 0, 0, 0, 9]])) (fun _ => 0) =
        some (ids.map (fun id => (true, id)), ow, addr) ∧
      ids.Perm [![0x28, 0xff, 1, 2, 3, 4, 5, 0x80], ![0x28, 0xff, 1, 2, 3, 4, 5, 0],
          ![0x10, 7, 0, 0, 0, 0, 0, 9]] ∧
      ow._last_device_flag = true ∧
      one_wire_search ow addr = some r ∧ r.found = false ∧
      r.one_wire.trace = ow.trace ∧ r.one_wire.user_data = ow.user_data :=
  ⟨by decide,
   search_enumerates_in_exactly_n_calls
     [![0x28, 0xff, 1, 2, 3, 4, 5, 0x80], ![0x28, 0xff, 1, 2, 3, 4, 5, 0],
       ![0x10, 7, 0, 0, 0, 0, 0, 9]] _ _ (by decide) (by decide)
     (by unfold ValidRom; decide) (by decide) (onSim_sim_one_wire _)⟩

/-- Claim C4: for every set of devices on the simulated wired-AND bus, the identifiers
returned by the successful `one_wire_search` calls made from the cleared search state up to
the first `found = false` are in strictly ascending order of `idValue`, the 64-bit number
whose most significant bit is bit position 1 and whose least significant bit is bit
position 64.  The bound `n` on the number of calls is arbitrary, and the devices need not
even be distinct. -/
theorem search_results_strictly_ascending (devs : List Rom) (one_wire : one_wire_t SimBus)
    (new_addr : Rom) (n : Nat) (hvd : ∀ d ∈ devs, ValidRom d) (hsim : OnSim one_wire devs) :
    ∃ ids, search_until_false n (one_wire_search_reset one_wire) new_addr = some ids ∧
      ids.Pairwise (fun a b => idValue a < idValue b) := by
  cases n with
  | zero => exact ⟨[], rfl, List.Pairwise.nil⟩
  | succ n =>
    by_cases hne : devs = []
    · subst hne
      refine ⟨[], ?_, List.Pairwise.nil⟩
      simp [search_until_false,
        one_wire_search_no_presence (one_wire_search_reset one_wire) new_addr rfl
          (sim_no_presence _ hsim)]
    · obtain ⟨r, x, hcall, hxd, _, hfound, hnot⟩ :=
        enum_first devs (one_wire_search_reset one_wire) new_addr hvd hne
          (onSim_search_reset devs _ hsim) validRom_zero rfl rfl
      by_cases h0 : x 0 = 0
      · refine ⟨[], ?_, List.Pairwise.nil⟩
        simp [search_until_false, hcall, hnot h0]
      · obtain ⟨hf1, hf2, hst2⟩ := hfound h0
        obtain ⟨l, hl, hpw, hgt⟩ := until_from devs hvd n r.one_wire x r.new_addr hst2
        refine ⟨x :: l, ?_, List.pairwise_cons.mpr ⟨hgt, hpw⟩⟩
        rw [hf2] at hl
        simp [search_until_false, hcall, hf1, hl, hf2]

set_option maxRecDepth 100000 in
/-- Witness for claim C4: three devices, at most five calls. -/
theorem search_results_strictly_ascending_witness :
    (∀ d ∈ ([![0x28, 0xff, 1, 2, 3, 4, 5, 0x80], ![0x28, 0xff, 1, 2, 3, 4, 5, 0],
       ![0x10, 7, 0, 0, 0, 0, 0, 9]] : List Rom), ValidRom d) ∧
    ∃ ids, search_until_false 5 (one_wire_search_reset (sim_one_wire
          [![0x28, 0xff, 1, 2, 3, 4, 5, 0x80], ![0x28, 0xff, 1, 2, 3, 4, 5, 0],
            ![0x10, 7, 0, 0, 0, 0, 0, 9]])) (fun _ => 0) = some ids ∧
      ids.Pairwise (fun a b => idValue a < idValue b) :=
  ⟨by unfold ValidRom; decide,
   search_results_strictly_ascending
     [![0x28, 0xff, 1, 2, 3, 4, 5, 0x80], ![0x28, 0xff, 1, 2, 3, 4, 5, 0],
       ![0x10, 7, 0, 0, 0, 0, 0, 9]] _ _ 5 (by unfold ValidRom; decide) (onSim_sim_one_wire _)⟩

/-- Claim C5, as amended: once `_last_device_flag` is true, the next `one_wire_search` call
returns `found = false` and performs no bus operation, whatever the bus; it leaves the
caller's buffer alone and clears the search state as `one_wire_search_reset` does, so the
call after it starts a new enumeration. -/
theorem search_when_exhausted_returns_false_once {β : Type} (one_wire : one_wire_t β)
    (new_addr : Rom) (hflag : one_wire._last_device_flag = true) :
    ∃ r, one_wire_search one_wire new_addr = some r ∧ r.found = false ∧
      r.one_wire.trace = one_wire.trace ∧ r.one_wire.user_data = one_wire.user_data ∧
      r.new_addr = new_addr ∧ r.one_wire = one_wire_search_reset one_wire :=
  ⟨_, one_wire_search_terminal one_wire new_addr hflag, rfl, rfl, rfl, rfl, rfl⟩

/-- Witness for claim C5 as amended: a driver on the simulated bus with one device attached
and `_last_device_flag` set. -/
theorem search_when_exhausted_returns_false_once_witness :
    ({ sim_one_wire [![1, 0, 0, 0, 0, 0, 0, 0]] with _last_device_flag := true } :
      one_wire_t SimBus)._last_device_flag = true ∧
    ∃ r, one_wire_search
        { sim_one_wire [![1, 0, 0, 0, 0, 0, 0, 0]] with _last_device_flag := true }
        (fun _ => 7) = some r ∧ r.found = false ∧
      r.one_wire.trace = [] ∧
      r.one_wire.user_data = (sim_one_wire [![1, 0, 0, 0, 0, 0, 0, 0]]).user_data ∧
      r.new_addr = (fun _ => 7) ∧
      r.one_wire = one_wire_search_reset
        { sim_one_wire [![1, 0, 0, 0, 0, 0, 0, 0]] with _last_device_flag := true } :=
  ⟨rfl, search_when_exhausted_returns_false_once _ _ rfl⟩

set_option maxRecDepth 1000000 in
/-- Counterexample to claim C5 as stated: with one device attached, the first call finds it
and sets `_last_device_flag`, the next call returns `false`, and the call after that one,
made without any reset or target call in between, returns `found = true` again. -/
theorem search_restarts_after_exhaustion :
    (search_calls 1 (sim_one_wire [![1, 0, 0, 0, 0, 0, 0, 0]]) (fun _ => 0)).map
        (fun t => t.2.1._last_device_flag) = some true ∧
    (search_calls 3 (sim_one_wire [![1, 0, 0, 0, 0, 0, 0, 0]]) (fun _ => 0)).map
        (fun t => t.1.map Prod.fst) = some [true, false, true] := by
  constructor <;> decide

/-- Claim C6, as amended: for every non-zero family code and every simulated wired-AND bus
containing exactly one device `x` whose identifier's first byte equals that family code
(alongside any devices of other families), `one_wire_search_target(fc)` followed by
`one_wire_search` returns `found = true` with the identifier of `x`. -/
theorem target_then_search_finds_the_family_device (devs : List Rom) (fc : Nat) (x : Rom)
    (one_wire : one_wire_t SimBus) (new_addr : Rom) (hfc : fc ≠ 0)
    (hvd : ∀ d ∈ devs, ValidRom d) (hsim : OnSim one_wire devs) (hxd : x ∈ devs)
    (hx : x 0 = fc) (honly : ∀ z ∈ devs, z 0 = fc → z = x) :
    TargetFinds fc x one_wire new_addr := by
  obtain ⟨r, y, hcall, hyd, hy0, hf, ha⟩ :=
    target_search_sim devs fc one_wire new_addr hvd hsim x hxd hx hfc
  exact ⟨r, hcall, hf, by rw [ha]; exact honly y hyd hy0⟩

set_option maxRecDepth 100000 in
/-- Witness for claim C6 as amended: family `0x10` on a bus that also holds two devices of
family `0x28`. -/
theorem target_then_search_finds_the_family_device_witness :
    (∀ z ∈ ([![0x28, 0xff, 1, 2, 3, 4, 5, 0x80], ![0x28, 0xff, 1, 2, 3, 4, 5, 0],
        ![0x10, 7, 0, 0, 0, 0, 0, 9]] : List Rom),
      z 0 = 0x10 → z = ![0x10, 7, 0, 0, 0, 0, 0, 9]) ∧
    TargetFinds 0x10 ![0x10, 7, 0, 0, 0, 0, 0, 9]
      (sim_one_wire [![0x28, 0xff, 1, 2, 3, 4, 5, 0x80], ![0x28, 0xff, 1, 2, 3, 4, 5, 0],
        ![0x10, 7, 0, 0, 0, 0, 0, 9]]) (fun _ => 0) :=
  ⟨by decide,
   target_then_search_finds_the_family_device
     [![0x28, 0xff, 1, 2, 3, 4, 5, 0x80], ![0x28, 0xff, 1, 2, 3, 4, 5, 0],
       ![0x10, 7, 0, 0, 0, 0, 0, 9]] 0x10 _ _ _ (by decide) (by unfold ValidRom; decide)
     (onSim_sim_one_wire _) (by decide) (by decide) (by decide)⟩

set_option maxRecDepth 1000000 in
/-- Counterexample to claim C6 as stated: the bus holds exactly one device, its first byte
is the family code `0`, and the search after `one_wire_search_target(0)` does not return it. -/
theorem target_zero_family_not_found :
    ¬ TargetFinds 0 ![0, 0, 0, 0, 0, 0, 0, 1] (sim_one_wire [![0, 0, 0, 0, 0, 0, 0, 1]])
        (fun _ => 0) := by
  rintro ⟨r, h1, hf, -⟩
  have hc : (one_wire_search (one_wire_search_target (sim_one_wire [![0, 0, 0, 0, 0, 0, 0, 1]]) 0)
      (fun _ => 0)).map (fun r => r.found) = some false := by decide
  rw [h1] at hc
  simp [hf] at hc

/-- Claim C7: for every non-zero family code `fc` and every simulated wired-AND bus that
holds at least one device whose first byte is `fc`, alongside any number of other devices,
the first `one_wire_search` after `one_wire_search_target(fc)` returns `found = true` with
the identifier of an attached device whose first byte equals `fc`. -/
theorem target_then_search_returns_family_member (devs : List Rom) (fc : Nat)
    (one_wire : one_wire_t SimBus) (new_addr : Rom) (hfc : fc ≠ 0)
    (hvd : ∀ d ∈ devs, ValidRom d) (hsim : OnSim one_wire devs)
    (hex : ∃ x ∈ devs, x 0 = fc) :
    ∃ r, one_wire_search (one_wire_search_target one_wire fc) new_addr = some r ∧
      r.found = true ∧ r.new_addr ∈ devs ∧ r.new_addr 0 = fc := by
  obtain ⟨x, hxd, hx⟩ := hex
  obtain ⟨r, y, hcall, hyd, hy0, hf, ha⟩ :=
    target_search_sim devs fc one_wire new_addr hvd hsim x hxd hx hfc
  exact ⟨r, hcall, hf, by rw [ha]; exact hyd, by rw [ha]; exact hy0⟩

set_option maxRecDepth 100000 in
/-- Witness for claim C7: family `0x28`, of which the bus holds two devices. -/
theorem target_then_search_returns_family_member_witness :
    (∃ x ∈ ([![0x28, 0xff, 1, 2, 3, 4, 5, 0x80], ![0x28, 0xff, 1, 2, 3, 4, 5, 0],
        ![0x10, 7, 0, 0, 0, 0, 0, 9]] : List Rom), x 0 = 0x28) ∧
    ∃ r, one_wire_search (one_wire_search_target
        (sim_one_wire [![0x28, 0xff, 1, 2, 3, 4, 5, 0x80], ![0x28, 0xff, 1, 2, 3, 4, 5, 0],
          ![0x10, 7, 0, 0, 0, 0, 0, 9]]) 0x28) (fun _ => 0) = some r ∧
      r.found = true ∧
      r.new_addr ∈ ([![0x28, 0xff, 1, 2, 3, 4, 5, 0x80], ![0x28, 0xff, 1, 2, 3, 4, 5, 0],
        ![0x10, 7, 0, 0, 0, 0, 0, 9]] : List Rom) ∧
      r.new_addr 0 = 0x28 :=
  ⟨by decide,
   target_then_search_returns_family_member
     [![0x28, 0xff, 1, 2, 3, 4, 5, 0x80], ![0x28, 0xff, 1, 2, 3, 4, 5, 0],
       ![0x10, 7, 0, 0, 0, 0, 0, 9]] 0x28 _ _ (by decide) (by unfold ValidRom; decide)
     (onSim_sim_one_wire _) (by decide)⟩

/-- Claim C2, as amended: two devices `a` and `b` on the simulated wired-AND bus whose
identifiers are identical except at bit position 3, where `a` has `0` and `b` has `1`, and
whose first byte is not zero (for example `01 00 00 00 00 00 00 00` and
`05 00 00 00 00 00 00 00`).  From the cleared search state the first `one_wire_search`
returns `a` and leaves `_last_discrepancy = 3`, the second returns `b` and leaves
`_last_device_flag = true`, and the third returns `found = false`. -/
theorem two_devices_differing_at_bit_three (devs : List Rom) (a b : Rom)
    (one_wire : one_wire_t SimBus) (new_addr : Rom)
    (hdevs : ∀ z, z ∈ devs ↔ z = a ∨ z = b) (hva : ValidRom a) (hvb : ValidRom b)
    (ha0 : a 0 ≠ 0) (ha : idBit a 2 = false) (hb : idBit b 2 = true)
    (hsame : ∀ j, j < 64 → j ≠ 2 → idBit a j = idBit b j) (hsim : OnSim one_wire devs) :
    TwoDeviceScenario a b one_wire new_addr := by
  have had : a ∈ devs := (hdevs a).mpr (Or.inl rfl)
  have hbd : b ∈ devs := (hdevs b).mpr (Or.inr rfl)
  have hvd : ∀ d ∈ devs, ValidRom d := by
    intro d hd
    rcases (hdevs d).mp hd with h | h <;> rw [h] <;> assumption
  have hab : idValue a < idValue b :=
    idValue_lt_of_first_diff a b 2 (by norm_num)
      (fun j hj => hsame j (by omega) (by omega)) ha hb
  have hb0 : b 0 ≠ 0 := by
    intro h0
    rw [idBit_first_byte b 2 (by norm_num), h0] at hb
    simp at hb
  -- first call
  obtain ⟨r1, x, hcall1, hxd, hmin, hfound1, _⟩ :=
    enum_first devs (one_wire_search_reset one_wire) new_addr hvd (List.ne_nil_of_mem had)
      (onSim_search_reset devs _ hsim) validRom_zero rfl rfl
  have hxa : x = a := by
    rcases (hdevs x).mp hxd with h | h
    · exact h
    · rcases hmin a had with h2 | h2
      · exact h2.symm
      · rw [h] at h2; omega
  subst hxa
  obtain ⟨hf1, hn1, hst1⟩ := hfound1 ha0
  have hfork : ∀ j, j < 64 → Fork devs x j → j = 2 := by
    rintro j hj ⟨z, hz, _, hzd⟩
    by_contra hj2
    rcases (hdevs z).mp hz with h | h
    · rw [h] at hzd; exact hzd rfl
    · rw [h] at hzd; exact hzd (hsame j hj hj2).symm
  have hfork2 : Fork devs x 2 :=
    ⟨b, hbd, fun j hj => (hsame j (by omega) (by omega)).symm, by rw [ha, hb]; simp⟩
  have hld : r1.one_wire._last_discrepancy = 3 := by
    obtain ⟨hz1, hz2⟩ := hst1.2.2.2.1
    have h3 : 3 ≤ r1.one_wire._last_discrepancy := by
      by_contra hcon
      exact hz2 2 (by omega) (by norm_num) ⟨hfork2, ha⟩
    rcases hz1 with h0 | ⟨_, h64, hf, _⟩
    · omega
    · have := hfork _ (by omega) hf
      omega
  -- second call
  obtain ⟨r2, y, hcall2, hyd, hlt, _, hfound2, _⟩ :=
    enum_step devs r1.one_wire x r1.new_addr hvd hst1 (by rw [hld]; norm_num)
  have hyb : y = b := by
    rcases (hdevs y).mp hyd with h | h
    · rw [h] at hlt; exact absurd hlt (lt_irrefl _)
    · exact h
  subst hyb
  obtain ⟨hf2, hn2, hst2⟩ := hfound2 hb0
  have hflag : r2.one_wire._last_device_flag = true := by
    rw [hst2.2.2.2.2]
    simp only [decide_eq_true_eq]
    rw [lastFork_zero_iff devs y _ hvd hbd hst2.2.2.2.1]
    intro z hz
    rcases (hdevs z).mp hz with h | h
    · rw [h]; exact le_of_lt hab
    · rw [h]
  exact ⟨r1, r2, _, hcall1, hf1, hn1, hld, hcall2, hf2, hn2, hflag,
    one_wire_search_terminal _ _ hflag, rfl⟩

set_option maxRecDepth 100000 in
/-- Witness for claim C2 as amended: the identifiers `01 00 00 00 00 00 00 00` and
`05 00 00 00 00 00 00 00`. -/
theorem two_devices_differing_at_bit_three_witness :
    (idBit ![1, 0, 0, 0, 0, 0, 0, 0] 2 = false ∧ idBit ![5, 0, 0, 0, 0, 0, 0, 0] 2 = true) ∧
    TwoDeviceScenario ![1, 0, 0, 0, 0, 0, 0, 0] ![5, 0, 0, 0, 0, 0, 0, 0]
      (sim_one_wire [![1, 0, 0, 0, 0, 0, 0, 0], ![5, 0, 0, 0, 0, 0, 0, 0]]) (fun _ => 0) :=
  ⟨by decide,
   two_devices_differing_at_bit_three
     [![1, 0, 0, 0, 0, 0, 0, 0], ![5, 0, 0, 0, 0, 0, 0, 0]] _ _ _ _
     (by intro z; simp) (by unfold ValidRom; decide) (by unfold ValidRom; decide)
     (by decide) (by decide) (by decide) (by decide) (onSim_sim_one_wire _)⟩

set_option maxRecDepth 1000000 in
/-- Counterexample to claim C2 as stated: with the identifiers `00 00 00 00 00 00 00 00` and
`04 00 00 00 00 00 00 00` the first `one_wire_search` already returns `found = false`. -/
theorem two_devices_zero_family_scenario_fails :
    ¬ TwoDeviceScenario ![0, 0, 0, 0, 0, 0, 0, 0] ![4, 0, 0, 0, 0, 0, 0, 0]
        (sim_one_wire [![0, 0, 0, 0, 0, 0, 0, 0], ![4, 0, 0, 0, 0, 0, 0, 0]]) (fun _ => 0) := by
  rintro ⟨r1, r2, r3, h1, hf, -⟩
  have hc : (one_wire_search (one_wire_search_reset
      (sim_one_wire [![0, 0, 0, 0, 0, 0, 0, 0], ![4, 0, 0, 0, 0, 0, 0, 0]]))
      (fun _ => 0)).map (fun r => r.found) = some false := by decide
  rw [h1] at hc
  simp [hf] at hc

/-- Claim C8: for every search state and every bus behaviour, `one_wire_search` returns a
result, and it returns `found = true` if and only if `_last_device_flag` was false on
entry, the reset callback reported presence, at none of the 64 bit positions both the bit
and its complement read `1`, and the first byte of `_rom_no` after the walk is non-zero;
whenever it returns `true`, the bytes written to `new_addr` equal `_rom_no`.  Here `ow` is
the driver structure after the reset and the search command. -/
theorem search_found_iff {β : Type} (one_wire : one_wire_t β) (new_addr : Rom) :
    ∃ r ow, one_wire_search one_wire new_addr = some r ∧
      one_wire_write (one_wire_reset one_wire).2 0xF0 = some ow ∧
      (r.found = true ↔
        one_wire._last_device_flag = false ∧ (one_wire.reset one_wire.user_data).1 ≠ 0 ∧
        (∀ k < 64, pass_reads (search_passes k (search_start ow)) ≠ (1, 1)) ∧
        (search_passes 64 (search_start ow)).one_wire._rom_no 0 ≠ 0) ∧
      (r.found = true → r.new_addr = r.one_wire._rom_no) := by
  obtain ⟨r, ow, h1, h2, _, h4, h5, _⟩ := one_wire_search_spec one_wire new_addr
  exact ⟨r, ow, h1, h2, h4, h5⟩

/-- Claim C9: for every search state and every bus behaviour, `one_wire_search` returns a
result, and whenever it returns `found = false` the search state afterwards is the cleared
form produced by `one_wire_search_reset` and the caller's buffer is unmodified; the call
returns `found = false` on a bus whose reset reports no presence, on a shorted bus on which
every read returns `1`, and on the simulated bus with no device attached. -/
theorem search_failure_clears_state {β : Type} (one_wire : one_wire_t β) (new_addr : Rom) :
    (∃ r, one_wire_search one_wire new_addr = some r ∧
      (r.found = false →
        r.one_wire._last_discrepancy = 0 ∧ r.one_wire._last_family_discrepancy = 0 ∧
        r.one_wire._last_device_flag = false ∧ r.one_wire._rom_no = (fun _ => 0) ∧
        r.new_addr = new_addr) ∧
      ((one_wire.reset one_wire.user_data).1 = 0 → r.found = false) ∧
      ((∀ b, (one_wire.read_bit b).1 = 1) → r.found = false)) ∧
    (∀ (ow : one_wire_t SimBus) (addr : Rom), OnSim ow [] →
      ∃ r, one_wire_search ow addr = some r ∧ r.found = false) := by
  have key : ∀ {γ : Type} (ow : one_wire_t γ) (addr : Rom),
      ∃ r, one_wire_search ow addr = some r ∧
        (r.found = false →
          r.one_wire._last_discrepancy = 0 ∧ r.one_wire._last_family_discrepancy = 0 ∧
          r.one_wire._last_device_flag = false ∧ r.one_wire._rom_no = (fun _ => 0) ∧
          r.new_addr = addr) ∧
        ((ow.reset ow.user_data).1 = 0 → r.found = false) ∧
        ((∀ b, (ow.read_bit b).1 = 1) → r.found = false) := by
    intro γ ow addr
    obtain ⟨r, ow2, h1, _, hrb, hiff, _, hclear⟩ := one_wire_search_spec ow addr
    refine ⟨r, h1, hclear, ?_, ?_⟩
    · intro hp
      cases hf : r.found
      · rfl
      · exact absurd hp (hiff.mp hf).2.1
    · intro hshort
      cases hf : r.found
      · rfl
      · exfalso
        apply (hiff.mp hf).2.2.1 0 (by norm_num)
        simp [search_passes, pass_reads, one_wire_read_bit, search_start, hrb, hshort]
  refine ⟨key one_wire new_addr, ?_⟩
  intro ow addr hsim
  obtain ⟨r, h1, _, hnp, _⟩ := key ow addr
  exact ⟨r, h1, hnp (sim_no_presence ow hsim)⟩

/-- Witness for claim C9: the shorted bus. -/
theorem search_failure_clears_state_witness :
    (∀ b, (shorted_one_wire.read_bit b).1 = 1) ∧
    ∃ r, one_wire_search shorted_one_wire (fun _ => 7) = some r ∧ r.found = false ∧
      r.one_wire._last_discrepancy = 0 ∧ r.one_wire._last_family_discrepancy = 0 ∧
      r.one_wire._last_device_flag = false ∧ r.one_wire._rom_no = (fun _ => 0) ∧
      r.new_addr = (fun _ => 7) := by
  have hshort : ∀ b, (shorted_one_wire.read_bit b).1 = 1 := fun _ => rfl
  obtain ⟨r, h1, hclear, _, hs⟩ := (search_failure_clears_state shorted_one_wire (fun _ => 7)).1
  exact ⟨hshort, r, h1, hs hshort, hclear (hs hshort)⟩

/-- Claim C10: for every search state with `_last_device_flag = false`, whatever `_rom_no`
and `_last_discrepancy` it holds, and every non-empty set of devices with pairwise distinct
identifiers on the simulated wired-AND bus, the walk of `one_wire_search` consumes all 64 bit
positions without reading `1` for both a bit and its complement, exactly one device is
still participating at the end, and `_rom_no` equals that device's identifier; hence every
identifier returned with `found = true` is the identifier of an attached device.  Here `ow`
is the driver structure after the reset and the search command, and `w` holds the loop
variables after the loop. -/
theorem walk_isolates_one_device (devs : List Rom) (one_wire : one_wire_t SimBus)
    (hne : devs ≠ []) (hnd : devs.Nodup) (hvd : ∀ d ∈ devs, ValidRom d)
    (hsim : OnSim one_wire devs) (hvalid : ValidRom one_wire._rom_no)
    (hflag : one_wire._last_device_flag = false) :
    ∃ ow w x, one_wire_write (one_wire_reset one_wire).2 0xF0 = some ow ∧
      search_walk one_wire = some (some w) ∧
      (∀ k < 64, pass_reads (search_passes k (search_start ow)) ≠ (1, 1)) ∧
      w.id_bit_number = 65 ∧ w.one_wire.user_data.pos = 64 ∧
      x ∈ devs ∧ w.one_wire.user_data.active = [x] ∧ w.one_wire._rom_no = x ∧
      ∀ new_addr, ∃ r, one_wire_search one_wire new_addr = some r ∧
        (r.found = true → r.new_addr ∈ devs) := by
  obtain ⟨w, hw, inv⟩ := search_walk_sim devs one_wire hsim hne hvalid hflag
  obtain ⟨hres, _⟩ := walkInv_final devs _ _ w hvd inv
  obtain ⟨ud, tr, hwr⟩ := one_wire_write_total (one_wire_reset one_wire).2 0xF0
  have hpres : (one_wire_reset one_wire).1 ≠ 0 := by
    intro h0
    have : search_walk one_wire = some none := by simp [search_walk, h0]
    rw [this] at hw
    cases hw
  obtain ⟨w2, hloop, _, hB⟩ := search_loop_generic 64 0
    (search_start { (one_wire_reset one_wire).2 with user_data := ud, trace := tr }) rfl
    (by norm_num) ⟨rfl, rfl, rfl⟩
  have hw2 : w2 = w := by
    have := search_walk_eq one_wire _ w2 hpres hwr hloop
    rw [hw] at this
    injection this with this
    injection this with this
    exact this.symm
  subst hw2
  refine ⟨_, w2, w2.one_wire._rom_no, hwr, hw, ?_, inv.hid, inv.hpos, hres.1, ?_, rfl, ?_⟩
  · intro k hk hcon
    have := hB ⟨k, hk, hcon⟩
    rw [inv.hid] at this
    omega
  · rw [inv.hact]
    apply filter_eq_singleton devs _ _ hnd hres.1
    intro z hz
    simp only [decide_eq_true_eq]
    constructor
    · intro h; exact rom_ext z _ (hvd z hz) inv.hvalid h
    · intro h; rw [h]; intro j _; rfl
  · intro addr
    obtain ⟨r, x, L, hcall, hres2, _, _, hfound, hnot⟩ :=
      one_wire_search_sim devs one_wire addr hsim hne hvd hvalid hflag
    refine ⟨r, hcall, ?_⟩
    intro hf
    by_cases h0 : x 0 = 0
    · rw [(hnot h0).1] at hf; cases hf
    · rw [(hfound h0).2.1]; exact hres2.1

set_option maxRecDepth 100000 in
/-- Witness for claim C10: three devices and the search state left by
`one_wire_search_target(0x28)`. -/
theorem walk_isolates_one_device_witness :
    ([![0x28, 0xff, 1, 2, 3, 4, 5, 0x80], ![0x28, 0xff, 1, 2, 3, 4, 5, 0],
       ![0x10, 7, 0, 0, 0, 0, 0, 9]] : List Rom).Nodup ∧
    ∃ ow w x, one_wire_write (one_wire_reset (one_wire_search_target (sim_one_wire
          [![0x28, 0xff, 1, 2, 3, 4, 5, 0x80], ![0x28, 0xff, 1, 2, 3, 4, 5, 0],
            ![0x10, 7, 0, 0, 0, 0, 0, 9]]) 0x28)).2 0xF0 = some ow ∧
      search_walk (one_wire_search_target (sim_one_wire
          [![0x28, 0xff, 1, 2, 3, 4, 5, 0x80], ![0x28, 0xff, 1, 2, 3, 4, 5, 0],
            ![0x10, 7, 0, 0, 0, 0, 0, 9]]) 0x28) = some (some w) ∧
      (∀ k < 64, pass_reads (search_passes k (search_start ow)) ≠ (1, 1)) ∧
      w.id_bit_number = 65 ∧ w.one_wire.user_data.pos = 64 ∧
      x ∈ ([![0x28, 0xff, 1, 2, 3, 4, 5, 0x80], ![0x28, 0xff, 1, 2, 3, 4, 5, 0],
        ![0x10, 7, 0, 0, 0, 0, 0, 9]] : List Rom) ∧
      w.one_wire.user_data.active = [x] ∧ w.one_wire._rom_no = x ∧
      ∀ new_addr, ∃ r, one_wire_search (one_wire_search_target (sim_one_wire
          [![0x28, 0xff, 1, 2, 3, 4, 5, 0x80], ![0x28, 0xff, 1, 2, 3, 4, 5, 0],
            ![0x10, 7, 0, 0, 0, 0, 0, 9]]) 0x28) new_addr = some r ∧
        (r.found = true → r.new_addr ∈
          ([![0x28, 0xff, 1, 2, 3, 4, 5, 0x80], ![0x28, 0xff, 1, 2, 3, 4, 5, 0],
            ![0x10, 7, 0, 0, 0, 0, 0, 9]] : List Rom)) :=
  ⟨by decide,
   walk_isolates_one_device
     [![0x28, 0xff, 1, 2, 3, 4, 5, 0x80], ![0x28, 0xff, 1, 2, 3, 4, 5, 0],
       ![0x10, 7, 0, 0, 0, 0, 0, 9]] _ (by decide) (by decide)
     (by unfold ValidRom; decide) (onSim_sim_one_wire _) (by unfold ValidRom; decide) rfl⟩

/-- Claim C13: `one_wire_select(rom)` performs exactly 72 `write_bit` calls and no reset or
read, namely the bits of `0x55` least significant first (1,0,1,0,1,0,1,0) followed by the
bits of `rom[0]`, ..., `rom[7]`, each byte least significant bit first; `one_wire_skip`
performs exactly the 8 `write_bit` calls spelling `0xCC` least significant first
(0,0,1,1,0,0,1,1); neither changes the search state. -/
theorem select_and_skip_framing {β : Type} (one_wire : one_wire_t β) (rom : Rom) :
    (∃ ow, one_wire_select one_wire rom = some ow ∧
      ow.trace = one_wire.trace ++
        ([1, 0, 1, 0, 1, 0, 1, 0] ++ (List.ofFn rom).flatMap byte_bits).map BusOp.write_bit ∧
      ([1, 0, 1, 0, 1, 0, 1, 0] ++ (List.ofFn rom).flatMap byte_bits).length = 72 ∧
      ow._rom_no = one_wire._rom_no ∧ ow._last_discrepancy = one_wire._last_discrepancy ∧
      ow._last_family_discrepancy = one_wire._last_family_discrepancy ∧
      ow._last_device_flag = one_wire._last_device_flag) ∧
    (∃ ow, one_wire_skip one_wire = some ow ∧
      ow.trace = one_wire.trace ++ [0, 0, 1, 1, 0, 0, 1, 1].map BusOp.write_bit ∧
      ow._rom_no = one_wire._rom_no ∧ ow._last_discrepancy = one_wire._last_discrepancy ∧
      ow._last_family_discrepancy = one_wire._last_family_discrepancy ∧
      ow._last_device_flag = one_wire._last_device_flag) := by
  have h55 : byte_bits 0x55 = [1, 0, 1, 0, 1, 0, 1, 0] := by decide
  have hCC : byte_bits 0xCC = [0, 0, 1, 1, 0, 0, 1, 1] := by decide
  constructor
  · have hf := write_bits_fields (byte_bits 0x55 ++ (List.ofFn rom).flatMap byte_bits) one_wire
    rw [h55] at hf
    refine ⟨_, one_wire_select_eq one_wire rom, ?_, ?_, ?_⟩
    · rw [h55]; exact hf.1
    · simp [List.length_flatMap, Function.comp_def, byte_bits_length]
    · rw [h55]; exact ⟨hf.2.2.2.2.2.1, hf.2.2.2.2.2.2.1, hf.2.2.2.2.2.2.2.1, hf.2.2.2.2.2.2.2.2⟩
  · have hf := write_bits_fields (byte_bits 0xCC) one_wire
    rw [hCC] at hf
    refine ⟨_, one_wire_write_eq one_wire 0xCC, ?_, ?_⟩
    · rw [hCC]; exact hf.1
    · rw [hCC]; exact ⟨hf.2.2.2.2.2.1, hf.2.2.2.2.2.2.1, hf.2.2.2.2.2.2.2.1, hf.2.2.2.2.2.2.2.2⟩

/-- Claim C18: for every byte value `b`, `one_wire_write(b)` calls `write_bit` exactly 8
times and the argument of the `i`-th call (`i = 0, ..., 7`) is `(b >> i) & 1`, each argument
being `0` or `1`; the loop variable `bit_mask` is non-zero before each of the eight passes
and overflows to `0` at the eighth shift, which ends the loop. -/
theorem write_emits_bits_lsb_first {β : Type} (one_wire : one_wire_t β) (b : Nat) :
    (∃ ow, one_wire_write one_wire b = some ow ∧
      ow.trace = one_wire.trace ++
        (List.range 8).map (fun i => BusOp.write_bit ((b >>> i) &&& 1))) ∧
    (∀ i, (b >>> i) &&& 1 = 0 ∨ (b >>> i) &&& 1 = 1) ∧
    (∀ n < 8, mask_after n ≠ 0) ∧ mask_after 8 = 0 := by
  refine ⟨⟨_, one_wire_write_eq one_wire b, ?_⟩, ?_, ?_, ?_⟩
  · rw [(write_bits_fields (byte_bits b) one_wire).1]
    simp [byte_bits]
  · intro i
    rw [Nat.and_one_is_mod]
    omega
  · intro n hn
    rw [mask_after_eq]
    simp only [hn, if_true]
    positivity
  · decide

/-- Claim C20: for every prior search state and every family code `fc`,
`one_wire_search_target(fc)` leaves exactly `_last_discrepancy = 64`,
`_last_family_discrepancy = 0`, `_last_device_flag = false`, `_rom_no[0] = fc` and
`_rom_no[1..7] = 0`, performs no bus operation and leaves the `user_data` and the three
callbacks unchanged; likewise `one_wire_search_reset` leaves the three cursors `0`/`false`
and all 8 bytes of `_rom_no` zero with the callbacks unchanged. -/
theorem target_and_reset_frame {β : Type} (one_wire : one_wire_t β) (fc : Nat) :
    ((one_wire_search_target one_wire fc)._last_discrepancy = 64 ∧
      (one_wire_search_target one_wire fc)._last_family_discrepancy = 0 ∧
      (one_wire_search_target one_wire fc)._last_device_flag = false ∧
      (one_wire_search_target one_wire fc)._rom_no 0 = fc ∧
      (∀ i : Fin 8, i ≠ 0 → (one_wire_search_target one_wire fc)._rom_no i = 0) ∧
      (one_wire_search_target one_wire fc).trace = one_wire.trace ∧
      (one_wire_search_target one_wire fc).user_data = one_wire.user_data ∧
      (one_wire_search_target one_wire fc).reset = one_wire.reset ∧
      (one_wire_search_target one_wire fc).read_bit = one_wire.read_bit ∧
      (one_wire_search_target one_wire fc).write_bit = one_wire.write_bit) ∧
    ((one_wire_search_reset one_wire)._last_discrepancy = 0 ∧
      (one_wire_search_reset one_wire)._last_family_discrepancy = 0 ∧
      (one_wire_search_reset one_wire)._last_device_flag = false ∧
      (∀ i : Fin 8, (one_wire_search_reset one_wire)._rom_no i = 0) ∧
      (one_wire_search_reset one_wire).trace = one_wire.trace ∧
      (one_wire_search_reset one_wire).user_data = one_wire.user_data ∧
      (one_wire_search_reset one_wire).reset = one_wire.reset ∧
      (one_wire_search_reset one_wire).read_bit = one_wire.read_bit ∧
      (one_wire_search_reset one_wire).write_bit = one_wire.write_bit) := by
  refine ⟨⟨rfl, rfl, rfl, rfl, ?_, rfl, rfl, rfl, rfl, rfl⟩,
    ⟨rfl, rfl, rfl, fun _ => rfl, rfl, rfl, rfl, rfl, rfl⟩⟩
  intro i hi
  have : i.val ≠ 0 := fun h => hi (Fin.ext h)
  simp [one_wire_search_target, this]

/-- Claim C19: `one_wire_read` consumes exactly 8 `read_bit` results and returns the byte
whose bit `i` is set exactly when the `i`-th result is non-zero; consequently, for every
buffer `buf` of `uint8_t` values and every `count` up to 65535, `one_wire_read_bytes` fed
the bit stream emitted by `one_wire_write_bytes(buf, count)` (followed by any further bits
`rest`) consumes exactly `8 * count` bits and fills its output buffer with the same `count`
bytes in the same order. -/
theorem read_bytes_inverts_write_bytes {β : Type} (writer : one_wire_t β)
    (buf out rest : List Nat) (count : Nat) (hc : count < 65536)
    (hbuf : count ≤ buf.length) (hout : count ≤ out.length) (hbytes : ∀ b ∈ buf, b < 256) :
    (∀ {γ : Type} (ow : one_wire_t γ), ∃ res ow2, one_wire_read ow = some (res, ow2) ∧
      ow2 = (read_bits 8 ow).2 ∧
      ow2.trace = ow.trace ++ (read_bits 8 ow).1.map BusOp.read_bit ∧
      (read_bits 8 ow).1.length = 8 ∧ res < 256 ∧
      ∀ i < 8, res.testBit i = decide ((read_bits 8 ow).1.getD i 0 ≠ 0)) ∧
    ∃ w2 out2 r2, one_wire_write_bytes writer buf count = some w2 ∧
      one_wire_read_bytes
        (stream_one_wire (written_bits (w2.trace.drop writer.trace.length) ++ rest))
        out count = some (out2, r2) ∧
      out2.take count = buf.take count ∧ out2.drop count = out.drop count ∧
      out2.length = out.length ∧
      r2.user_data = rest ∧ r2.trace.length = 8 * count ∧ read_count r2.trace = 8 * count := by
  constructor
  · intro γ ow
    have hf := read_bits_fields 8 ow
    refine ⟨_, _, one_wire_read_eq ow, rfl, hf.2.1, hf.1, ?_, ?_⟩
    · have := byte_of_bits_lt (read_bits 8 ow).1
      rw [hf.1] at this
      exact this
    · intro i hi
      exact byte_of_bits_testBit _ i (by rw [hf.1]; exact hi)
  · have hgetD : ∀ k, buf.getD k 0 < 256 := by
      intro k
      by_cases hk : k < buf.length
      · rw [List.getD_eq_getElem _ _ hk]
        exact hbytes _ (List.getElem_mem hk)
      · rw [List.getD_eq_default _ _ (by omega)]
        norm_num
    have hwr := one_wire_write_bytes_eq writer buf count hc
    have hwf := write_bits_fields
      (((List.range count).map (fun k => buf.getD k 0)).flatMap byte_bits) writer
    have hstream : written_bits ((write_bits writer
        (((List.range count).map (fun k => buf.getD k 0)).flatMap byte_bits)).trace.drop
          writer.trace.length) =
        ((List.range count).map (fun k => buf.getD k 0)).flatMap byte_bits := by
      rw [hwf.1, List.drop_left, written_bits_map]
    obtain ⟨out2, r2, hcall, hlen, hget, hrest, htr⟩ :=
      read_bytes_loop_stream buf count rest hc hgetD count 0
        (stream_one_wire (((List.range count).map (fun k => buf.getD k 0)).flatMap byte_bits
          ++ rest)) out (by omega) rfl (by rw [← List.range_eq_range']; rfl)
    refine ⟨_, out2, r2, hwr, ?_, ?_, ?_, hlen, hrest, ?_, ?_⟩
    · rw [hstream]; exact hcall
    · apply List.ext_getElem?
      intro k
      rw [List.getElem?_take, List.getElem?_take, hget k]
      by_cases hk : k < count
      · have h2 : 0 ≤ k ∧ k < count ∧ k < out.length := by omega
        have h3 : k < buf.length := by omega
        simp only [hk, if_true, h2, and_self]
        rw [List.getD_eq_getElem _ _ h3, List.getElem?_eq_getElem h3]
      · simp [hk]
    · apply List.ext_getElem?
      intro k
      rw [List.getElem?_drop, List.getElem?_drop, hget]
      have : ¬ (0 ≤ count + k ∧ count + k < count ∧ count + k < out.length) := by omega
      simp [this]
    · rw [htr, List.length_append, List.length_map, flatMap_byte_bits_length, List.length_map,
        List.length_range']
      simp [stream_one_wire]
    · have hnil : (stream_one_wire (((List.range count).map
          (fun k => buf.getD k 0)).flatMap byte_bits ++ rest)).trace = [] := rfl
      rw [htr, hnil, List.nil_append, read_count_map, flatMap_byte_bits_length, List.length_map,
        List.length_range']

set_option maxRecDepth 100000 in
/-- Witness for claim C19: three bytes written through the shorted bus driver and read
back into a buffer of four bytes, with two further bits in the stream. -/
theorem read_bytes_inverts_write_bytes_witness :
    (∀ b ∈ [0x55, 0xA7, 0x00], b < 256) ∧
    ∃ w2 out2 r2, one_wire_write_bytes shorted_one_wire [0x55, 0xA7, 0x00] 3 = some w2 ∧
      one_wire_read_bytes
        (stream_one_wire (written_bits (w2.trace.drop shorted_one_wire.trace.length) ++ [1, 0]))
        [9, 9, 9, 9] 3 = some (out2, r2) ∧
      out2.take 3 = [0x55, 0xA7, 0x00].take 3 ∧ out2.drop 3 = [9, 9, 9, 9].drop 3 ∧
      out2.length = [9, 9, 9, 9].length ∧
      r2.user_data = [1, 0] ∧ r2.trace.length = 8 * 3 ∧ read_count r2.trace = 8 * 3 :=
  ⟨by decide,
   (read_bytes_inverts_write_bytes shorted_one_wire [0x55, 0xA7, 0x00] [9, 9, 9, 9] [1, 0] 3
     (by norm_num) (by decide) (by decide) (by decide)).2⟩

/-- Claim C11: for every non-terminal search state and every set of devices on the
simulated wired-AND bus, when `one_wire_search` returns `found = true` it leaves
`_last_device_flag = true` if and only if the returned identifier is the greatest attached
identifier in the order that takes bit position 1 as most significant, and equivalently if
and only if the new `_last_discrepancy` is `0`; otherwise `_last_device_flag` stays
false. -/
theorem last_device_flag_iff_greatest (devs : List Rom) (one_wire : one_wire_t SimBus)
    (new_addr : Rom) (hvd : ∀ d ∈ devs, ValidRom d) (hsim : OnSim one_wire devs)
    (hvalid : ValidRom one_wire._rom_no) (hflag : one_wire._last_device_flag = false) :
    ∃ r, one_wire_search one_wire new_addr = some r ∧
      (r.found = true →
        r.new_addr ∈ devs ∧
        (r.one_wire._last_device_flag = true ↔ ∀ z ∈ devs, idValue z ≤ idValue r.new_addr) ∧
        (r.one_wire._last_device_flag = true ↔ r.one_wire._last_discrepancy = 0)) := by
  by_cases hne : devs = []
  · subst hne
    refine ⟨_, one_wire_search_no_presence one_wire new_addr hflag
      (sim_no_presence _ hsim), ?_⟩
    intro h; cases h
  · obtain ⟨r, x, L, hcall, hres, hzL, _, hfound, hnot⟩ :=
      one_wire_search_sim devs one_wire new_addr hsim hne hvd hvalid hflag
    refine ⟨r, hcall, ?_⟩
    intro hf
    by_cases h0 : x 0 = 0
    · rw [(hnot h0).1] at hf; cases hf
    · obtain ⟨_, h2, _, h4, h5⟩ := hfound h0
      rw [h2, h5, h4]
      refine ⟨hres.1, ?_, by simp⟩
      rw [← lastFork_zero_iff devs x L hvd hres.1 hzL]
      simp

set_option maxRecDepth 100000 in
/-- Witness for claim C11: three devices and the cleared search state. -/
theorem last_device_flag_iff_greatest_witness :
    (∀ d ∈ ([![0x28, 0xff, 1, 2, 3, 4, 5, 0x80], ![0x28, 0xff, 1, 2, 3, 4, 5, 0],
       ![0x10, 7, 0, 0, 0, 0, 0, 9]] : List Rom), ValidRom d) ∧
    ∃ r, one_wire_search (sim_one_wire [![0x28, 0xff, 1, 2, 3, 4, 5, 0x80],
        ![0x28, 0xff, 1, 2, 3, 4, 5, 0], ![0x10, 7, 0, 0, 0, 0, 0, 9]]) (fun _ => 0) = some r ∧
      (r.found = true →
        r.new_addr ∈ ([![0x28, 0xff, 1, 2, 3, 4, 5, 0x80], ![0x28, 0xff, 1, 2, 3, 4, 5, 0],
          ![0x10, 7, 0, 0, 0, 0, 0, 9]] : List Rom) ∧
        (r.one_wire._last_device_flag = true ↔
          ∀ z ∈ ([![0x28, 0xff, 1, 2, 3, 4, 5, 0x80], ![0x28, 0xff, 1, 2, 3, 4, 5, 0],
            ![0x10, 7, 0, 0, 0, 0, 0, 9]] : List Rom), idValue z ≤ idValue r.new_addr) ∧
        (r.one_wire._last_device_flag = true ↔ r.one_wire._last_discrepancy = 0)) :=
  ⟨by unfold ValidRom; decide,
   last_device_flag_iff_greatest
     [![0x28, 0xff, 1, 2, 3, 4, 5, 0x80], ![0x28, 0xff, 1, 2, 3, 4, 5, 0],
       ![0x10, 7, 0, 0, 0, 0, 0, 9]] (sim_one_wire _) (fun _ => 0)
     (by unfold ValidRom; decide) (onSim_sim_one_wire _) (by unfold ValidRom; decide) rfl⟩

/-- Claim C17: for every non-terminal search state and every non-empty set of devices on
the simulated wired-AND bus, the walk of `one_wire_search` completes, and the new
`_last_discrepancy` set after it equals the highest bit position `p` at which the
identifier found has bit `0` while some other attached device agrees with it on positions
`1, ..., p - 1` and has bit `1` at `p`, and equals `0` when no such position exists.  Here
`w` holds the loop variables after the walk and `search_success w` is the driver structure
handed to the final guard, which returns it unchanged when it reports `found = true`. -/
theorem last_discrepancy_is_highest_zero_fork (devs : List Rom) (one_wire : one_wire_t SimBus)
    (new_addr : Rom) (hne : devs ≠ []) (hvd : ∀ d ∈ devs, ValidRom d)
    (hsim : OnSim one_wire devs) (hvalid : ValidRom one_wire._rom_no)
    (hflag : one_wire._last_device_flag = false) :
    ∃ w x, search_walk one_wire = some (some w) ∧ w.id_bit_number = 65 ∧
      one_wire_search one_wire new_addr = some (search_finish (search_success w) true new_addr) ∧
      x ∈ devs ∧ (search_success w)._rom_no = x ∧
      HighestZeroFork devs x (search_success w)._last_discrepancy ∧
      ((search_finish (search_success w) true new_addr).found = true →
        (search_finish (search_success w) true new_addr).new_addr = x ∧
        HighestZeroFork devs x
          (search_finish (search_success w) true new_addr).one_wire._last_discrepancy) := by
  obtain ⟨w, hw, inv⟩ := search_walk_sim devs one_wire hsim hne hvalid hflag
  obtain ⟨hres, hz⟩ := walkInv_final devs _ _ w hvd inv
  have hid : w.id_bit_number = 65 := inv.hid
  have hf := search_success_fields w
  have hhz : HighestZeroFork devs w.one_wire._rom_no (search_success w)._last_discrepancy := by
    rw [hf.1]; exact highestZeroFork_of_zeroInv devs _ _ hz
  refine ⟨w, w.one_wire._rom_no, hw, hid,
    one_wire_search_success one_wire new_addr w hflag hw (by omega), hres.1, hf.2.1, hhz, ?_⟩
  rw [search_finish_true]
  split
  · intro h; cases h
  · intro _
    exact ⟨hf.2.1, hhz⟩

set_option maxRecDepth 100000 in
/-- Witness for claim C17: three devices and the cleared search state. -/
theorem last_discrepancy_is_highest_zero_fork_witness :
    (∀ d ∈ ([![0x28, 0xff, 1, 2, 3, 4, 5, 0x80], ![0x28, 0xff, 1, 2, 3, 4, 5, 0],
       ![0x10, 7, 0, 0, 0, 0, 0, 9]] : List Rom), ValidRom d) ∧
    ∃ w x, search_walk (sim_one_wire [![0x28, 0xff, 1, 2, 3, 4, 5, 0x80],
        ![0x28, 0xff, 1, 2, 3, 4, 5, 0], ![0x10, 7, 0, 0, 0, 0, 0, 9]]) = some (some w) ∧
      w.id_bit_number = 65 ∧
      one_wire_search (sim_one_wire [![0x28, 0xff, 1, 2, 3, 4, 5, 0x80],
        ![0x28, 0xff, 1, 2, 3, 4, 5, 0], ![0x10, 7, 0, 0, 0, 0, 0, 9]]) (fun _ => 0) =
          some (search_finish (search_success w) true (fun _ => 0)) ∧
      x ∈ ([![0x28, 0xff, 1, 2, 3, 4, 5, 0x80], ![0x28, 0xff, 1, 2, 3, 4, 5, 0],
        ![0x10, 7, 0, 0, 0, 0, 0, 9]] : List Rom) ∧
      (search_success w)._rom_no = x ∧
      HighestZeroFork [![0x28, 0xff, 1, 2, 3, 4, 5, 0x80], ![0x28, 0xff, 1, 2, 3, 4, 5, 0],
        ![0x10, 7, 0, 0, 0, 0, 0, 9]] x (search_success w)._last_discrepancy ∧
      ((search_finish (search_success w) true (fun _ => 0)).found = true →
        (search_finish (search_success w) true (fun _ => 0)).new_addr = x ∧
        HighestZeroFork [![0x28, 0xff, 1, 2, 3, 4, 5, 0x80], ![0x28, 0xff, 1, 2, 3, 4, 5, 0],
          ![0x10, 7, 0, 0, 0, 0, 0, 9]] x
          (search_finish (search_success w) true (fun _ => 0)).one_wire._last_discrepancy) :=
  ⟨by unfold ValidRom; decide,
   last_discrepancy_is_highest_zero_fork
     [![0x28, 0xff, 1, 2, 3, 4, 5, 0x80], ![0x28, 0xff, 1, 2, 3, 4, 5, 0],
       ![0x10, 7, 0, 0, 0, 0, 0, 9]] (sim_one_wire _) (fun _ => 0) (by decide)
     (by unfold ValidRom; decide) (onSim_sim_one_wire _) (by unfold ValidRom; decide) rfl⟩

/-- Claim C12: `one_wire_search_reset` applied twice equals `one_wire_search_reset` applied
once, and for any two prior driver states `s1` and `s2` on the simulated bus with the same
set of attached devices, `one_wire_search_reset` followed by `one_wire_search` yields the
same `found` flag, the same returned identifier and the same resulting search state;
likewise the results of any number `n` of successive calls from the reset state, and the
search state they leave, are the same: they depend on the device set alone. -/
theorem reset_then_search_is_deterministic (devs : List Rom) (s1 s2 : one_wire_t SimBus)
    (new_addr : Rom) (n : Nat) (h1 : OnSim s1 devs) (h2 : OnSim s2 devs) :
    one_wire_search_reset (one_wire_search_reset s1) = one_wire_search_reset s1 ∧
    (∃ r1 r2, one_wire_search (one_wire_search_reset s1) new_addr = some r1 ∧
      one_wire_search (one_wire_search_reset s2) new_addr = some r2 ∧
      r1.found = r2.found ∧ r1.new_addr = r2.new_addr ∧
      search_state r1.one_wire = search_state r2.one_wire) ∧
    (∃ t1 t2, search_calls n (one_wire_search_reset s1) new_addr = some t1 ∧
      search_calls n (one_wire_search_reset s2) new_addr = some t2 ∧
      t1.1 = t2.1 ∧ search_state t1.2.1 = search_state t2.2.1 ∧ t1.2.2 = t2.2.2) := by
  obtain ⟨hp, he⟩ := sim_reset_erase devs s1 s2 h1 h2
  have hs := erase_trace_search_of_reset (one_wire_search_reset s1) (one_wire_search_reset s2)
    new_addr rfl rfl hp he
  obtain ⟨r1, _, hr1, _⟩ := one_wire_search_spec (one_wire_search_reset s1) new_addr
  obtain ⟨r2, _, hr2, _⟩ := one_wire_search_spec (one_wire_search_reset s2) new_addr
  rw [hr1, hr2] at hs
  simp only [Option.map_some', Option.some.injEq] at hs
  obtain ⟨hf, hn, ho⟩ := erase_trace_ret_eq r1 r2 hs
  refine ⟨rfl, ⟨r1, r2, hr1, hr2, hf, hn, search_state_of_erase _ _ ho⟩, ?_⟩
  cases n with
  | zero => exact ⟨_, _, rfl, rfl, rfl, rfl, rfl⟩
  | succ n =>
    obtain ⟨u1, hu1⟩ := search_calls_total n r1.one_wire r1.new_addr
    obtain ⟨u2, hu2⟩ := search_calls_total n r2.one_wire r2.new_addr
    have hu2b := hu2
    rw [← hn] at hu2b
    obtain ⟨i1, i2, i3⟩ := search_calls_congr n r1.one_wire r2.one_wire r1.new_addr u1 u2 ho
      hu1 hu2b
    refine ⟨((r1.found, r1.new_addr) :: u1.1, u1.2.1, u1.2.2),
      ((r2.found, r2.new_addr) :: u2.1, u2.2.1, u2.2.2), ?_, ?_, ?_,
      search_state_of_erase _ _ i2, i3⟩
    · simp only [search_calls, hr1, hu1]
    · simp only [search_calls, hr2, hu2]
    · simp [hf, hn, i1]

/-- Witness for claim C12: two drivers on the simulated bus with the same three devices,
one freshly initialised and one with a different search state and bus state. -/
theorem reset_then_search_is_deterministic_witness :
    OnSim ({ sim_one_wire [![0x28, 0xff, 1, 2, 3, 4, 5, 0x80], ![0x10, 7, 0, 0, 0, 0, 0, 9]] with
      user_data := { devices := [![0x28, 0xff, 1, 2, 3, 4, 5, 0x80], ![0x10, 7, 0, 0, 0, 0, 0, 9]],
                     active := [], cmd := [1, 0], pos := 17, phase := 2 },
      _rom_no := fun _ => 0x33, _last_discrepancy := 40, _last_device_flag := true,
      trace := [BusOp.reset 1] } : one_wire_t SimBus)
      [![0x28, 0xff, 1, 2, 3, 4, 5, 0x80], ![0x10, 7, 0, 0, 0, 0, 0, 9]] ∧
    ∃ t1 t2,
      search_calls 4 (one_wire_search_reset
        (sim_one_wire [![0x28, 0xff, 1, 2, 3, 4, 5, 0x80], ![0x10, 7, 0, 0, 0, 0, 0, 9]]))
        (fun _ => 0) = some t1 ∧
      search_calls 4 (one_wire_search_reset
        ({ sim_one_wire [![0x28, 0xff, 1, 2, 3, 4, 5, 0x80], ![0x10, 7, 0, 0, 0, 0, 0, 9]] with
          user_data := { devices := [![0x28, 0xff, 1, 2, 3, 4, 5, 0x80], ![0x10, 7, 0, 0, 0, 0, 0, 9]],
                         active := [], cmd := [1, 0], pos := 17, phase := 2 },
          _rom_no := fun _ => 0x33, _last_discrepancy := 40, _last_device_flag := true,
          trace := [BusOp.reset 1] } : one_wire_t SimBus)) (fun _ => 0) = some t2 ∧
      t1.1 = t2.1 ∧ search_state t1.2.1 = search_state t2.2.1 ∧ t1.2.2 = t2.2.2 :=
  ⟨⟨rfl, rfl, rfl, rfl⟩,
   (reset_then_search_is_deterministic
     [![0x28, 0xff, 1, 2, 3, 4, 5, 0x80], ![0x10, 7, 0, 0, 0, 0, 0, 9]] _ _ (fun _ => 0) 4
     (onSim_sim_one_wire _) ⟨rfl, rfl, rfl, rfl⟩).2.2⟩

/-- Claim C14: the predicate `_last_discrepancy <= 64` and `_last_family_discrepancy <= 8`
and (`_last_device_flag = true` implies `_last_discrepancy = 0`) holds after
`one_wire_init`, after `one_wire_search_reset` and after `one_wire_search_target`, whatever
the structure held before (so these three both establish and preserve it), and
`one_wire_search` returns a result and preserves it, for every bus behaviour. -/
theorem search_cursor_invariant {β : Type} (one_wire : one_wire_t β) (new_addr : Rom)
    (family_code : Nat) (user_data : β) (reset read_bit : β → Nat × β)
    (write_bit : β → Nat → β) :
    SearchInv (one_wire_init one_wire user_data reset read_bit write_bit) ∧
    SearchInv (one_wire_search_reset one_wire) ∧
    SearchInv (one_wire_search_target one_wire family_code) ∧
    ∃ r, one_wire_search one_wire new_addr = some r ∧
      (SearchInv one_wire → SearchInv r.one_wire) := by
  refine ⟨⟨Nat.zero_le _, Nat.zero_le _, fun h => by cases h⟩,
    ⟨Nat.zero_le _, Nat.zero_le _, fun h => by cases h⟩,
    ⟨le_refl _, Nat.zero_le _, fun h => by cases h⟩, ?_⟩
  obtain ⟨r, _, hr, _, _, _, _, hclear⟩ := one_wire_search_spec one_wire new_addr
  refine ⟨r, hr, ?_⟩
  intro hinv
  cases hf : r.found
  · obtain ⟨h1, h2, h3, _⟩ := hclear hf
    exact ⟨by rw [h1]; exact Nat.zero_le _, by rw [h2]; exact Nat.zero_le _,
      fun h => by rw [h3] at h; cases h⟩
  · obtain ⟨hflag, hno, hone⟩ := one_wire_search_found one_wire new_addr r hr hf
    have inv := passInv_walk one_wire 64 (le_refl _) hno
    have hs := search_success_fields (search_passes 64 (walk_start one_wire))
    have hw := walk_start_fields one_wire
    have hone2 : r.one_wire = search_success (search_passes 64 (walk_start one_wire)) := hone
    rw [hone2]
    refine ⟨?_, ?_, ?_⟩
    · rw [hs.1]; exact inv.hzero
    · rw [hs.2.2.1]
      exact inv.hfam (by rw [hw.2.2.1]; exact hinv.2.1)
    · rw [hs.2.2.2.1, hs.1, inv.hflag, hw.2.2.2.1, hflag]
      simp

set_option maxRecDepth 100000 in
/-- Witness for claim C14: a structure holding values that violate the predicate is put
right by `one_wire_init`, and a driver on the simulated bus in the state left by
`one_wire_search_target(0x28)` keeps the predicate across `one_wire_search`. -/
theorem search_cursor_invariant_witness :
    ¬ SearchInv ({ sim_one_wire [] with
      _last_discrepancy := 200, _last_family_discrepancy := 77, _last_device_flag := true }) ∧
    SearchInv (one_wire_init ({ sim_one_wire [] with
      _last_discrepancy := 200, _last_family_discrepancy := 77, _last_device_flag := true })
      { devices := [], active := [], cmd := [], pos := 0, phase := 0 }
      sim_reset sim_read_bit sim_write_bit) ∧
    SearchInv (one_wire_search_target (sim_one_wire [![0x28, 0xff, 1, 2, 3, 4, 5, 0x80],
      ![0x10, 7, 0, 0, 0, 0, 0, 9]]) 0x28) ∧
    ∃ r, one_wire_search (one_wire_search_target (sim_one_wire
        [![0x28, 0xff, 1, 2, 3, 4, 5, 0x80], ![0x10, 7, 0, 0, 0, 0, 0, 9]]) 0x28)
        (fun _ => 0) = some r ∧ SearchInv r.one_wire :=
  ⟨by unfold SearchInv; decide,
   (search_cursor_invariant _ (fun _ => 0) 0 _ _ _ _).1,
   by unfold SearchInv; decide,
   (search_cursor_invariant (one_wire_search_target (sim_one_wire
      [![0x28, 0xff, 1, 2, 3, 4, 5, 0x80], ![0x10, 7, 0, 0, 0, 0, 0, 9]]) 0x28) (fun _ => 0) 0
      { devices := [], active := [], cmd := [], pos := 0, phase := 0 }
      sim_reset sim_read_bit sim_write_bit).2.2.2.elim
     (fun r h => ⟨r, h.1, h.2 (by unfold SearchInv; decide)⟩)⟩

/-- Claim C15: the per-bit resolution rule.  At bit position `p = k + 1` of the walk of a
`one_wire_search` call on `one_wire`, reached without an earlier abort, with reads `b` and
`c` in `{0, 1}` that are not both `1`, and with `LD` the value of `_last_discrepancy` at
entry to the call (the loop does not update it), the direction `d` is `b` if `b != c`, and
otherwise the bit stored at position `p` of `_rom_no` if `p < LD`, `1` if `p = LD` and `0`
if `p > LD`.  The pass does not break; it performs the two reads and writes `d` to the bus;
it stores `d` at position `p` of `_rom_no` and leaves every other bit and byte of `_rom_no`
unchanged; and it records `p` as the pending fork (and as `_last_family_discrepancy` when
`p <= 8`) exactly when `b = c = 0` and `d = 0`. -/
theorem per_bit_resolution_rule {β : Type} (one_wire : one_wire_t β) (k : Nat) (hk : k < 64)
    (hprev : ∀ j < k, pass_reads (search_passes j (walk_start one_wire)) ≠ (1, 1))
    (hb : (pass_reads (search_passes k (walk_start one_wire))).1 ≤ 1)
    (hc : (pass_reads (search_passes k (walk_start one_wire))).2 ≤ 1)
    (hnot : pass_reads (search_passes k (walk_start one_wire)) ≠ (1, 1)) :
    (search_passes k (walk_start one_wire)).id_bit_number = k + 1 ∧
    (search_passes k (walk_start one_wire)).one_wire._last_discrepancy =
      one_wire._last_discrepancy ∧
    idBit (search_passes k (walk_start one_wire)).one_wire._rom_no k =
      idBit one_wire._rom_no k ∧
    (search_body (search_passes k (walk_start one_wire))).1 = false ∧
    (search_passes (k + 1) (walk_start one_wire)).one_wire.trace =
      (search_passes k (walk_start one_wire)).one_wire.trace ++
        [BusOp.read_bit (pass_reads (search_passes k (walk_start one_wire))).1,
         BusOp.read_bit (pass_reads (search_passes k (walk_start one_wire))).2,
         BusOp.write_bit (resolved_direction
           (pass_reads (search_passes k (walk_start one_wire))).1
           (pass_reads (search_passes k (walk_start one_wire))).2 (k + 1)
           one_wire._last_discrepancy (idBit one_wire._rom_no k))] ∧
    resolved_direction (pass_reads (search_passes k (walk_start one_wire))).1
      (pass_reads (search_passes k (walk_start one_wire))).2 (k + 1)
      one_wire._last_discrepancy (idBit one_wire._rom_no k) ≤ 1 ∧
    (∀ j, idBit (search_passes (k + 1) (walk_start one_wire)).one_wire._rom_no j =
      if j = k then
        decide (resolved_direction (pass_reads (search_passes k (walk_start one_wire))).1
          (pass_reads (search_passes k (walk_start one_wire))).2 (k + 1)
          one_wire._last_discrepancy (idBit one_wire._rom_no k) = 1)
      else idBit (search_passes k (walk_start one_wire)).one_wire._rom_no j) ∧
    (∀ m, m ≠ k / 8 → rd (search_passes (k + 1) (walk_start one_wire)).one_wire._rom_no m =
      rd (search_passes k (walk_start one_wire)).one_wire._rom_no m) ∧
    (search_passes (k + 1) (walk_start one_wire)).last_zero =
      (if (pass_reads (search_passes k (walk_start one_wire))).1 = 0 ∧
          (pass_reads (search_passes k (walk_start one_wire))).2 = 0 ∧
          resolved_direction (pass_reads (search_passes k (walk_start one_wire))).1
            (pass_reads (search_passes k (walk_start one_wire))).2 (k + 1)
            one_wire._last_discrepancy (idBit one_wire._rom_no k) = 0
        then k + 1 else (search_passes k (walk_start one_wire)).last_zero) ∧
    (search_passes (k + 1) (walk_start one_wire)).one_wire._last_family_discrepancy =
      (if (pass_reads (search_passes k (walk_start one_wire))).1 = 0 ∧
          (pass_reads (search_passes k (walk_start one_wire))).2 = 0 ∧
          resolved_direction (pass_reads (search_passes k (walk_start one_wire))).1
            (pass_reads (search_passes k (walk_start one_wire))).2 (k + 1)
            one_wire._last_discrepancy (idBit one_wire._rom_no k) = 0 ∧ k + 1 ≤ 8
        then k + 1
        else (search_passes k (walk_start one_wire)).one_wire._last_family_discrepancy) ∧
    (search_passes (k + 1) (walk_start one_wire)).one_wire._last_discrepancy =
      one_wire._last_discrepancy := by
  have inv := passInv_walk one_wire k (by omega) hprev
  have hw := walk_start_fields one_wire
  obtain ⟨hbr, htr, hrom, hlz, hlfd, hld, _⟩ :=
    search_body_facts (search_passes k (walk_start one_wire)) k hk inv.hcount hnot
  have hLD : (search_passes k (walk_start one_wire)).one_wire._last_discrepancy =
      one_wire._last_discrepancy := by rw [inv.hld, hw.2.1]
  have hbit : idBit (search_passes k (walk_start one_wire)).one_wire._rom_no k =
      idBit one_wire._rom_no k := by rw [inv.hrest k (le_refl k), hw.2.2.2.2]
  rw [hLD, hbit] at htr hrom hlz hlfd
  rw [search_passes_succ]
  generalize pass_reads (search_passes k (walk_start one_wire)) = bc at *
  obtain ⟨b, c⟩ := bc
  simp only at hb hc hnot htr hrom hlz hlfd ⊢
  have hbc : b = c ↔ b = 0 ∧ c = 0 := by
    constructor
    · intro h
      subst h
      have : b ≠ 1 := fun h1 => hnot (by rw [h1])
      omega
    · rintro ⟨h1, h2⟩; rw [h1, h2]
  refine ⟨inv.hcount.1, hLD, hbit, hbr, ?_, ?_, ?_, ?_, ?_, ?_, ?_⟩
  · rw [htr]; rfl
  · unfold resolved_direction
    split
    · exact hb
    · split
      · split <;> omega
      · split <;> omega
  · intro j
    rw [hrom, idBit_setBit_any _ k j _ hk]
  · intro m hm
    rw [hrom, rd_setBit_other _ _ _ _ hm]
  · rw [hlz]
    by_cases h0 : b = c ∧ resolved_direction b c (k + 1) one_wire._last_discrepancy
        (idBit one_wire._rom_no k) = 0
    · rw [if_pos h0, if_pos ⟨(hbc.mp h0.1).1, (hbc.mp h0.1).2, h0.2⟩]
    · rw [if_neg h0, if_neg (fun h => h0 ⟨hbc.mpr ⟨h.1, h.2.1⟩, h.2.2⟩)]
  · rw [hlfd]
    by_cases h0 : b = c ∧ resolved_direction b c (k + 1) one_wire._last_discrepancy
        (idBit one_wire._rom_no k) = 0 ∧ k + 1 ≤ 8
    · rw [if_pos h0, if_pos ⟨(hbc.mp h0.1).1, (hbc.mp h0.1).2, h0.2.1, h0.2.2⟩]
    · rw [if_neg h0, if_neg (fun h => h0 ⟨hbc.mpr ⟨h.1, h.2.1⟩, h.2.2.1, h.2.2.2⟩)]
  · rw [hld, hLD]

set_option maxRecDepth 1000000 in
/-- Witness for claim C15: bit position 3 of the first walk on the simulated bus holding
`01 00 00 00 00 00 00 00` and `05 00 00 00 00 00 00 00`: both reads are `0`, the search
state is cleared, so the direction is `0` and position 3 becomes the pending fork. -/
theorem per_bit_resolution_rule_witness :
    pass_reads (search_passes 2 (walk_start
      (sim_one_wire [![1, 0, 0, 0, 0, 0, 0, 0], ![5, 0, 0, 0, 0, 0, 0, 0]]))) = (0, 0) ∧
    (search_passes 3 (walk_start
      (sim_one_wire [![1, 0, 0, 0, 0, 0, 0, 0], ![5, 0, 0, 0, 0, 0, 0, 0]]))).last_zero = 3 ∧
    (search_passes 3 (walk_start
      (sim_one_wire [![1, 0, 0, 0, 0, 0, 0, 0], ![5, 0, 0, 0, 0, 0, 0, 0]]))).one_wire._last_family_discrepancy
      = 3 := by
  have hr : pass_reads (search_passes 2 (walk_start
      (sim_one_wire [![1, 0, 0, 0, 0, 0, 0, 0], ![5, 0, 0, 0, 0, 0, 0, 0]]))) = (0, 0) := by
    decide
  have hprev : ∀ j < 2, pass_reads (search_passes j (walk_start
      (sim_one_wire [![1, 0, 0, 0, 0, 0, 0, 0], ![5, 0, 0, 0, 0, 0, 0, 0]]))) ≠ (1, 1) := by
    decide
  obtain ⟨_, _, _, _, _, _, _, _, hlz, hlfd, _⟩ :=
    per_bit_resolution_rule (sim_one_wire [![1, 0, 0, 0, 0, 0, 0, 0], ![5, 0, 0, 0, 0, 0, 0, 0]])
      2 (by norm_num) hprev (by rw [hr]; norm_num) (by rw [hr]; norm_num) (by rw [hr]; decide)
  rw [hr] at hlz hlfd
  refine ⟨hr, ?_, ?_⟩
  · rw [hlz]; decide
  · rw [hlfd]; decide

/-- Claim C16: for every non-terminal search state and every bus behaviour,
`one_wire_search` returns, and its sequence of bus operations is exactly: one reset; if
presence was reported, 8 `write_bit` calls spelling `0xF0` least significant first
(0,0,0,0,1,1,1,1), then `k <= 64` rounds of (`read_bit`, `read_bit`, `write_bit`), followed
by one extra pair of reads, both returning `1`, with no write exactly when the walk aborted
with `k < 64`.  If no presence was reported the trace is the single reset.  The walk counts
as a success (`id_bit_number` is not below 65) exactly when `k = 64`.  Here `rounds` lists
the two bits read and the bit written in each round, and `k = rounds.length`. -/
theorem search_bus_trace {β : Type} (one_wire : one_wire_t β) (new_addr : Rom)
    (hflag : one_wire._last_device_flag = false) :
    ∃ (r : search_ret β) (rounds : List (Nat × Nat × Nat)),
      one_wire_search one_wire new_addr = some r ∧ rounds.length ≤ 64 ∧
      r.one_wire.trace = one_wire.trace ++
        [BusOp.reset (one_wire.reset one_wire.user_data).1] ++
        (if (one_wire.reset one_wire.user_data).1 = 0 then []
         else [0, 0, 0, 0, 1, 1, 1, 1].map BusOp.write_bit ++ rounds.flatMap round_ops ++
           (if rounds.length < 64 then [BusOp.read_bit 1, BusOp.read_bit 1] else [])) ∧
      ((one_wire.reset one_wire.user_data).1 ≠ 0 →
        ∃ w, search_walk one_wire = some (some w) ∧ w.id_bit_number = rounds.length + 1 ∧
          (¬ w.id_bit_number < 65 ↔ rounds.length = 64)) ∧
      (r.found = true → rounds.length = 64) := by
  by_cases hp : (one_wire.reset one_wire.user_data).1 = 0
  · refine ⟨_, [], one_wire_search_no_presence one_wire new_addr hflag hp, by simp, ?_,
      fun h => absurd hp h, fun h => by cases h⟩
    simp [hp, one_wire_search_reset, one_wire_reset]
  · obtain ⟨w, rounds, hloop, hlen, hid, htr⟩ :=
      search_loop_trace 64 0 (walk_start one_wire) rfl (by norm_num) ⟨rfl, rfl, rfl⟩
    have hwalk := search_walk_of_loop one_wire w hp hloop
    have hws := walk_start_fields one_wire
    have hid2 : w.id_bit_number = rounds.length + 1 := by rw [hid]; omega
    have htrace : w.one_wire.trace = one_wire.trace ++
        [BusOp.reset (one_wire.reset one_wire.user_data).1] ++
        ([0, 0, 0, 0, 1, 1, 1, 1].map BusOp.write_bit ++ rounds.flatMap round_ops ++
          (if rounds.length < 64 then [BusOp.read_bit 1, BusOp.read_bit 1] else [])) := by
      rw [htr, hws.1]
      simp only [List.append_assoc]
    by_cases hlt : w.id_bit_number < 65
    · refine ⟨_, rounds, one_wire_search_abort one_wire new_addr w hflag hwalk hlt, hlen, ?_,
        fun _ => ⟨w, hwalk, hid2, by omega⟩, ?_⟩
      · rw [search_finish_trace, htrace, if_neg hp]
      · rw [search_finish_false]; intro h; cases h
    · refine ⟨_, rounds, one_wire_search_success one_wire new_addr w hflag hwalk hlt, hlen, ?_,
        fun _ => ⟨w, hwalk, hid2, by omega⟩, fun _ => by omega⟩
      rw [search_finish_trace, (search_success_fields w).2.2.2.2.1, htrace, if_neg hp]

set_option maxRecDepth 100000 in
/-- Witness for claim C16: the shorted bus, on which the walk aborts at the first pass. -/
theorem search_bus_trace_witness :
    shorted_one_wire._last_device_flag = false ∧
    ∃ (r : search_ret Unit) (rounds : List (Nat × Nat × Nat)),
      one_wire_search shorted_one_wire (fun _ => 0) = some r ∧ rounds.length ≤ 64 ∧
      r.one_wire.trace = shorted_one_wire.trace ++
        [BusOp.reset (shorted_one_wire.reset shorted_one_wire.user_data).1] ++
        (if (shorted_one_wire.reset shorted_one_wire.user_data).1 = 0 then []
         else [0, 0, 0, 0, 1, 1, 1, 1].map BusOp.write_bit ++ rounds.flatMap round_ops ++
           (if rounds.length < 64 then [BusOp.read_bit 1, BusOp.read_bit 1] else [])) ∧
      ((shorted_one_wire.reset shorted_one_wire.user_data).1 ≠ 0 →
        ∃ w, search_walk shorted_one_wire = some (some w) ∧
          w.id_bit_number = rounds.length + 1 ∧
          (¬ w.id_bit_number < 65 ↔ rounds.length = 64)) ∧
      (r.found = true → rounds.length = 64) :=
  ⟨rfl, search_bus_trace shorted_one_wire (fun _ => 0) rfl⟩

end OneWire
